import Mathlib

/-!
# File Compression II: a Lean model of `util.h`

A shallow embedding of the Huffman pipeline of `util.h`
(`buildFrequencyMap`, `buildEncodingTree`, `buildEncodingMap`, `encode`,
`decode`, `compress`, `decompress`) together with the properties proved
about it.

Conventions of the embedding:

* a C++ `char` is a byte, `Fin 256`; the conversion to `int` is the one of a
  signed `char` (`charToInt`), the narrowing back is `intToChar`;
* `int` is a 32-bit two's complement integer: a value stored into an `int`
  is reduced by `wrapInt`;
* a `HuffmanNode*` is the inductive type `HuffmanNode`, whose constructor
  `null` is the null pointer; dereferencing `null` makes the enclosing
  function return `none`;
* `std::priority_queue` is the binary heap of libstdc++ over the underlying
  vector (a `List`), its loops run on fuel that is always sufficient.
-/

namespace FileCompression

/-! ## Symbols, characters and machine integers -/

/-- Modelled from the spec: `PSEUDO_EOF` is declared in `bitstream.h`, which is
not among the sources; the END-OF-STREAM sentinel is the first integer above
the byte values. -/
def PSEUDO_EOF : Int := 256

/-- Modelled from the spec: `NOT_A_CHAR` is declared in `bitstream.h`, which is
not among the sources; the INTERNAL marker is a second reserved integer,
distinct from every byte value and from `PSEUDO_EOF`. -/
def NOT_A_CHAR : Int := 257

/-- A C++ `char`: one byte. -/
abbrev CChar := Fin 256

/-- The conversion `char → int` (signed `char`). -/
def charToInt (c : CChar) : Int :=
  if c.val < 128 then (c.val : Int) else (c.val : Int) - 256

/-- The narrowing conversion `int → char`: the value modulo `2^8`. -/
def intToChar (i : Int) : CChar :=
  ⟨(i % 256).toNat, by
    have h1 : 0 ≤ i % 256 := Int.emod_nonneg i (by norm_num)
    have h2 : i % 256 < 256 := Int.emod_lt_of_pos i (by norm_num)
    omega⟩

/-- A value stored into a 32-bit `int`: reduced modulo `2^32` into
`[-2^31, 2^31)`. -/
def wrapInt (x : Int) : Int := (x + 2147483648) % 4294967296 - 2147483648

/-! ## The map primitives -/

/-- Modelled from the spec: `hashmap.h` is not among the sources. A frequency
table is a finite association from symbols to counts ("get/put/containsKey/
keys", no ordering required); it is represented by its entries in the order
in which `keys()` enumerates them, here the order of first insertion. The
counts are the integers of the spec; they are reduced to `int` where
`util.h` stores them into `HuffmanNode::count`. -/
abbrev hashmap := List (Int × Int)

/-- Modelled from the spec: `hashmap::containsKey`. -/
def hashmap.containsKey : hashmap → Int → Bool
  | [], _ => false
  | (k, _) :: m, key => if k = key then true else hashmap.containsKey m key

/-- Modelled from the spec: `hashmap::get`; every call of `util.h` is on a key
that is present, an absent key reads as `0`. -/
def hashmap.get : hashmap → Int → Int
  | [], _ => 0
  | (k, v) :: m, key => if k = key then v else hashmap.get m key

/-- Modelled from the spec: `hashmap::put`, which replaces the value of a key
that is present and adds an entry for a key that is absent. -/
def hashmap.put : hashmap → Int → Int → hashmap
  | [], key, value => [(key, value)]
  | (k, v) :: m, key, value =>
    if k = key then (k, value) :: m else (k, v) :: hashmap.put m key value

/-- Modelled from the spec: `hashmap::keys`. -/
def hashmap.keys (m : hashmap) : List Int := m.map Prod.fst

/-- Modelled from the spec: `mymap.h` is not among the sources. A code table
is a finite association from symbols to strings of the characters `'0'` and
`'1'`. -/
abbrev mymap := List (Int × List Char)

/-- Modelled from the spec: `mymap::put`. -/
def mymap.put : mymap → Int → List Char → mymap
  | [], key, value => [(key, value)]
  | (k, v) :: m, key, value =>
    if k = key then (k, value) :: m else (k, v) :: mymap.put m key value

/-- Modelled from the spec: `mymap::get`; a symbol without an entry is the
lookup failure of the encoder, `none`. -/
def mymap.get : mymap → Int → Option (List Char)
  | [], _ => none
  | (k, v) :: m, key => if k = key then some v else mymap.get m key

/-! ## Tree nodes -/

/-- A `HuffmanNode*`: the null pointer, or a node with its four fields. -/
inductive HuffmanNode where
  | null : HuffmanNode
  | mk (character : Int) (count : Int) (zero one : HuffmanNode) : HuffmanNode
  deriving DecidableEq, Repr

/-- The field `count` (read only through pointers that are not null). -/
def HuffmanNode.count : HuffmanNode → Int
  | .null => 0
  | .mk _ c _ _ => c

/-- The comparison of `class prioritize`. -/
def prioritize (p1 p2 : HuffmanNode) : Bool := decide (p1.count > p2.count)

/-! ## The priority queue (binary heap of libstdc++) -/

/-- The loop of `std::__push_heap`: the hole moves up while the parent compares
above `value`. The hole decreases at every iteration, so `fuel = holeIndex`
iterations suffice: when the fuel is spent the hole is at the root and the
loop condition fails. -/
def push_heap_loop :
    Nat → List HuffmanNode → Nat → Nat → HuffmanNode → List HuffmanNode
  | 0, first, holeIndex, _, value => first.set holeIndex value
  | fuel + 1, first, holeIndex, topIndex, value =>
    let parent := (holeIndex - 1) / 2
    if holeIndex > topIndex ∧ prioritize (first.getD parent .null) value = true then
      push_heap_loop fuel (first.set holeIndex (first.getD parent .null))
        parent topIndex value
    else first.set holeIndex value

/-- The function `std::__push_heap`. -/
def push_heap_aux (first : List HuffmanNode) (holeIndex topIndex : Nat)
    (value : HuffmanNode) : List HuffmanNode :=
  push_heap_loop holeIndex first holeIndex topIndex value

/-- The function `std::push_heap` on the whole vector: the last element is
sifted up. -/
def push_heap (v : List HuffmanNode) : List HuffmanNode :=
  push_heap_aux v (v.length - 1) 0 (v.getD (v.length - 1) .null)

/-- The first loop of `std::__adjust_heap`: the hole moves down to the child
that does not compare above its sibling. Returns the vector, the hole and
`secondChild`. The hole increases at every iteration and stays below `len`,
so `fuel = len` iterations suffice. -/
def adjust_heap_loop :
    Nat → List HuffmanNode → Nat → Nat → Nat → List HuffmanNode × Nat × Nat
  | 0, first, holeIndex, secondChild, _ => (first, holeIndex, secondChild)
  | fuel + 1, first, holeIndex, secondChild, len =>
    if secondChild < (len - 1) / 2 then
      let sc := 2 * (secondChild + 1)
      let sc :=
        if prioritize (first.getD sc .null) (first.getD (sc - 1) .null) = true
        then sc - 1 else sc
      adjust_heap_loop fuel (first.set holeIndex (first.getD sc .null)) sc sc len
    else (first, holeIndex, secondChild)

/-- The function `std::__adjust_heap`. The source compares `secondChild` with
`(len - 2) / 2` on signed integers; the condition `2 ≤ len` keeps the
subtraction on natural numbers from matching when `len < 2`. -/
def adjust_heap (first : List HuffmanNode) (holeIndex len : Nat)
    (value : HuffmanNode) : List HuffmanNode :=
  let topIndex := holeIndex
  let (first, holeIndex, secondChild) :=
    adjust_heap_loop len first holeIndex holeIndex len
  if len % 2 = 0 ∧ secondChild = (len - 2) / 2 ∧ 2 ≤ len then
    let sc := 2 * (secondChild + 1)
    push_heap_aux (first.set holeIndex (first.getD (sc - 1) .null))
      (sc - 1) topIndex value
  else push_heap_aux first holeIndex topIndex value

/-- The function `std::pop_heap` on the whole vector: the top is moved to the
last position and the former last element is sifted down from the root. -/
def pop_heap (v : List HuffmanNode) : List HuffmanNode :=
  if v.length > 1 then
    let last := v.length - 1
    let value := v.getD last .null
    adjust_heap (v.set last (v.getD 0 .null)) 0 last value
  else v

/-- The method `priority_queue::push`. -/
def pq_push (pq : List HuffmanNode) (x : HuffmanNode) : List HuffmanNode :=
  push_heap (pq ++ [x])

/-- The method `priority_queue::top`; on an empty queue the model returns the
null pointer. -/
def pq_top (pq : List HuffmanNode) : HuffmanNode := pq.getD 0 .null

/-- The method `priority_queue::pop`. -/
def pq_pop (pq : List HuffmanNode) : List HuffmanNode := (pop_heap pq).dropLast

/-! ## Files and bit streams -/

/-- Modelled from the spec: the container layout is produced by `bitstream.h`
and `hashmap.h`, which are not among the sources. A file is a sequence of
bytes, or a container: a frequency-table header followed by the bits of the
payload. -/
inductive File where
  | bytes (data : List CChar) : File
  | huf (header : hashmap) (payload : List Bool) : File
  deriving DecidableEq

/-- The files of the host, by name (a name is a C++ `string`). -/
abbrev FileSystem := List CChar → Option File

/-- The file system after `name` has been (re)written with `f`. -/
def FileSystem.write (fs : FileSystem) (name : List CChar) (f : File) : FileSystem :=
  fun n => if n = name then some f else fs n

/-- The bytes that `ifstream inFS(filename)` followed by `inFS.get(c)` until
failure delivers: none when the file cannot be opened; the bytes of a
container read as text are not modelled (`none`). -/
def readBytes (fs : FileSystem) (filename : List CChar) : Option (List CChar) :=
  match fs filename with
  | none => some []
  | some (.bytes data) => some data
  | some (.huf _ _) => none

/-- Modelled from the spec: `ifbitstream` (from `bitstream.h`, not among the
sources): the bits still to be read and the end-of-file flag that `eof()`
reports, which is set by a read that finds no bit left. -/
structure ifbitstream where
  bits : List Bool
  eofbit : Bool

/-- Modelled from the spec: `ifbitstream::readBit`, which returns `0` or `1`,
and `-1` (setting the end-of-file flag) when no bit is left. -/
def ifbitstream.readBit (s : ifbitstream) : Int × ifbitstream :=
  match s.bits with
  | [] => (-1, { bits := [], eofbit := true })
  | b :: bs => ((if b then 1 else 0), { bits := bs, eofbit := s.eofbit })

/-- Modelled from the spec: the byte packing of `ofbitstream`: the bits read
back from a payload are the bits written followed by zero bits up to the next
multiple of eight. -/
def padBits (bits : List Bool) : List Bool :=
  bits ++ List.replicate ((8 - bits.length % 8) % 8) false

/-- Text of a C++ string literal as bytes. -/
def str (s : String) : List CChar := s.toList.map (fun c => intToChar c.toNat)

/-! ## `buildFrequencyMap` -/

/-- The loop body shared by the two branches of `buildFrequencyMap`: one more
occurrence of the character `c`. -/
def countChar (map : hashmap) (c : CChar) : hashmap :=
  if map.containsKey (charToInt c) = true then
    map.put (charToInt c) (map.get (charToInt c) + 1)
  else map.put (charToInt c) 1

/-- The function `buildFrequencyMap`: counts the bytes of the file `filename`
(when `isFile`) or of the string `filename` itself, then puts `PSEUDO_EOF`
with count `1`. -/
def buildFrequencyMap (fs : FileSystem) (filename : List CChar) (isFile : Bool)
    (map : hashmap) : Option hashmap :=
  if isFile then
    match readBytes fs filename with
    | none => none
    | some data => some ((data.foldl countChar map).put PSEUDO_EOF 1)
  else some ((filename.foldl countChar map).put PSEUDO_EOF 1)

/-! ## `buildEncodingTree` -/

/-- The first loop of `buildEncodingTree`: one leaf per key, pushed on the
queue in the order of `keys()`. -/
def pushLeaves (map : hashmap) : List Int → List HuffmanNode → List HuffmanNode
  | [], pq => pq
  | key :: vec, pq =>
    pushLeaves map vec (pq_push pq (.mk key (wrapInt (map.get key)) .null .null))

/-- The second loop of `buildEncodingTree`: while more than one node is
queued, the two nodes popped become the children of a new node. Each
iteration shortens the queue by one, so `fuel = pq.size()` suffices. -/
def mergeLoop : Nat → List HuffmanNode → List HuffmanNode
  | 0, pq => pq
  | fuel + 1, pq =>
    if pq.length > 1 then
      let first := pq_top pq
      let pq := pq_pop pq
      let second := pq_top pq
      let pq := pq_pop pq
      let node := HuffmanNode.mk NOT_A_CHAR (wrapInt (first.count + second.count))
        first second
      mergeLoop fuel (pq_push pq node)
    else pq

/-- The function `buildEncodingTree`. -/
def buildEncodingTree (map : hashmap) : HuffmanNode :=
  let pq := pushLeaves map map.keys []
  pq_top (mergeLoop pq.length pq)

/-! ## `buildEncodingMap` -/

/-- The function `_treeRecursion`; reading `node->character` through a null
pointer gives `none`. -/
def _treeRecursion : HuffmanNode → List Char → mymap → Option mymap
  | .null, _, _ => none
  | .mk character _ zero one, s, map =>
    if character ≠ NOT_A_CHAR then some (map.put character s)
    else
      match _treeRecursion zero (s ++ ['0']) map with
      | none => none
      | some map => _treeRecursion one (s ++ ['1']) map

/-- The function `buildEncodingMap`. -/
def buildEncodingMap (tree : HuffmanNode) : Option mymap :=
  _treeRecursion tree [] []

/-! ## `encode` and `decode` -/

/-- The first loop of `encode`: the codes of the input bytes are appended to
`str`; a byte without a code is the lookup failure. -/
def encodeLoop (encodingMap : mymap) : List CChar → List Char → Option (List Char)
  | [], s => some s
  | c :: input, s =>
    match encodingMap.get (charToInt c) with
    | none => none
    | some code => encodeLoop encodingMap input (s ++ code)

/-- The second loop of `encode`: one `writeBit` per character `'0'` or `'1'`. -/
def writeBits : List Char → List Bool
  | [] => []
  | o :: s =>
    (if o = '0' then [false] else []) ++ (if o = '1' then [true] else [])
      ++ writeBits s

/-- The function `encode`: returns the string, the value stored in `size` and
the bits written to `output`. -/
def encode (input : List CChar) (encodingMap : mymap) (makeFile : Bool) :
    Option (List Char × Int × List Bool) :=
  match encodeLoop encodingMap input [] with
  | none => none
  | some s =>
    match encodingMap.get PSEUDO_EOF with
    | none => none
    | some code =>
      let s := s ++ code
      some (s, wrapInt s.length, if makeFile then writeBits s else [])

/-- The pointer `curr->zero`. -/
def HuffmanNode.zero? : HuffmanNode → Option HuffmanNode
  | .null => none
  | .mk _ _ zero _ => some zero

/-- The pointer `curr->one`. -/
def HuffmanNode.one? : HuffmanNode → Option HuffmanNode
  | .null => none
  | .mk _ _ _ one => some one

/-- The field `curr->character`. -/
def HuffmanNode.character? : HuffmanNode → Option Int
  | .null => none
  | .mk character _ _ _ => some character

/-- The loop of `decode`; each iteration reads a bit or sets the end-of-file
flag, so `fuel = number of bits + 1` iterations suffice. A dereference of the
null pointer gives `none`. -/
def decodeLoop (encodingTree : HuffmanNode) :
    Nat → ifbitstream → HuffmanNode → List CChar → Option (List CChar)
  | 0, _, _, s => some s
  | fuel + 1, input, curr, s =>
    if input.eofbit = true then some s
    else
      let (bit, input) := input.readBit
      match (if bit = 0 then curr.zero? else some curr) with
      | none => none
      | some curr =>
        match (if bit = 1 then curr.one? else some curr) with
        | none => none
        | some curr =>
          match curr.character? with
          | none => none
          | some character =>
            if character = PSEUDO_EOF then some s
            else if character ≠ NOT_A_CHAR then
              decodeLoop encodingTree fuel input encodingTree (s ++ [intToChar character])
            else decodeLoop encodingTree fuel input curr s

/-- The function `decode`: the string returned, which is also what is written
to `output`. -/
def decode (input : ifbitstream) (encodingTree : HuffmanNode) : Option (List CChar) :=
  decodeLoop encodingTree (input.bits.length + 1) input encodingTree []

/-! ## `compress` and `decompress` -/

/-- The method `string::find`: the first position at which `pat` occurs in
`s`, `none` for `npos`. -/
def find (s pat : List CChar) : Option Nat :=
  match s with
  | [] => if pat = [] then some 0 else none
  | c :: cs =>
    if pat.isPrefixOf (c :: cs) = true then some 0
    else (find cs pat).map (· + 1)

/-- The call `s.substr(0, n)`, where `n` may be `npos`. -/
def substr0 (s : List CChar) (n : Option Nat) : List CChar :=
  match n with
  | none => s
  | some n => s.take n

/-- The function `compress`: returns the bit pattern and the file system with
the container `filename + ".huf"` written. -/
def compress (fs : FileSystem) (filename : List CChar) :
    Option (List Char × FileSystem) :=
  match buildFrequencyMap fs filename true [] with
  | none => none
  | some map =>
    let tree := buildEncodingTree map
    match buildEncodingMap tree with
    | none => none
    | some encodingMap =>
      let fs1 := fs.write (filename ++ str ".huf") (.huf map [])
      match readBytes fs1 filename with
      | none => none
      | some input =>
        match encode input encodingMap true with
        | none => none
        | some (s, _, bits) =>
          some (s, fs.write (filename ++ str ".huf") (.huf map (padBits bits)))

/-- The frequency table that `decompress` passes to `buildEncodingTree`: the
header read from the container, updated by `buildFrequencyMap` on the file
whose name is `filename` cut before `".huf"`; together with the file system
in which the output file has been created. -/
def decompressTable (fs : FileSystem) (filename : List CChar) :
    Option (hashmap × List Bool × List CChar × FileSystem) :=
  match fs filename with
  | some (.huf header payload) =>
    let s := substr0 filename (find filename (str ".txt"))
    let filename := substr0 filename (find filename (str ".huf"))
    let fs1 := fs.write (s ++ str "_unc.txt") (.bytes [])
    match buildFrequencyMap fs1 filename true header with
    | none => none
    | some map => some (map, payload, s ++ str "_unc.txt", fs1)
  | _ => none

/-- The function `decompress`: returns the decoded string and the file system
with the output file written. -/
def decompress (fs : FileSystem) (filename : List CChar) :
    Option (List CChar × FileSystem) :=
  match decompressTable fs filename with
  | none => none
  | some (map, payload, outName, fs1) =>
    let tree := buildEncodingTree map
    match decode { bits := payload, eofbit := false } tree with
    | none => none
    | some s => some (s, fs1.write outName (.bytes s))

/-! ## Notions used to state the properties -/

/-- A code tree: a leaf holds a symbol other than `NOT_A_CHAR` and has no
child, an internal node holds `NOT_A_CHAR` and has two children that are code
trees. -/
inductive IsCodeTree : HuffmanNode → Prop
  | leaf (character count : Int) (h : character ≠ NOT_A_CHAR) :
      IsCodeTree (.mk character count .null .null)
  | node (count : Int) (zero one : HuffmanNode) (hz : IsCodeTree zero)
      (ho : IsCodeTree one) : IsCodeTree (.mk NOT_A_CHAR count zero one)

/-- The root-to-leaf paths of a tree, left to right: each symbol met on a node
whose symbol is not `NOT_A_CHAR`, with the path leading to it (`'0'` for the
zero child, `'1'` for the one child). -/
def paths : HuffmanNode → List (Int × List Char)
  | .null => []
  | .mk character _ zero one =>
    if character ≠ NOT_A_CHAR then [(character, [])]
    else (paths zero).map (fun e => (e.1, '0' :: e.2))
      ++ (paths one).map (fun e => (e.1, '1' :: e.2))

/-- The symbols on the leaves of a tree, left to right. -/
def leafSymbols (t : HuffmanNode) : List Int := (paths t).map Prod.fst

/-- The leaf that `buildEncodingTree` creates for `key`. -/
def mkLeaf (map : hashmap) (key : Int) : HuffmanNode :=
  .mk key (wrapInt (map.get key)) .null .null

/-- The table after the entries `es` have been put, in order. -/
def putAll (m : mymap) (es : List (Int × List Char)) : mymap :=
  es.foldl (fun m e => m.put e.1 e.2) m

/-- What `decode` returns, with the tree of the table `m2`, for the payload
that `encode` writes of `X` with the code table of the tree of the table
`m1`. -/
def decodeWith (m1 m2 : hashmap) (X : List CChar) : Option (List CChar) :=
  match buildEncodingMap (buildEncodingTree m1) with
  | none => none
  | some codes =>
    match encode X codes true with
    | none => none
    | some (_, _, bits) => decode ⟨padBits bits, false⟩ (buildEncodingTree m2)

/-- The file system that holds the single file `name` with the text `x`. -/
def singleFile (name x : String) : FileSystem :=
  fun n => if n = str name then some (.bytes (str x)) else none

/-- The text that `decompress` returns for the container that `compress`
makes of the file `filename`, in the file system that `compress` leaves (the
original file being still there). -/
def compressThenDecompress (fs : FileSystem) (filename : List CChar) :
    Option (List CChar) :=
  match compress fs filename with
  | none => none
  | some (_, fs1) => (decompress fs1 (filename ++ str ".huf")).map (·.1)

/-- The round trip of `compress` and `decompress` on the single file `name`
holding the text `x`. -/
def roundTrip (name x : String) : Option (List CChar) :=
  compressThenDecompress (singleFile name x) (str name)

/-- The frequency table that `compress` builds for a file holding `X`. -/
def compressTable (X : List CChar) : hashmap :=
  (X.foldl countChar []).put PSEUDO_EOF 1

/-- The frequency table that `decompress` builds from the header
`compressTable X` when the original file, holding `X`, is still there. -/
def recountTable (X : List CChar) : hashmap :=
  (X.foldl countChar (compressTable X)).put PSEUDO_EOF 1

/-- The name of the output file of `decompress`. -/
def outputName (filename : List CChar) : List CChar :=
  substr0 filename (find filename (str ".txt")) ++ str "_unc.txt"

/-- The count of the node at position `i` of the vector of the queue. -/
def countAt (v : List HuffmanNode) (i : Nat) : Int := (v.getD i .null).count

/-- The first `n` nodes of `v` form a heap for `prioritize`: no node has a
smaller count than its parent, so that the top has the smallest count. -/
def IsHeapUpTo (v : List HuffmanNode) (n : Nat) : Prop :=
  ∀ i, 0 < i → i < n → countAt v ((i - 1) / 2) ≤ countAt v i

/-- The heap invariant of the queue. -/
def IsHeap (v : List HuffmanNode) : Prop := IsHeapUpTo v v.length

/-- A heap with a hole at position `h`: the heap order holds between all
positions other than `h`, and between the parent and the children of `h`. -/
def HeapHole (v : List HuffmanNode) (n h : Nat) : Prop :=
  (∀ i, 0 < i → i < n → i ≠ h → (i - 1) / 2 ≠ h → countAt v ((i - 1) / 2) ≤ countAt v i) ∧
  (∀ i, 0 < i → i < n → (i - 1) / 2 = h → 0 < h → countAt v ((h - 1) / 2) ≤ countAt v i)

/-- The cost of Huffman's algorithm on a list of weights, on fuel: while two
weights or more are left, the two smallest are replaced by their sum, which
is added to the cost. -/
def huffmanCostAux : Nat → List Int → Int
  | 0, _ => 0
  | fuel + 1, ws =>
    match ws.insertionSort (· ≤ ·) with
    | a :: b :: rest => a + b + huffmanCostAux fuel ((a + b) :: rest)
    | _ => 0

/-- The cost of Huffman's algorithm on a list of weights. -/
def huffmanCost (ws : List Int) : Int := huffmanCostAux ws.length ws

/-- The cost of a list of pairs (weight, code length). -/
def pairCost (ps : List (Int × Nat)) : Int := (ps.map (fun e => e.1 * (e.2 : Int))).sum

/-- The Kraft sum of a list of code lengths, scaled by `2 ^ M`. -/
def kraftSum (M : Nat) (ls : List Nat) : Nat := (ls.map (fun l => 2 ^ (M - l))).sum

/-- The codes that start with the bit `b`, without that bit. -/
def tailsOf (b : Bool) (cs : List (List Bool)) : List (List Bool) :=
  cs.filterMap (fun c => match c with
    | [] => none
    | x :: t => if x = b then some t else none)

/-- The leaves of a tree, left to right: symbol, count and path of each. -/
def leafInfo : HuffmanNode → List (Int × Int × List Char)
  | .null => []
  | .mk character count zero one =>
    if character ≠ NOT_A_CHAR then [(character, count, [])]
    else (leafInfo zero).map (fun e => (e.1, e.2.1, '0' :: e.2.2))
      ++ (leafInfo one).map (fun e => (e.1, e.2.1, '1' :: e.2.2))

/-- The entries (symbol, count) on the leaves of a tree. -/
def leafEntries (t : HuffmanNode) : List (Int × Int) :=
  (leafInfo t).map (fun e => (e.1, e.2.1))

/-- The sum of the counts on the leaves of a tree. -/
def leafSum (t : HuffmanNode) : Int := ((leafInfo t).map (fun e => e.2.1)).sum

/-- The weighted path length of a tree: the sum over its leaves of count
times depth. -/
def treeCost (t : HuffmanNode) : Int :=
  ((leafInfo t).map (fun e => e.2.1 * (e.2.2.length : Int))).sum

/-- The total weighted code length of a table: the sum over its entries of
count times the length given to the symbol. -/
def tableCost (map : hashmap) (len : Int → Nat) : Int :=
  (map.map (fun e => e.2 * (len e.1 : Int))).sum

/-- The length of the code of a symbol in a code table. -/
def codeLength (codes : mymap) (k : Int) : Nat := ((codes.get k).getD []).length

/-- The table of four symbols counted `2^30` times each. -/
def bigTable : hashmap :=
  [(97, 1073741824), (98, 1073741824), (99, 1073741824), (100, 1073741824)]

/-- A code of two bits for each of the four symbols of `bigTable`. -/
def twoBitCode (k : Int) : List Bool :=
  if k = 97 then [false, false] else if k = 98 then [false, true]
  else if k = 99 then [true, false] else [true, true]

/-- The table `{a:5, b:9, c:12, d:13, e:16, f:45}`. -/
def handTable : hashmap := [(97, 5), (98, 9), (99, 12), (100, 13), (101, 16), (102, 45)]

/-- The node reached from `t` along the path `p` (`'0'` for the zero child,
`'1'` for the one child); the null pointer when the path leaves the tree. -/
def walk : HuffmanNode → List Char → HuffmanNode
  | t, [] => t
  | .null, _ :: _ => .null
  | .mk _ _ zero one, c :: p =>
    if c = '0' then walk zero p else if c = '1' then walk one p else .null

/-- The number of nodes of a tree that hold `NOT_A_CHAR`. -/
def internalNodes : HuffmanNode → Nat
  | .null => 0
  | .mk character _ zero one =>
    if character ≠ NOT_A_CHAR then 0 else 1 + internalNodes zero + internalNodes one

/-- The nodes of a tree, the root first. -/
def nodes : HuffmanNode → List HuffmanNode
  | .null => []
  | .mk character count zero one =>
    .mk character count zero one :: (nodes zero ++ nodes one)

/-- The code of a symbol in a code table, the empty string when it has
none. -/
def codeOf (codes : mymap) (k : Int) : List Char := (codes.get k).getD []

/-- The codes of the bytes of `X`, in the order of `X`, followed by the code
of `PSEUDO_EOF`. -/
def codeString (codes : mymap) (X : List CChar) : List Char :=
  X.flatMap (fun c => codeOf codes (charToInt c)) ++ codeOf codes PSEUDO_EOF

/-- The text of `2^31 - 1` bytes `a`. -/
def longText : List CChar := List.replicate 2147483647 97

/-- No tie on fuel: when Huffman's algorithm runs on the counts `ws`, the two
smallest being replaced by their sum as an `int`, the counts in the queue are
pairwise distinct at every step. -/
def tieFreeAux : Nat → List Int → Bool
  | 0, _ => true
  | fuel + 1, ws =>
    decide ws.Nodup &&
      match ws.insertionSort (· ≤ ·) with
      | a :: b :: rest => tieFreeAux fuel (wrapInt (a + b) :: rest)
      | _ => true

/-- No tie arises when Huffman's algorithm runs on the counts `ws`. -/
def tieFree (ws : List Int) : Bool := tieFreeAux ws.length ws

/-! ## The queue holds the same nodes after `push` and `pop` -/

theorem set_swap_perm (l : List HuffmanNode) (h p : Nat) (v : HuffmanNode)
    (hh : h < l.length) (hp : p < l.length) (hne : h ≠ p) :
    ((l.set h (l.getD p .null)).set p v).Perm (l.set h v) := by
  rw [List.perm_iff_count]
  intro b
  have hp' : p < (l.set h (l.getD p .null)).length := by simpa using hp
  rw [List.count_set _ _ _ _ hp', List.count_set _ _ _ _ hh, List.count_set _ _ _ _ hh]
  have e1 : (l.set h (l.getD p .null))[p] = l[p] := by
    rw [List.getElem_set_ne hne]
  have e2 : l.getD p .null = l[p] := List.getD_eq_getElem _ _ hp
  rw [e1, e2]
  omega

theorem push_heap_loop_perm (fuel : Nat) :
    ∀ (first : List HuffmanNode) (holeIndex topIndex : Nat) (value : HuffmanNode),
      holeIndex < first.length →
      (push_heap_loop fuel first holeIndex topIndex value).Perm
        (first.set holeIndex value) := by
  induction fuel with
  | zero => intro first h t v _; exact List.Perm.refl _
  | succ n ih =>
    intro first h t v hh
    unfold push_heap_loop
    simp only []
    split
    · rename_i hc
      have hp : (h - 1) / 2 < h := by omega
      have hlen : (h - 1) / 2 < (first.set h (first.getD ((h - 1) / 2) .null)).length := by
        simp; omega
      refine (ih _ _ t v hlen).trans ?_
      exact set_swap_perm first h _ v hh (by omega) (by omega)
    · exact List.Perm.refl _

theorem push_heap_loop_length (fuel : Nat) :
    ∀ (first : List HuffmanNode) (holeIndex topIndex : Nat) (value : HuffmanNode),
      (push_heap_loop fuel first holeIndex topIndex value).length = first.length := by
  induction fuel with
  | zero => intro first h t v; simp [push_heap_loop]
  | succ n ih =>
    intro first h t v
    unfold push_heap_loop
    simp only []
    split
    · rw [ih]; simp
    · simp

theorem pq_push_perm (pq : List HuffmanNode) (x : HuffmanNode) :
    (pq_push pq x).Perm (x :: pq) := by
  unfold pq_push push_heap push_heap_aux
  have hlen : (pq ++ [x]).length - 1 = pq.length := by simp
  rw [hlen]
  have hx : (pq ++ [x]).getD pq.length .null = x := by simp
  rw [hx]
  refine (push_heap_loop_perm _ _ _ _ _ (by simp)).trans ?_
  have : (pq ++ [x]).set pq.length x = pq ++ [x] := by simp
  rw [this]
  exact List.perm_append_comm

theorem push_heap_loop_frame (fuel : Nat) :
    ∀ (first : List HuffmanNode) (holeIndex topIndex : Nat) (value : HuffmanNode) (i : Nat),
      holeIndex < i →
      (push_heap_loop fuel first holeIndex topIndex value)[i]? = first[i]? := by
  induction fuel with
  | zero =>
    intro first h t v i hi
    simp only [push_heap_loop]
    exact List.getElem?_set_ne (by omega)
  | succ n ih =>
    intro first h t v i hi
    unfold push_heap_loop
    simp only []
    split
    · rw [ih _ _ _ _ _ (by omega)]
      exact List.getElem?_set_ne (by omega)
    · exact List.getElem?_set_ne (by omega)

/-- What the first loop of `std::__adjust_heap` preserves. -/
theorem adjust_heap_loop_spec (fuel : Nat) :
    ∀ (first : List HuffmanNode) (holeIndex len : Nat),
      holeIndex < len → len ≤ first.length →
      ∃ first1 hole1,
        adjust_heap_loop fuel first holeIndex holeIndex len = (first1, hole1, hole1) ∧
        first1.length = first.length ∧ hole1 < len ∧
        (∀ v, (first1.set hole1 v).Perm (first.set holeIndex v)) ∧
        (∀ i, len ≤ i → first1[i]? = first[i]?) := by
  induction fuel with
  | zero =>
    intro first h len hh hl
    exact ⟨first, h, rfl, rfl, hh, fun v => List.Perm.refl _, fun i _ => rfl⟩
  | succ n ih =>
    intro first h len hh hl
    unfold adjust_heap_loop
    split
    · rename_i hc
      simp only []
      have hsc : 2 * (h + 1) < len := by omega
      split
      · rename_i hcmp
        obtain ⟨f1, h1, e, hlen, hlt, hperm, hframe⟩ :=
          ih (first.set h (first.getD (2 * (h + 1) - 1) .null)) (2 * (h + 1) - 1) len
            (by omega) (by simpa using hl)
        refine ⟨f1, h1, e, by simpa using hlen, hlt, ?_, ?_⟩
        · intro v
          exact (hperm v).trans (set_swap_perm first h _ v (by omega) (by omega) (by omega))
        · intro i hi
          rw [hframe i hi]
          exact List.getElem?_set_ne (by omega)
      · obtain ⟨f1, h1, e, hlen, hlt, hperm, hframe⟩ :=
          ih (first.set h (first.getD (2 * (h + 1)) .null)) (2 * (h + 1)) len
            (by omega) (by simpa using hl)
        refine ⟨f1, h1, e, by simpa using hlen, hlt, ?_, ?_⟩
        · intro v
          exact (hperm v).trans (set_swap_perm first h _ v (by omega) (by omega) (by omega))
        · intro i hi
          rw [hframe i hi]
          exact List.getElem?_set_ne (by omega)
    · exact ⟨first, h, rfl, rfl, hh, fun v => List.Perm.refl _, fun i _ => rfl⟩

theorem adjust_heap_spec (first : List HuffmanNode) (holeIndex len : Nat)
    (value : HuffmanNode) (hh : holeIndex < len) (hl : len ≤ first.length) :
    (adjust_heap first holeIndex len value).Perm (first.set holeIndex value) ∧
    (adjust_heap first holeIndex len value).length = first.length ∧
    (∀ i, len ≤ i → (adjust_heap first holeIndex len value)[i]? = first[i]?) := by
  obtain ⟨f1, h1, e, hlen, hlt, hperm, hframe⟩ :=
    adjust_heap_loop_spec len first holeIndex len hh hl
  unfold adjust_heap
  simp only [e]
  split
  · rename_i hc
    have hidx : 2 * (h1 + 1) - 1 < len := by omega
    unfold push_heap_aux
    refine ⟨?_, ?_, ?_⟩
    · refine (push_heap_loop_perm _ _ _ _ _ (by simp; omega)).trans ?_
      exact (set_swap_perm f1 h1 _ value (by omega) (by omega) (by omega)).trans (hperm value)
    · rw [push_heap_loop_length]; simpa using hlen
    · intro i hi
      rw [push_heap_loop_frame _ _ _ _ _ _ (by omega), List.getElem?_set_ne (by omega)]
      exact hframe i hi
  · unfold push_heap_aux
    refine ⟨?_, ?_, ?_⟩
    · exact (push_heap_loop_perm _ _ _ _ _ (by omega)).trans (hperm value)
    · rw [push_heap_loop_length]; exact hlen
    · intro i hi
      rw [push_heap_loop_frame _ _ _ _ _ _ (by omega)]
      exact hframe i hi

theorem pq_pop_perm (pq : List HuffmanNode) (hne : pq ≠ []) :
    pq.Perm (pq_top pq :: pq_pop pq) := by
  unfold pq_top pq_pop pop_heap
  have hpos : 0 < pq.length := List.length_pos.mpr hne
  split
  · rename_i hlen
    simp only []
    have hlast : pq.length - 1 < pq.length := by omega
    obtain ⟨hperm, hl, hframe⟩ :=
      adjust_heap_spec (pq.set (pq.length - 1) (pq.getD 0 .null)) 0 (pq.length - 1)
        (pq.getD (pq.length - 1) .null) (by omega) (by simp)
    set R := adjust_heap (pq.set (pq.length - 1) (pq.getD 0 .null)) 0 (pq.length - 1)
        (pq.getD (pq.length - 1) .null) with hR
    have hRlen : R.length = pq.length := by simpa using hl
    have hRne : R ≠ [] := by
      intro h; rw [h] at hRlen; simp at hRlen; omega
    have hRlast : R.getLast hRne = pq.getD 0 .null := by
      rw [List.getLast_eq_getElem]
      have := hframe (pq.length - 1) (le_refl _)
      rw [List.getElem?_set_self hlast] at this
      have h2 : R[R.length - 1]? = some (pq.getD 0 .null) := by rw [hRlen]; exact this
      rw [List.getElem?_eq_getElem (by omega)] at h2
      exact Option.some.inj h2
    have hsplit : R = R.dropLast ++ [pq.getD 0 .null] := by
      rw [← hRlast]; exact (List.dropLast_append_getLast hRne).symm
    have hswap : ((pq.set (pq.length - 1) (pq.getD 0 .null)).set 0
        (pq.getD (pq.length - 1) .null)).Perm pq := by
      have h1 := set_swap_perm pq (pq.length - 1) 0 (pq.getD (pq.length - 1) .null)
        hlast hpos (by omega)
      refine h1.trans ?_
      have : pq.getD (pq.length - 1) .null = pq[pq.length - 1] :=
        List.getD_eq_getElem _ _ hlast
      rw [this]
      have hself : pq.set (pq.length - 1) pq[pq.length - 1] = pq := by
        apply List.ext_getElem?
        intro i
        rw [List.getElem?_set]
        split
        · rename_i hi; subst hi; simp
        · rfl
      rw [hself]
    have h3 : R.Perm pq := hperm.trans hswap
    have h4 : (pq.getD 0 .null :: R.dropLast).Perm R := by
      conv_rhs => rw [hsplit]
      exact (@List.perm_append_comm _ R.dropLast [pq.getD 0 .null]).symm
    exact (h4.trans h3).symm
  · rename_i hlen
    match pq, hne with
    | [x], _ => simp
    | x :: y :: l, _ => simp at hlen

/-! ## The tree built by `buildEncodingTree` -/

theorem pushLeaves_perm (map : hashmap) (vec : List Int) :
    ∀ pq, (pushLeaves map vec pq).Perm (vec.map (mkLeaf map) ++ pq) := by
  induction vec with
  | nil => intro pq; exact List.Perm.refl _
  | cons key vec ih =>
    intro pq
    unfold pushLeaves
    refine (ih _).trans ?_
    have h1 := pq_push_perm pq (.mk key (wrapInt (map.get key)) .null .null)
    refine (List.Perm.append_left _ h1).trans ?_
    simp only [List.map_cons, mkLeaf]
    exact List.perm_middle

/-- One iteration of the merge loop, on the nodes queued: the two nodes popped
are replaced by their parent. -/
theorem merge_step_perm (pq : List HuffmanNode) (h2 : 1 < pq.length) :
    ∃ rest, pq.Perm (pq_top pq :: pq_top (pq_pop pq) :: rest) ∧
      (pq_push (pq_pop (pq_pop pq))
        (.mk NOT_A_CHAR (wrapInt ((pq_top pq).count + (pq_top (pq_pop pq)).count))
          (pq_top pq) (pq_top (pq_pop pq)))).Perm
        (.mk NOT_A_CHAR (wrapInt ((pq_top pq).count + (pq_top (pq_pop pq)).count))
          (pq_top pq) (pq_top (pq_pop pq)) :: rest) := by
  have hne : pq ≠ [] := by intro h; rw [h] at h2; simp at h2
  have p1 := pq_pop_perm pq hne
  have hl1 : (pq_pop pq).length + 1 = pq.length := by
    have := p1.length_eq; simp at this; omega
  have hne1 : pq_pop pq ≠ [] := by
    intro h; rw [h] at hl1; simp at hl1; omega
  have p2 := pq_pop_perm (pq_pop pq) hne1
  refine ⟨pq_pop (pq_pop pq), p1.trans (List.Perm.cons _ p2), pq_push_perm _ _⟩

/-- An invariant of the queue that does not depend on the order of the queue
and is kept when two queued nodes are replaced by their parent holds of the
single node left by the merge loop, which terminates within `fuel`
iterations when `fuel + 1` is at least the length of the queue. -/
theorem mergeLoop_invariant (I : List HuffmanNode → Prop)
    (hperm : ∀ l l', l.Perm l' → I l → I l')
    (hstep : ∀ a b rest, I (a :: b :: rest) →
      I (.mk NOT_A_CHAR (wrapInt (a.count + b.count)) a b :: rest)) :
    ∀ (fuel : Nat) (pq : List HuffmanNode), pq.length ≤ fuel + 1 → pq ≠ [] → I pq →
      ∃ t, mergeLoop fuel pq = [t] ∧ I [t] := by
  intro fuel
  induction fuel with
  | zero =>
    intro pq hlen hne hI
    match pq, hne, hlen with
    | [t], _, _ => exact ⟨t, rfl, hI⟩
    | _ :: _ :: _, _, hlen => simp at hlen
  | succ n ih =>
    intro pq hlen hne hI
    unfold mergeLoop
    split
    · rename_i h2
      simp only []
      obtain ⟨rest, p1, p2⟩ := merge_step_perm pq h2
      have hl : rest.length + 2 = pq.length := by
        have := p1.length_eq; simp at this; omega
      apply ih
      · have := p2.length_eq; simp at this; omega
      · intro h; have := p2.length_eq; rw [h] at this; simp at this
      · exact hperm _ _ p2.symm (hstep _ _ _ (hperm _ _ p1 hI))
    · rename_i h2
      match pq, hne, h2 with
      | [t], _, _ => exact ⟨t, rfl, hI⟩
      | _ :: _ :: _, _, h2 => simp at h2

theorem leafSymbols_mkLeaf (map : hashmap) (key : Int) (h : key ≠ NOT_A_CHAR) :
    leafSymbols (mkLeaf map key) = [key] := by
  simp [leafSymbols, mkLeaf, paths, h]

theorem leafSymbols_node (c : Int) (a b : HuffmanNode) :
    leafSymbols (.mk NOT_A_CHAR c a b) = leafSymbols a ++ leafSymbols b := by
  simp [leafSymbols, paths, List.map_map, Function.comp_def]

/-- The induction principle of `buildEncodingTree`: an invariant of the queue
that does not depend on the order of the queue, holds of the leaves made for
the keys and is kept when two queued nodes are replaced by their parent holds
of the tree returned, for every non-empty table. -/
theorem buildEncodingTree_invariant (I : List HuffmanNode → Prop)
    (hperm : ∀ l l', l.Perm l' → I l → I l')
    (hstep : ∀ a b rest, I (a :: b :: rest) →
      I (.mk NOT_A_CHAR (wrapInt (a.count + b.count)) a b :: rest))
    (map : hashmap) (hne : map ≠ []) (hinit : I (map.keys.map (mkLeaf map))) :
    I [buildEncodingTree map] := by
  unfold buildEncodingTree
  simp only []
  have hp := pushLeaves_perm map map.keys []
  rw [List.append_nil] at hp
  set pq := pushLeaves map map.keys [] with hpq
  have hlen : pq.length = map.length := by
    have := hp.length_eq; simpa [hashmap.keys] using this
  have hpqne : pq ≠ [] := by
    intro h; rw [h] at hlen; exact hne (List.length_eq_zero.mp hlen.symm)
  obtain ⟨t, ht, hIt⟩ := mergeLoop_invariant I hperm hstep pq.length pq (by omega) hpqne
    (hperm _ _ hp.symm hinit)
  rw [ht]
  simpa [pq_top] using hIt

/-- The tree of a table with two entries or more is an internal node. -/
theorem buildEncodingTree_root (map : hashmap) (h2 : 2 ≤ map.length) :
    ∃ c z o, buildEncodingTree map = .mk NOT_A_CHAR c z o := by
  have hne : map ≠ [] := by intro h; rw [h] at h2; simp at h2
  have := buildEncodingTree_invariant
    (fun l => ∀ t, l = [t] → ∃ c z o, t = .mk NOT_A_CHAR c z o)
    (by
      intro l l' p h t ht
      apply h t
      have := p.symm; rw [ht] at this
      exact List.perm_singleton.mp this.symm)
    (by
      intro a b rest _ t ht
      simp only [List.cons.injEq] at ht
      exact ⟨_, _, _, ht.1.symm⟩)
    map hne
    (by
      intro t ht
      have := congrArg List.length ht
      simp [hashmap.keys] at this
      omega)
  exact this _ rfl

theorem flatMap_leafSymbols_mkLeaf (map : hashmap) :
    ∀ ks : List Int, NOT_A_CHAR ∉ ks → (ks.map (mkLeaf map)).flatMap leafSymbols = ks := by
  intro ks
  induction ks with
  | nil => intro _; rfl
  | cons k ks ih =>
    intro hk
    simp only [List.mem_cons, not_or] at hk
    simp only [List.map_cons, List.flatMap_cons]
    rw [leafSymbols_mkLeaf _ _ (Ne.symm hk.1), ih hk.2]
    rfl

/-- The tree of a non-empty table without the key `NOT_A_CHAR` is a code tree
whose leaves hold the keys of the table. -/
theorem buildEncodingTree_spec (map : hashmap) (hne : map ≠ [])
    (hkeys : NOT_A_CHAR ∉ map.keys) :
    IsCodeTree (buildEncodingTree map) ∧
    (leafSymbols (buildEncodingTree map)).Perm map.keys := by
  have := buildEncodingTree_invariant
    (fun l => (∀ n ∈ l, IsCodeTree n) ∧ (l.flatMap leafSymbols).Perm map.keys)
    (by
      intro l l' p ⟨h1, h2⟩
      exact ⟨fun n hn => h1 n (p.mem_iff.mpr hn),
        (List.Perm.flatMap_right _ p.symm).trans h2⟩)
    (by
      intro a b rest ⟨h1, h2⟩
      refine ⟨?_, ?_⟩
      · intro n hn
        rcases List.mem_cons.mp hn with rfl | hn
        · exact IsCodeTree.node _ _ _ (h1 a (by simp)) (h1 b (by simp))
        · exact h1 n (by simp [hn])
      · simpa [List.flatMap_cons, leafSymbols_node, List.append_assoc] using h2)
    map hne
    (by
      refine ⟨?_, ?_⟩
      · intro n hn
        rw [List.mem_map] at hn
        obtain ⟨k, hk, rfl⟩ := hn
        exact IsCodeTree.leaf _ _ (fun h => hkeys (h ▸ hk))
      · rw [flatMap_leafSymbols_mkLeaf _ _ hkeys])
  exact ⟨this.1 _ (by simp), by simpa using this.2⟩

/-! ## The code table of a code tree -/

theorem mymap_get_put (m : mymap) (k : Int) (v : List Char) (k' : Int) :
    (m.put k v).get k' = if k = k' then some v else m.get k' := by
  induction m with
  | nil => simp [mymap.put, mymap.get]
  | cons e m ih =>
    obtain ⟨a, b⟩ := e
    unfold mymap.put
    by_cases h : a = k
    · subst h
      by_cases h2 : a = k' <;> simp [mymap.get, h2]
    · by_cases h2 : a = k'
      · subst h2
        simp [mymap.get, h, Ne.symm h]
      · simp [mymap.get, h, h2, ih]

theorem putAll_append (m : mymap) (es fs : List (Int × List Char)) :
    putAll m (es ++ fs) = putAll (putAll m es) fs := by
  simp [putAll, List.foldl_append]

theorem putAll_get_of_not_mem (es : List (Int × List Char)) :
    ∀ (m : mymap) (k : Int), k ∉ es.map Prod.fst → (putAll m es).get k = m.get k := by
  induction es with
  | nil => intro m k _; rfl
  | cons e es ih =>
    intro m k hk
    simp only [List.map_cons, List.mem_cons, not_or] at hk
    show (putAll (m.put e.1 e.2) es).get k = _
    rw [ih _ _ hk.2, mymap_get_put, if_neg (Ne.symm hk.1)]

theorem putAll_get_of_mem (es : List (Int × List Char)) :
    ∀ (m : mymap) (k : Int) (c : List Char), (es.map Prod.fst).Nodup → (k, c) ∈ es →
      (putAll m es).get k = some c := by
  induction es with
  | nil => intro m k c _ h; simp at h
  | cons e es ih =>
    intro m k c hnd hmem
    simp only [List.map_cons, List.nodup_cons] at hnd
    show (putAll (m.put e.1 e.2) es).get k = _
    rcases List.mem_cons.mp hmem with rfl | hmem
    · rw [putAll_get_of_not_mem _ _ _ hnd.1, mymap_get_put, if_pos rfl]
    · exact ih _ _ _ hnd.2 hmem

theorem putAll_get_some (es : List (Int × List Char)) :
    ∀ (k : Int) (c : List Char), (putAll [] es).get k = some c → (k, c) ∈ es := by
  induction es using List.reverseRecOn with
  | nil => intro k c h; simp [putAll, mymap.get] at h
  | append_singleton es e ih =>
    intro k c h
    rw [putAll_append] at h
    have : putAll (putAll [] es) [e] = (putAll [] es).put e.1 e.2 := rfl
    rw [this, mymap_get_put] at h
    by_cases hk : e.1 = k
    · rw [if_pos hk] at h
      have hc : e.2 = c := Option.some.inj h
      have : e = (k, c) := Prod.ext hk hc
      simp [this]
    · rw [if_neg hk] at h
      simp [ih k c h]

/-- On a code tree `_treeRecursion` returns, having put every path of the tree
after the accumulated string `s`. -/
theorem treeRecursion_eq (t : HuffmanNode) (ht : IsCodeTree t) :
    ∀ (s : List Char) (map : mymap),
      _treeRecursion t s map =
        some (putAll map ((paths t).map (fun e => (e.1, s ++ e.2)))) := by
  induction ht with
  | leaf character count h =>
    intro s map
    simp [_treeRecursion, paths, h, putAll]
  | node count zero one _ _ ihz iho =>
    intro s map
    simp only [_treeRecursion, paths, ne_eq, not_true_eq_false, ↓reduceIte, ihz, iho,
      List.map_append, List.map_map, putAll_append]
    simp [Function.comp_def, List.append_assoc]

theorem buildEncodingMap_eq (t : HuffmanNode) (ht : IsCodeTree t) :
    buildEncodingMap t = some (putAll [] (paths t)) := by
  unfold buildEncodingMap
  rw [treeRecursion_eq t ht]
  simp

/-- In a code tree, a path that is an initial segment of another path leads
to the same leaf. -/
theorem paths_prefix_eq (t : HuffmanNode) (ht : IsCodeTree t) :
    ∀ k1 c1 k2 c2, (k1, c1) ∈ paths t → (k2, c2) ∈ paths t → c1 <+: c2 →
      k1 = k2 ∧ c1 = c2 := by
  induction ht with
  | leaf character count h =>
    intro k1 c1 k2 c2 h1 h2 _
    simp [paths, h] at h1 h2
    exact ⟨h1.1.trans h2.1.symm, h1.2.trans h2.2.symm⟩
  | node count zero one _ _ ihz iho =>
    intro k1 c1 k2 c2 h1 h2 hp
    simp only [paths, ne_eq, not_true_eq_false, ↓reduceIte, List.mem_append, List.mem_map,
      Prod.mk.injEq, Prod.exists] at h1 h2
    rcases h1 with ⟨a1, p1, hm1, rfl, rfl⟩ | ⟨a1, p1, hm1, rfl, rfl⟩ <;>
    rcases h2 with ⟨a2, p2, hm2, rfl, rfl⟩ | ⟨a2, p2, hm2, rfl, rfl⟩
    · have := ihz _ _ _ _ hm1 hm2 ((List.prefix_cons_inj _).mp hp)
      exact ⟨this.1, by rw [this.2]⟩
    · have := List.cons_prefix_cons.mp hp
      exact absurd this.1 (by decide)
    · have := List.cons_prefix_cons.mp hp
      exact absurd this.1 (by decide)
    · have := iho _ _ _ _ hm1 hm2 ((List.prefix_cons_inj _).mp hp)
      exact ⟨this.1, by rw [this.2]⟩

/-! ## Characters and symbols -/

theorem intToChar_charToInt (c : CChar) : intToChar (charToInt c) = c := by
  apply Fin.ext
  have hc := c.isLt
  unfold intToChar charToInt
  simp only []
  split <;> omega

theorem charToInt_injective : Function.Injective charToInt := by
  intro a b h
  rw [← intToChar_charToInt a, ← intToChar_charToInt b, h]

theorem charToInt_ne_PSEUDO_EOF (c : CChar) : charToInt c ≠ PSEUDO_EOF := by
  have hc := c.isLt
  unfold charToInt PSEUDO_EOF
  split <;> omega

theorem charToInt_ne_NOT_A_CHAR (c : CChar) : charToInt c ≠ NOT_A_CHAR := by
  have hc := c.isLt
  unfold charToInt NOT_A_CHAR
  split <;> omega

/-! ## Decoding what was encoded -/

theorem writeBits_append (s t : List Char) :
    writeBits (s ++ t) = writeBits s ++ writeBits t := by
  induction s with
  | nil => rfl
  | cons o s ih => simp [writeBits, ih]

theorem paths_ne_nil_of_node (c : Int) (z o : HuffmanNode) (k : Int) (p : List Char)
    (h : (k, p) ∈ paths (.mk NOT_A_CHAR c z o)) : p ≠ [] := by
  simp only [paths, ne_eq, not_true_eq_false, ↓reduceIte, List.mem_append, List.mem_map,
    Prod.mk.injEq, Prod.exists] at h
  rcases h with ⟨_, _, _, _, rfl⟩ | ⟨_, _, _, _, rfl⟩ <;> simp

theorem decodeLoop_cons (tree : HuffmanNode) (fuel : Nat) (b : Bool) (bs : List Bool)
    (c : Int) (z o : HuffmanNode) (s : List CChar) :
    decodeLoop tree (fuel + 1) ⟨b :: bs, false⟩ (.mk NOT_A_CHAR c z o) s =
      match (if b then o else z).character? with
      | none => none
      | some character =>
        if character = PSEUDO_EOF then some s
        else if character ≠ NOT_A_CHAR then
          decodeLoop tree fuel ⟨bs, false⟩ tree (s ++ [intToChar character])
        else decodeLoop tree fuel ⟨bs, false⟩ (if b then o else z) s := by
  cases b
  · cases hz : z.character? <;>
      simp [decodeLoop, ifbitstream.readBit, HuffmanNode.zero?, HuffmanNode.one?, hz]
  · cases ho : o.character? <;>
      simp [decodeLoop, ifbitstream.readBit, HuffmanNode.zero?, HuffmanNode.one?, ho]

/-- From an internal node of a code tree, the decoder that reads the bits of a
path of that node reaches the leaf of the path: it stops there when the leaf
holds `PSEUDO_EOF`, and otherwise emits the symbol and continues at the root
with the remaining bits. -/
theorem decodeLoop_path (tree : HuffmanNode) (curr : HuffmanNode) (hct : IsCodeTree curr) :
    ∀ (k : Int) (p : List Char), (k, p) ∈ paths curr → p ≠ [] →
      ∀ (f : Nat) (rest : List Bool) (s : List CChar),
        decodeLoop tree ((writeBits p).length + f) ⟨writeBits p ++ rest, false⟩ curr s =
          if k = PSEUDO_EOF then some s
          else decodeLoop tree f ⟨rest, false⟩ tree (s ++ [intToChar k]) := by
  induction hct with
  | leaf character count h =>
    intro k p hp hne
    simp [paths, h] at hp
    exact absurd hp.2 hne
  | node count zero one hz ho ihz iho =>
    intro k p hp hne f rest s
    simp only [paths, ne_eq, not_true_eq_false, ↓reduceIte, List.mem_append, List.mem_map,
      Prod.mk.injEq, Prod.exists] at hp
    rcases hp with ⟨a, q, hm, rfl, rfl⟩ | ⟨a, q, hm, rfl, rfl⟩
    · have e1 : writeBits ('0' :: q) = false :: writeBits q := by simp [writeBits]
      rw [e1, List.length_cons, Nat.add_right_comm, List.cons_append, decodeLoop_cons]
      simp only [Bool.false_eq_true, ↓reduceIte]
      cases hz with
      | leaf character c h =>
        simp only [paths, ne_eq, h, not_false_eq_true, ↓reduceIte, List.mem_singleton,
          Prod.mk.injEq] at hm
        obtain ⟨rfl, rfl⟩ := hm
        simp [HuffmanNode.character?, writeBits, h]
      | node c z o hz' ho' =>
        have hq := paths_ne_nil_of_node _ _ _ _ _ hm
        have := ihz a q hm hq f rest s
        simp only [HuffmanNode.character?]
        rw [if_neg (by decide), if_neg (by simp)]
        exact this
    · have e1 : writeBits ('1' :: q) = true :: writeBits q := by simp [writeBits]
      rw [e1, List.length_cons, Nat.add_right_comm, List.cons_append, decodeLoop_cons]
      simp only [↓reduceIte]
      cases ho with
      | leaf character c h =>
        simp only [paths, ne_eq, h, not_false_eq_true, ↓reduceIte, List.mem_singleton,
          Prod.mk.injEq] at hm
        obtain ⟨rfl, rfl⟩ := hm
        simp [HuffmanNode.character?, writeBits, h]
      | node c z o hz' ho' =>
        have hq := paths_ne_nil_of_node _ _ _ _ _ hm
        have := iho a q hm hq f rest s
        simp only [HuffmanNode.character?]
        rw [if_neg (by decide), if_neg (by simp)]
        exact this

/-- The string that the first loop of `encode` builds from the paths of a code
tree is decoded back, symbol by symbol, by the loop of `decode`. -/
theorem encodeLoop_decodeLoop (c0 : Int) (z o : HuffmanNode)
    (hct : IsCodeTree (.mk NOT_A_CHAR c0 z o))
    (hnd : (leafSymbols (.mk NOT_A_CHAR c0 z o)).Nodup) :
    ∀ (X : List CChar), (∀ c ∈ X, charToInt c ∈ leafSymbols (.mk NOT_A_CHAR c0 z o)) →
      ∀ s0 : List Char, ∃ s : List Char,
        encodeLoop (putAll [] (paths (.mk NOT_A_CHAR c0 z o))) X s0 = some (s0 ++ s) ∧
        ∀ (f : Nat) (rest : List Bool) (acc : List CChar),
          decodeLoop (.mk NOT_A_CHAR c0 z o) ((writeBits s).length + f)
            ⟨writeBits s ++ rest, false⟩ (.mk NOT_A_CHAR c0 z o) acc =
          decodeLoop (.mk NOT_A_CHAR c0 z o) f ⟨rest, false⟩ (.mk NOT_A_CHAR c0 z o)
            (acc ++ X) := by
  intro X
  induction X with
  | nil =>
    intro _ s0
    exact ⟨[], by simp [encodeLoop], by intro f rest acc; simp [writeBits]⟩
  | cons c X ih =>
    intro hX s0
    have hc : charToInt c ∈ leafSymbols (.mk NOT_A_CHAR c0 z o) := hX c (by simp)
    obtain ⟨⟨k, p⟩, hp, hk⟩ := List.mem_map.mp hc
    simp only at hk
    subst hk
    have hget := putAll_get_of_mem _ [] _ _ hnd hp
    obtain ⟨s, hs, hdec⟩ := ih (fun c' hc' => hX c' (by simp [hc'])) (s0 ++ p)
    refine ⟨p ++ s, ?_, ?_⟩
    · simp only [encodeLoop, hget]
      rw [hs, List.append_assoc]
    · intro f rest acc
      have hpne := paths_ne_nil_of_node _ _ _ _ _ hp
      rw [writeBits_append, List.length_append, Nat.add_assoc, List.append_assoc,
        decodeLoop_path _ _ hct _ _ hp hpne, if_neg (charToInt_ne_PSEUDO_EOF c),
        intToChar_charToInt, hdec]
      simp

/-! ## The frequency table -/

theorem hashmap_containsKey_iff (m : hashmap) (k : Int) :
    m.containsKey k = true ↔ k ∈ m.keys := by
  induction m with
  | nil => simp [hashmap.containsKey, hashmap.keys]
  | cons e m ih =>
    obtain ⟨a, b⟩ := e
    unfold hashmap.containsKey
    by_cases h : a = k
    · simp [h, hashmap.keys]
    · simp only [h, ↓reduceIte, ih]
      simp [hashmap.keys, Ne.symm h]

theorem hashmap_get_put (m : hashmap) (k v k' : Int) :
    (m.put k v).get k' = if k = k' then v else m.get k' := by
  induction m with
  | nil => simp [hashmap.put, hashmap.get]
  | cons e m ih =>
    obtain ⟨a, b⟩ := e
    unfold hashmap.put
    by_cases h : a = k
    · subst h
      by_cases h2 : a = k' <;> simp [hashmap.get, h2]
    · by_cases h2 : a = k'
      · subst h2
        simp [hashmap.get, h, Ne.symm h]
      · simp [hashmap.get, h, h2, ih]

theorem hashmap_keys_put (m : hashmap) (k v : Int) :
    (m.put k v).keys = if k ∈ m.keys then m.keys else m.keys ++ [k] := by
  induction m with
  | nil => simp [hashmap.put, hashmap.keys]
  | cons e m ih =>
    obtain ⟨a, b⟩ := e
    unfold hashmap.put
    by_cases h : a = k
    · subst h
      simp [hashmap.keys]
    · have ih' : List.map Prod.fst (hashmap.put m k v) =
          if k ∈ List.map Prod.fst m then List.map Prod.fst m
          else List.map Prod.fst m ++ [k] := ih
      simp only [h, ↓reduceIte, hashmap.keys, List.map_cons, List.mem_cons, Ne.symm h,
        false_or, ih']
      split <;> simp

theorem hashmap_get_of_not_mem (m : hashmap) (k : Int) (h : k ∉ m.keys) : m.get k = 0 := by
  induction m with
  | nil => rfl
  | cons e m ih =>
    obtain ⟨a, b⟩ := e
    simp only [hashmap.keys, List.map_cons, List.mem_cons, not_or] at h
    simp only [hashmap.get, Ne.symm h.1, ↓reduceIte]
    exact ih h.2

theorem mem_keys_put (m : hashmap) (k v k' : Int) :
    k' ∈ (m.put k v).keys ↔ k' = k ∨ k' ∈ m.keys := by
  rw [hashmap_keys_put]
  split
  · rename_i h
    constructor
    · exact Or.inr
    · rintro (rfl | h') <;> assumption
  · simp [or_comm]

theorem nodup_keys_put (m : hashmap) (k v : Int) (h : m.keys.Nodup) :
    (m.put k v).keys.Nodup := by
  rw [hashmap_keys_put]
  split
  · exact h
  · rename_i hk
    rw [List.nodup_append]
    refine ⟨h, List.nodup_singleton k, ?_⟩
    intro a ha hb
    simp only [List.mem_singleton] at hb
    subst hb
    exact hk ha

theorem mem_keys_countChar (m : hashmap) (c : CChar) (k : Int) :
    k ∈ (countChar m c).keys ↔ k = charToInt c ∨ k ∈ m.keys := by
  unfold countChar
  split <;> exact mem_keys_put _ _ _ _

theorem nodup_keys_countChar (m : hashmap) (c : CChar) (h : m.keys.Nodup) :
    (countChar m c).keys.Nodup := by
  unfold countChar
  split <;> exact nodup_keys_put _ _ _ h

theorem get_countChar (m : hashmap) (c : CChar) (k : Int) :
    (countChar m c).get k = m.get k + if charToInt c = k then 1 else 0 := by
  unfold countChar
  split
  · rw [hashmap_get_put]
    split
    · rename_i _ h; rw [h]
    · simp
  · rename_i hc
    rw [hashmap_get_put]
    split
    · rename_i h
      rw [hashmap_containsKey_iff] at hc
      rw [← h, hashmap_get_of_not_mem _ _ hc]
      rfl
    · simp

theorem mem_keys_foldl_countChar (s : List CChar) :
    ∀ (m : hashmap) (k : Int),
      k ∈ (s.foldl countChar m).keys ↔ k ∈ m.keys ∨ ∃ c ∈ s, charToInt c = k := by
  induction s with
  | nil => intro m k; simp
  | cons c s ih =>
    intro m k
    rw [List.foldl_cons, ih, mem_keys_countChar]
    constructor
    · rintro ((rfl | h) | ⟨c', hc', rfl⟩)
      · exact Or.inr ⟨c, by simp, rfl⟩
      · exact Or.inl h
      · exact Or.inr ⟨c', by simp [hc'], rfl⟩
    · rintro (h | ⟨c', hc', rfl⟩)
      · exact Or.inl (Or.inr h)
      · rcases List.mem_cons.mp hc' with rfl | h
        · exact Or.inl (Or.inl rfl)
        · exact Or.inr ⟨c', h, rfl⟩

theorem nodup_keys_foldl_countChar (s : List CChar) :
    ∀ (m : hashmap), m.keys.Nodup → (s.foldl countChar m).keys.Nodup := by
  induction s with
  | nil => intro m h; exact h
  | cons c s ih =>
    intro m h
    rw [List.foldl_cons]
    exact ih _ (nodup_keys_countChar _ _ h)

theorem get_foldl_countChar (s : List CChar) :
    ∀ (m : hashmap) (c : CChar),
      (s.foldl countChar m).get (charToInt c) = m.get (charToInt c) + (s.count c : Int) := by
  induction s with
  | nil => intro m c; simp
  | cons a s ih =>
    intro m c
    rw [List.foldl_cons, ih, get_countChar, List.count_cons]
    by_cases h : a = c
    · subst h; simp; ring
    · have : charToInt a ≠ charToInt c := fun e => h (charToInt_injective e)
      simp [h, this]

/-- The table that `buildFrequencyMap` makes of the string `s`, starting from
the empty table. -/
theorem buildFrequencyMap_string (fs : FileSystem) (s : List CChar) :
    buildFrequencyMap fs s false [] = some ((s.foldl countChar []).put PSEUDO_EOF 1) := by
  simp [buildFrequencyMap]

theorem mem_keys_table (s : List CChar) (k : Int) :
    k ∈ ((s.foldl countChar []).put PSEUDO_EOF 1).keys ↔
      k = PSEUDO_EOF ∨ ∃ c ∈ s, charToInt c = k := by
  rw [mem_keys_put, mem_keys_foldl_countChar]
  simp [hashmap.keys]

theorem nodup_keys_table (s : List CChar) :
    ((s.foldl countChar []).put PSEUDO_EOF 1).keys.Nodup :=
  nodup_keys_put _ _ _ (nodup_keys_foldl_countChar s [] (by simp [hashmap.keys]))

theorem not_a_char_not_mem_table (s : List CChar) :
    NOT_A_CHAR ∉ ((s.foldl countChar []).put PSEUDO_EOF 1).keys := by
  rw [mem_keys_table]
  rintro (h | ⟨c, _, h⟩)
  · exact absurd h (by decide)
  · exact charToInt_ne_NOT_A_CHAR c h

/-! ## The core round trip -/

theorem putAll_get_mem (es : List (Int × List Char)) :
    ∀ (k : Int) (c : List Char), (k, c) ∈ es → ∃ c', (putAll [] es).get k = some c' := by
  induction es using List.reverseRecOn with
  | nil => intro k c h; simp at h
  | append_singleton es e ih =>
    intro k c h
    rw [putAll_append]
    have : putAll (putAll [] es) [e] = (putAll [] es).put e.1 e.2 := rfl
    rw [this, mymap_get_put]
    by_cases hk : e.1 = k
    · exact ⟨_, if_pos hk⟩
    · rw [if_neg hk]
      rcases List.mem_append.mp h with h | h
      · exact ih k c h
      · simp only [List.mem_singleton] at h
        exact absurd (by rw [← h]) hk

/-- Encoding with the code table of an internal code tree that has a leaf for
every input byte and for `PSEUDO_EOF`, then decoding with the same tree what
was written, followed by any bits, gives the input back. -/
theorem encode_decode (tree : HuffmanNode) (hct : IsCodeTree tree)
    (hroot : ∃ c z o, tree = .mk NOT_A_CHAR c z o) (hnd : (leafSymbols tree).Nodup)
    (X : List CChar) (hX : ∀ c ∈ X, charToInt c ∈ leafSymbols tree)
    (hE : PSEUDO_EOF ∈ leafSymbols tree) :
    ∃ codes s,
      buildEncodingMap tree = some codes ∧
      encode X codes true = some (s, wrapInt s.length, writeBits s) ∧
      ∀ trailing : List Bool, decode ⟨writeBits s ++ trailing, false⟩ tree = some X := by
  obtain ⟨c0, z, o, rfl⟩ := hroot
  obtain ⟨s1, hs1, hdec⟩ := encodeLoop_decodeLoop c0 z o hct hnd X hX []
  obtain ⟨⟨k, pE⟩, hpE, hk⟩ := List.mem_map.mp hE
  simp only at hk
  subst hk
  have hget := putAll_get_of_mem _ [] _ _ hnd hpE
  refine ⟨_, s1 ++ pE, buildEncodingMap_eq _ hct, ?_, ?_⟩
  · simp only [encode, hs1, hget, List.nil_append, ↓reduceIte]
  · intro trailing
    unfold decode
    simp only [List.length_append, writeBits_append, List.append_assoc]
    rw [Nat.add_assoc, Nat.add_assoc, hdec,
      decodeLoop_path _ _ hct _ _ hpE (paths_ne_nil_of_node _ _ _ _ _ hpE), if_pos rfl]
    simp

/-- The round trip of `encode` and `decode` through the tree of any
enumeration of the table of a non-empty text. -/
theorem table_round_trip (X : List CChar) (hX : X ≠ []) (m : hashmap)
    (hm : m.Perm ((X.foldl countChar []).put PSEUDO_EOF 1)) :
    ∃ codes s,
      buildEncodingMap (buildEncodingTree m) = some codes ∧
      encode X codes true = some (s, wrapInt s.length, writeBits s) ∧
      ∀ trailing : List Bool,
        decode ⟨writeBits s ++ trailing, false⟩ (buildEncodingTree m) = some X := by
  have hkeys : m.keys.Perm ((X.foldl countChar []).put PSEUDO_EOF 1).keys := hm.map _
  have hmem : ∀ k, k ∈ m.keys ↔ k = PSEUDO_EOF ∨ ∃ c ∈ X, charToInt c = k := by
    intro k; rw [hkeys.mem_iff, mem_keys_table]
  have hnd : m.keys.Nodup := hkeys.nodup_iff.mpr (nodup_keys_table X)
  have hnac : NOT_A_CHAR ∉ m.keys := by
    rw [hkeys.mem_iff]; exact not_a_char_not_mem_table X
  obtain ⟨c, X', rfl⟩ := List.exists_cons_of_ne_nil hX
  have h2 : 2 ≤ m.length := by
    have h1 : PSEUDO_EOF ∈ m.keys := (hmem _).mpr (Or.inl rfl)
    have h2 : charToInt c ∈ m.keys := (hmem _).mpr (Or.inr ⟨c, by simp, rfl⟩)
    have hsub : [PSEUDO_EOF, charToInt c] ⊆ m.keys := by
      intro x hx
      simp only [List.mem_cons, List.mem_singleton, List.not_mem_nil, or_false] at hx
      rcases hx with rfl | rfl <;> assumption
    have hnd2 : [PSEUDO_EOF, charToInt c].Nodup := by
      simp [Ne.symm (charToInt_ne_PSEUDO_EOF c)]
    have := (List.subperm_of_subset hnd2 hsub).length_le
    simpa [hashmap.keys] using this
  have hne : m ≠ [] := by intro h; rw [h] at h2; simp at h2
  obtain ⟨hct, hls⟩ := buildEncodingTree_spec m hne hnac
  exact encode_decode (buildEncodingTree m) hct
    (buildEncodingTree_root m h2) (hls.nodup_iff.mpr hnd) (c :: X')
    (fun c' hc' => hls.mem_iff.mpr ((hmem _).mpr (Or.inr ⟨c', hc', rfl⟩)))
    (hls.mem_iff.mpr ((hmem _).mpr (Or.inl rfl)))

/-- C1 (core round trip). For every non-empty byte sequence `X`, with the
table that `buildFrequencyMap` makes of `X` from the empty table (in whatever
order its entries are enumerated), the tree `buildEncodingTree` builds of it
and the code table `buildEncodingMap` derives, `encode` succeeds, and `decode`
with the same tree, on the bits written by `encode` followed by any trailing
bits, returns exactly `X`. -/
theorem core_round_trip (fs : FileSystem) (X : List CChar) (hX : X ≠ [])
    (trailing : List Bool) :
    ∃ table, buildFrequencyMap fs X false [] = some table ∧
      ∀ m : hashmap, m.Perm table →
        ∃ codes s size bits,
          buildEncodingMap (buildEncodingTree m) = some codes ∧
          encode X codes true = some (s, size, bits) ∧
          bits = writeBits s ∧
          decode ⟨bits ++ trailing, false⟩ (buildEncodingTree m) = some X := by
  refine ⟨_, buildFrequencyMap_string fs X, ?_⟩
  intro m hm
  obtain ⟨codes, s, h1, h2, h3⟩ := table_round_trip X hX m hm
  exact ⟨codes, s, _, _, h1, h2, rfl, h3 trailing⟩

/-- The witness of C1: the sample string `"aaabbc"`. -/
theorem core_round_trip_witness :
    str "aaabbc" ≠ [] ∧
    ∃ table, buildFrequencyMap (fun _ => none) (str "aaabbc") false [] = some table ∧
      ∀ m : hashmap, m.Perm table →
        ∃ codes s size bits,
          buildEncodingMap (buildEncodingTree m) = some codes ∧
          encode (str "aaabbc") codes true = some (s, size, bits) ∧
          bits = writeBits s ∧
          decode ⟨bits ++ [true, false, true], false⟩ (buildEncodingTree m) =
            some (str "aaabbc") :=
  ⟨by decide, core_round_trip (fun _ => none) (str "aaabbc") (by decide) [true, false, true]⟩

/-- The code table of the tree of a non-empty table without the key
`NOT_A_CHAR`: it exists, has a code for every key, and no code of a symbol
is an initial segment of the code of another symbol. -/
theorem code_table_of_table (map : hashmap) (hne : map ≠ [])
    (hkeys : NOT_A_CHAR ∉ map.keys) :
    ∃ codes, buildEncodingMap (buildEncodingTree map) = some codes ∧
      (∀ k ∈ map.keys, ∃ c, codes.get k = some c) ∧
      ∀ k1 k2 c1 c2, codes.get k1 = some c1 → codes.get k2 = some c2 → k1 ≠ k2 →
        ¬ c1 <+: c2 := by
  obtain ⟨hct, hls⟩ := buildEncodingTree_spec map hne hkeys
  refine ⟨_, buildEncodingMap_eq _ hct, ?_, ?_⟩
  · intro k hk
    obtain ⟨⟨k', p⟩, hp, hk'⟩ := List.mem_map.mp (hls.mem_iff.mpr hk)
    simp only at hk'
    subst hk'
    exact putAll_get_mem _ _ _ hp
  · intro k1 k2 c1 c2 h1 h2 hne hp
    exact hne (paths_prefix_eq _ hct _ _ _ _ (putAll_get_some _ _ _ h1)
      (putAll_get_some _ _ _ h2) hp).1

/-- C3 (prefix-free code). For every non-empty frequency table without the key
`NOT_A_CHAR`, `buildEncodingMap` returns a code table for the tree of
`buildEncodingTree`, every key of the table has a code in it, and no code of
one symbol is an initial segment of the code of a different symbol. -/
theorem code_table_prefix_free (map : hashmap) (hne : map ≠ [])
    (hkeys : NOT_A_CHAR ∉ map.keys) :
    ∃ codes, buildEncodingMap (buildEncodingTree map) = some codes ∧
      (∀ k ∈ map.keys, ∃ c, codes.get k = some c) ∧
      ∀ k1 k2 c1 c2, codes.get k1 = some c1 → codes.get k2 = some c2 → k1 ≠ k2 →
        ¬ c1 <+: c2 :=
  code_table_of_table map hne hkeys

/-- The witness of C3: the table of the sample string. -/
theorem code_table_prefix_free_witness :
    ∃ codes, buildEncodingMap (buildEncodingTree [(97, 3), (98, 2), (99, 1), (256, 1)])
        = some codes ∧
      (∀ k ∈ hashmap.keys [(97, 3), (98, 2), (99, 1), (256, 1)], ∃ c, codes.get k = some c) ∧
      ∀ k1 k2 c1 c2, codes.get k1 = some c1 → codes.get k2 = some c2 → k1 ≠ k2 →
        ¬ c1 <+: c2 :=
  code_table_prefix_free [(97, 3), (98, 2), (99, 1), (256, 1)] (by decide) (by decide)

/-! ## Frequency counting -/

/-- C5 (frequency counting). For every input string `s`, `buildFrequencyMap`
in string mode on the empty table yields a table whose keys are exactly the
bytes of `s` and `PSEUDO_EOF`, each once, in which every byte of `s` has its
number of occurrences in `s`, a positive count, and `PSEUDO_EOF` has `1`. -/
theorem buildFrequencyMap_counts (fs : FileSystem) (s : List CChar) :
    ∃ table, buildFrequencyMap fs s false [] = some table ∧
      table.keys.Nodup ∧
      (∀ k, k ∈ table.keys ↔ k = PSEUDO_EOF ∨ ∃ c ∈ s, charToInt c = k) ∧
      (∀ k, table.containsKey k = true ↔ k = PSEUDO_EOF ∨ ∃ c ∈ s, charToInt c = k) ∧
      (∀ c ∈ s, table.get (charToInt c) = (s.count c : Int) ∧ 0 < table.get (charToInt c)) ∧
      table.get PSEUDO_EOF = 1 := by
  refine ⟨_, buildFrequencyMap_string fs s, nodup_keys_table s, mem_keys_table s, ?_, ?_, ?_⟩
  · intro k
    rw [hashmap_containsKey_iff]
    exact mem_keys_table s k
  · intro c hc
    have h : ((s.foldl countChar []).put PSEUDO_EOF 1).get (charToInt c) = (s.count c : Int) := by
      rw [hashmap_get_put, if_neg (Ne.symm (charToInt_ne_PSEUDO_EOF c)), get_foldl_countChar]
      simp [hashmap.get]
    refine ⟨h, ?_⟩
    rw [h]
    exact_mod_cast List.count_pos_iff.mpr hc
  · rw [hashmap_get_put, if_pos rfl]

/-- The sample of C5: `"aaabbc"` gives `{a:3, b:2, c:1, EOF:1}`. -/
theorem buildFrequencyMap_sample :
    buildFrequencyMap (fun _ => none) (str "aaabbc") false [] =
      some [(97, 3), (98, 2), (99, 1), (256, 1)] := by
  decide

/-! ## Codes are not empty, except in a single-leaf tree -/

theorem treeRecursion_codes (t : HuffmanNode) :
    ∀ (s : List Char) (m m' : mymap), _treeRecursion t s m = some m' →
      ∀ k c, m'.get k = some c → m.get k = some c ∨ s <+: c := by
  induction t with
  | null => intro s m m' h; simp [_treeRecursion] at h
  | mk character count zero one ihz iho =>
    intro s m m' h k c hk
    unfold _treeRecursion at h
    split at h
    · have h' := Option.some.inj h
      subst h'
      rw [mymap_get_put] at hk
      split at hk
      · right
        rw [← Option.some.inj hk]
      · exact Or.inl hk
    · split at h
      · exact absurd h (by simp)
      · rename_i m1 h1
        rcases iho _ _ _ h k c hk with h2 | h2
        · rcases ihz _ _ _ h1 k c h2 with h3 | h3
          · exact Or.inl h3
          · exact Or.inr ((List.prefix_append s ['0']).trans h3)
        · exact Or.inr ((List.prefix_append s ['1']).trans h2)

theorem treeRecursion_root_codes (cnt : Int) (z o : HuffmanNode) (codes : mymap)
    (h : buildEncodingMap (.mk NOT_A_CHAR cnt z o) = some codes) :
    ∀ k c, codes.get k = some c → c ≠ [] := by
  intro k c hk
  unfold buildEncodingMap _treeRecursion at h
  simp only [ne_eq, not_true_eq_false, ↓reduceIte, List.nil_append] at h
  split at h
  · exact absurd h (by simp)
  · rename_i m1 h1
    rcases treeRecursion_codes _ _ _ _ h k c hk with h2 | h2
    · rcases treeRecursion_codes _ _ _ _ h1 k c h2 with h3 | h3
      · simp [mymap.get] at h3
      · intro hc; rw [hc] at h3; simp at h3
    · intro hc; rw [hc] at h2; simp at h2

/-- C9, the claim as stated fails: the table with the single entry
`PSEUDO_EOF ↦ 1` (the table of the empty input) gets the empty code. -/
theorem single_entry_code_is_empty :
    buildEncodingMap (buildEncodingTree [(256, 1)]) = some [(256, [])] := by
  decide


/-! ## Finding the extensions in a file name -/

/-- A pattern of four bytes whose first byte does not occur again in it is
first found, in a name that does not contain it followed by the pattern, right
after the name. -/
theorem find_append_pattern (p0 p1 p2 p3 : CChar) (h1 : p1 ≠ p0) (h2 : p2 ≠ p0)
    (h3 : p3 ≠ p0) (name : List CChar) (t : List CChar)
    (h : find name [p0, p1, p2, p3] = none) :
    find (name ++ [p0, p1, p2, p3] ++ t) [p0, p1, p2, p3] = some name.length := by
  induction name with
  | nil => simp [find]
  | cons c cs ih =>
    unfold find at h
    split at h
    · exact absurd h (by simp)
    · rename_i hpre
      have hcs : find cs [p0, p1, p2, p3] = none := by
        cases hf : find cs [p0, p1, p2, p3] with
        | none => rfl
        | some n => rw [hf] at h; simp at h
      have hnot : List.isPrefixOf [p0, p1, p2, p3] (c :: cs ++ [p0, p1, p2, p3] ++ t) = false := by
        match cs, hpre with
        | [], _ => simp [List.isPrefixOf, h1]
        | [d], _ =>
          simp only [List.isPrefixOf, List.cons_append, List.nil_append, Bool.and_eq_false_imp,
            beq_iff_eq, Bool.and_true]
          intro _ _ e
          exact absurd e h2
        | [d, e], _ =>
          simp only [List.isPrefixOf, List.cons_append, List.nil_append, Bool.and_eq_false_imp,
            beq_iff_eq, Bool.and_true]
          intro _ _ _
          simpa using h3
        | d :: e :: f :: r, hpre =>
          simp only [List.isPrefixOf, Bool.and_eq_true, beq_iff_eq, Bool.and_true,
            Bool.not_eq_true, List.cons_append] at hpre ⊢
          simpa [List.isPrefixOf] using hpre
      show find (c :: (cs ++ [p0, p1, p2, p3] ++ t)) [p0, p1, p2, p3] = _
      unfold find
      rw [if_neg (by rw [← List.cons_append, ← List.cons_append, hnot]; simp)]
      rw [ih hcs]
      simp

theorem str_huf : str ".huf" = [46, 104, 117, 102] := by decide

theorem find_huf_append (name : List CChar) (h : find name (str ".huf") = none) :
    find (name ++ str ".huf") (str ".huf") = some name.length := by
  have := find_append_pattern 46 104 117 102 (by decide) (by decide) (by decide) name []
    (by rw [← str_huf]; exact h)
  rw [str_huf]
  simpa using this

/-! ## `decompress` counts the original file again -/

theorem perm_three {α : Type} (a b c : α) (l : List α) (h : l.Perm [a, b, c]) :
    l ∈ [[a, b, c], [b, a, c], [c, b, a], [b, c, a], [c, a, b], [a, c, b]] := by
  rw [← List.mem_permutations] at h
  simpa [List.permutations, List.permutationsAux_cons, List.permutationsAux2] using h


set_option maxRecDepth 100000 in
/-- C2, failing input: the file `a.txt` holding `"aabbb"`. With the original
file still present, `decompress` of the container that `compress` wrote
returns `"bbbb"`. -/
theorem round_trip_aabbb : roundTrip "a.txt" "aabbb" = some (str "bbbb") := by
  decide

set_option maxRecDepth 100000 in
/-- The failure of the round trip on `"aabbb"` does not depend on the order
in which the keys of the two tables are enumerated: the table of `compress`
is `{a:2, b:3, EOF:1}`, the table of `decompress` is `{a:4, b:6, EOF:1}`, and
whatever the two orders, decoding with the tree of the second what was
encoded with the tree of the first does not give `"aabbb"`. -/
theorem recount_breaks_any_order (m1 m2 : hashmap)
    (h1 : m1.Perm [(97, 2), (98, 3), (256, 1)])
    (h2 : m2.Perm [(97, 4), (98, 6), (256, 1)]) :
    decodeWith m1 m2 (str "aabbb") ≠ some (str "aabbb") := by
  have key : ∀ a ∈ ([[(97, 2), (98, 3), (256, 1)], [(98, 3), (97, 2), (256, 1)],
      [(256, 1), (98, 3), (97, 2)], [(98, 3), (256, 1), (97, 2)],
      [(256, 1), (97, 2), (98, 3)], [(97, 2), (256, 1), (98, 3)]] : List hashmap),
      ∀ b ∈ ([[(97, 4), (98, 6), (256, 1)], [(98, 6), (97, 4), (256, 1)],
      [(256, 1), (98, 6), (97, 4)], [(98, 6), (256, 1), (97, 4)],
      [(256, 1), (97, 4), (98, 6)], [(97, 4), (256, 1), (98, 6)]] : List hashmap),
      decodeWith a b (str "aabbb") ≠ some (str "aabbb") := by decide
  exact key m1 (perm_three _ _ _ _ h1) m2 (perm_three _ _ _ _ h2)

set_option maxRecDepth 100000 in
/-- C6, failing input: the file `a.txt` holding `"aabbb"`. The header that
`compress` writes is `{a:2, b:3, EOF:1}`; the table that `decompress` passes
to `buildEncodingTree` is `{a:4, b:6, EOF:1}`. -/
theorem decompress_table_aabbb :
    (match compress (singleFile "a.txt" "aabbb") (str "a.txt") with
      | none => none
      | some (_, fs) =>
        some (fs (str "a.txt.huf"), (decompressTable fs (str "a.txt.huf")).map (·.1))) =
    some (some (.huf [(97, 2), (98, 3), (256, 1)] (padBits (writeBits "111100010".toList))),
      some [(97, 4), (98, 6), (256, 1)]) := by
  decide

set_option maxRecDepth 100000 in
/-- C8, failing input: the file `a.txt` holding the single byte `'a'`.
`decompress` of the container that `compress` wrote returns the empty
string. -/
theorem round_trip_single_a : roundTrip "a.txt" "a" = some [] := by
  decide

set_option maxRecDepth 100000 in
/-- Twelve copies of `'a'` do come back: with two copies or more the two
tables give the same tree. -/
theorem round_trip_twelve_a :
    roundTrip "a.txt" "aaaaaaaaaaaa" = some (str "aaaaaaaaaaaa") := by
  decide

/-! ## The empty input -/

theorem name_ne_append_huf (filename : List CChar) : filename ≠ filename ++ str ".huf" := by
  intro h
  have := congrArg List.length h
  rw [List.length_append] at this
  have h4 : (str ".huf").length = 4 := by decide
  omega

/-- C7 (empty input). For a file that holds no byte (and whose name does not
contain `".huf"`, so that `decompress` reads that same file again), the table that
`compress` builds has the single entry `PSEUDO_EOF ↦ 1`, the code of
`PSEUDO_EOF` is the empty string, `compress` returns the empty bit pattern and
writes the container made of that header and of no payload bit, and
`decompress` of that container returns the empty string (no null pointer is
dereferenced) and writes an empty output file. -/
theorem empty_input (fs : FileSystem) (filename : List CChar)
    (hfile : fs filename = some (.bytes []))
    (hname : find filename (str ".huf") = none) :
    buildFrequencyMap fs filename true [] = some [(PSEUDO_EOF, 1)] ∧
    buildEncodingMap (buildEncodingTree [(PSEUDO_EOF, 1)]) = some [(PSEUDO_EOF, [])] ∧
    ∃ fs1, compress fs filename = some ([], fs1) ∧
      fs1 (filename ++ str ".huf") = some (.huf [(PSEUDO_EOF, 1)] []) ∧
      ∃ fs2 outName, decompress fs1 (filename ++ str ".huf") = some ([], fs2) ∧
        fs2 outName = some (.bytes []) := by
  have hne := name_ne_append_huf filename
  have hcut : substr0 (filename ++ str ".huf") (find (filename ++ str ".huf") (str ".huf"))
      = filename := by
    rw [find_huf_append _ hname]
    simp [substr0]
  have hbfm : buildFrequencyMap fs filename true [] = some [(PSEUDO_EOF, 1)] := by
    simp [buildFrequencyMap, readBytes, hfile, hashmap.put]
  have hmap : buildEncodingMap (buildEncodingTree [(PSEUDO_EOF, 1)]) = some [(PSEUDO_EOF, [])] := by
    decide
  refine ⟨hbfm, hmap, ?_⟩
  have hcomp : compress fs filename = some ([],
      fs.write (filename ++ str ".huf") (.huf [(PSEUDO_EOF, 1)] [])) := by
    unfold compress
    rw [hbfm]
    simp only [hmap]
    have hr : readBytes (fs.write (filename ++ str ".huf") (.huf [(PSEUDO_EOF, 1)] []))
        filename = some [] := by
      simp [readBytes, FileSystem.write, hne, hfile]
    rw [hr]
    simp [encode, encodeLoop, mymap.get, writeBits, padBits]
  refine ⟨_, hcomp, by simp [FileSystem.write], ?_⟩
  set fs1 := fs.write (filename ++ str ".huf") (.huf [(PSEUDO_EOF, 1)] []) with hfs1
  set outName := substr0 (filename ++ str ".huf") (find (filename ++ str ".huf") (str ".txt"))
    ++ str "_unc.txt" with hout
  have htab : decompressTable fs1 (filename ++ str ".huf") =
      some ([(PSEUDO_EOF, 1)], [], outName, fs1.write outName (.bytes [])) := by
    unfold decompressTable
    have h1 : fs1 (filename ++ str ".huf") = some (.huf [(PSEUDO_EOF, 1)] []) := by
      simp [hfs1, FileSystem.write]
    rw [h1]
    simp only [hcut]
    have hr : readBytes (fs1.write outName (.bytes [])) filename = some [] := by
      unfold readBytes FileSystem.write
      by_cases h : filename = outName
      · simp [h]
      · simp [h, hfs1, FileSystem.write, hne, hfile]
    simp [buildFrequencyMap, hr, hashmap.put, hout]
  refine ⟨(fs1.write outName (.bytes [])).write outName (.bytes []), outName, ?_, ?_⟩
  · unfold decompress
    rw [htab]
    have hdec : decode { bits := [], eofbit := false } (buildEncodingTree [(PSEUDO_EOF, 1)])
        = some [] := by decide
    simp only [hdec]
  · simp [FileSystem.write]

/-- The witness of C7: the empty file `e.txt`. -/
theorem empty_input_witness :
    buildFrequencyMap (singleFile "e.txt" "") (str "e.txt") true [] = some [(PSEUDO_EOF, 1)] ∧
    buildEncodingMap (buildEncodingTree [(PSEUDO_EOF, 1)]) = some [(PSEUDO_EOF, [])] ∧
    ∃ fs1, compress (singleFile "e.txt" "") (str "e.txt") = some ([], fs1) ∧
      fs1 (str "e.txt" ++ str ".huf") = some (.huf [(PSEUDO_EOF, 1)] []) ∧
      ∃ fs2 outName, decompress fs1 (str "e.txt" ++ str ".huf") = some ([], fs2) ∧
        fs2 outName = some (.bytes []) :=
  empty_input (singleFile "e.txt" "") (str "e.txt") (by decide) (by decide)

/-! ## The name of the output file -/

theorem countAt_set (v : List HuffmanNode) (j : Nat) (x : HuffmanNode) (i : Nat)
    (hj : j < v.length) :
    countAt (v.set j x) i = if i = j then x.count else countAt v i := by
  unfold countAt
  by_cases h : i = j
  · subst h
    simp [List.getD_eq_getElem?_getD, List.getElem?_set_self hj]
  · simp [List.getD_eq_getElem?_getD, List.getElem?_set_ne (Ne.symm h), h]

theorem countAt_getD (v : List HuffmanNode) (i : Nat) :
    (v.getD i .null).count = countAt v i := rfl

/-- Sifting `value` up from a hole restores the heap, when `value` is not
above the children of the hole. -/
theorem push_heap_loop_heap (n : Nat) (value : HuffmanNode) (fuel : Nat) :
    ∀ (v : List HuffmanNode) (h : Nat), h ≤ fuel → h < n → n ≤ v.length →
      HeapHole v n h →
      (∀ i, 0 < i → i < n → (i - 1) / 2 = h → value.count ≤ countAt v i) →
      IsHeapUpTo (push_heap_loop fuel v h 0 value) n := by
  have final : ∀ (v : List HuffmanNode) (h : Nat), h < n → n ≤ v.length →
      HeapHole v n h →
      (∀ i, 0 < i → i < n → (i - 1) / 2 = h → value.count ≤ countAt v i) →
      (0 < h → countAt v ((h - 1) / 2) ≤ value.count) →
      IsHeapUpTo (v.set h value) n := by
    intro v h hn hl hh hc hp i hi0 hin
    rw [countAt_set _ _ _ _ (by omega), countAt_set _ _ _ _ (by omega)]
    by_cases e1 : i = h
    · subst e1
      rw [if_neg (by omega), if_pos rfl]
      exact hp hi0
    · rw [if_neg e1]
      by_cases e2 : (i - 1) / 2 = h
      · rw [if_pos e2]
        exact hc i hi0 hin e2
      · rw [if_neg e2]
        exact hh.1 i hi0 hin e1 e2
  induction fuel with
  | zero =>
    intro v h hf hn hl hh hc
    simp only [push_heap_loop]
    exact final v h hn hl hh hc (by omega)
  | succ f ih =>
    intro v h hf hn hl hh hc
    unfold push_heap_loop
    simp only []
    split
    · rename_i hcond
      obtain ⟨hpos, hpr⟩ := hcond
      have hgt : value.count < countAt v ((h - 1) / 2) := by
        simpa [prioritize, countAt] using hpr
      have hp : (h - 1) / 2 < h := by omega
      apply ih
      · omega
      · omega
      · simpa using hl
      · constructor
        · intro i hi0 hin e1 e2
          have hih : i ≠ h := by intro e; apply e2; rw [e]
          rw [countAt_set _ _ _ _ (by omega), countAt_set _ _ _ _ (by omega), if_neg hih]
          by_cases e3 : (i - 1) / 2 = h
          · rw [if_pos e3]
            exact hh.2 i hi0 hin e3 hpos
          · rw [if_neg e3]
            exact hh.1 i hi0 hin hih e3
        · intro i hi0 hin e1 hp0
          rw [countAt_set _ _ _ _ (by omega), countAt_set _ _ _ _ (by omega),
            if_neg (by omega)]
          have hpp : countAt v (((h - 1) / 2 - 1) / 2) ≤ countAt v ((h - 1) / 2) :=
            hh.1 _ hp0 (by omega) (by omega) (by omega)
          by_cases e3 : i = h
          · rw [if_pos e3]; exact hpp
          · rw [if_neg e3]
            have h3 := hh.1 i hi0 hin e3 (by omega)
            rw [e1] at h3
            exact le_trans hpp h3
      · intro i hi0 hin e1
        rw [countAt_set _ _ _ _ (by omega)]
        by_cases e3 : i = h
        · rw [if_pos e3]; exact le_of_lt hgt
        · rw [if_neg e3]
          have h3 := hh.1 i hi0 hin e3 (by omega)
          rw [e1] at h3
          exact le_trans (le_of_lt hgt) h3
    · rename_i hcond
      apply final v h hn hl hh hc
      intro hpos
      have : ¬ prioritize (v.getD ((h - 1) / 2) .null) value = true := by
        intro hpr; exact hcond ⟨hpos, hpr⟩
      simpa [prioritize, countAt] using this

theorem pq_push_heap (pq : List HuffmanNode) (x : HuffmanNode) (hpq : IsHeap pq) :
    IsHeap (pq_push pq x) := by
  unfold IsHeap
  have hlen : (pq_push pq x).length = pq.length + 1 := by
    have := (pq_push_perm pq x).length_eq; simpa using this
  rw [hlen]
  unfold pq_push push_heap push_heap_aux
  have e1 : (pq ++ [x]).length - 1 = pq.length := by simp
  have e2 : (pq ++ [x]).getD pq.length .null = x := by simp
  rw [e1, e2]
  have hget : ∀ i, i < pq.length → countAt (pq ++ [x]) i = countAt pq i := by
    intro i hi
    simp [countAt, List.getD_eq_getElem?_getD, List.getElem?_append_left hi]
  apply push_heap_loop_heap _ _ _ _ _ (le_refl _) (by omega) (by simp)
  · constructor
    · intro i hi0 hin e1 e2
      rw [hget _ (by omega), hget _ (by omega)]
      exact hpq i hi0 (by omega)
    · intro i hi0 hin e1 _
      omega
  · intro i hi0 hin e1
    omega

/-- The first loop of `std::__adjust_heap` keeps a heap with a hole. -/
theorem adjust_heap_loop_heap (n : Nat) (fuel : Nat) :
    ∀ (v : List HuffmanNode) (h : Nat), h < n → n ≤ v.length → HeapHole v n h →
      ∃ v1 h1, adjust_heap_loop fuel v h h n = (v1, h1, h1) ∧ v1.length = v.length ∧
        h1 < n ∧ HeapHole v1 n h1 ∧ (fuel = 0 ∨ ¬ h1 < (n - 1) / 2 ∨ h + fuel ≤ h1) := by
  induction fuel with
  | zero =>
    intro v h hn hl hh
    exact ⟨v, h, rfl, rfl, hn, hh, Or.inl rfl⟩
  | succ f ih =>
    intro v h hn hl hh
    unfold adjust_heap_loop
    split
    · rename_i hc
      simp only []
      have step : ∀ sc, (sc = 2 * (h + 1) ∨ sc = 2 * (h + 1) - 1) →
          (∀ o, (o = 2 * (h + 1) ∨ o = 2 * (h + 1) - 1) → countAt v sc ≤ countAt v o) →
          HeapHole (v.set h (v.getD sc .null)) n sc := by
        intro sc hsc hmin
        have hscn : sc < n := by omega
        constructor
        · intro i hi0 hin e1 e2
          rw [countAt_set _ _ _ _ (by omega), countAt_set _ _ _ _ (by omega)]
          by_cases e3 : i = h
          · subst e3
            rw [if_neg (by omega), if_pos rfl]
            exact hh.2 sc (by omega) hscn (by omega) hi0
          · rw [if_neg e3]
            by_cases e4 : (i - 1) / 2 = h
            · rw [if_pos e4]
              exact hmin i (by omega)
            · rw [if_neg e4]
              exact hh.1 i hi0 hin e3 e4
        · intro i hi0 hin e1 hpos
          rw [countAt_set _ _ _ _ (by omega), countAt_set _ _ _ _ (by omega)]
          have e5 : (sc - 1) / 2 = h := by omega
          rw [e5, if_pos rfl, if_neg (by omega)]
          have := hh.1 i hi0 hin (by omega) (by omega)
          rw [e1] at this
          exact this
      split
      · rename_i hcmp
        have hlt : countAt v (2 * (h + 1) - 1) < countAt v (2 * (h + 1)) := by
          simpa [prioritize, countAt] using hcmp
        obtain ⟨v1, h1, e, hlen, hlt1, hh1, hfin⟩ :=
          ih (v.set h (v.getD (2 * (h + 1) - 1) .null)) (2 * (h + 1) - 1) (by omega)
            (by simpa using hl)
            (step _ (Or.inr rfl) (by
              intro o ho
              rcases ho with rfl | rfl
              · exact le_of_lt hlt
              · exact le_refl _))
        refine ⟨v1, h1, e, by simpa using hlen, hlt1, hh1, ?_⟩
        rcases hfin with h0 | h0 | h0
        · subst h0
          simp only [adjust_heap_loop, Prod.mk.injEq] at e
          obtain ⟨_, e2, _⟩ := e
          right; right; omega
        · exact Or.inr (Or.inl h0)
        · right; right; omega
      · rename_i hcmp
        have hle : countAt v (2 * (h + 1)) ≤ countAt v (2 * (h + 1) - 1) := by
          have : ¬ countAt v (2 * (h + 1) - 1) < countAt v (2 * (h + 1)) := by
            simpa [prioritize, countAt] using hcmp
          exact not_lt.mp this
        obtain ⟨v1, h1, e, hlen, hlt1, hh1, hfin⟩ :=
          ih (v.set h (v.getD (2 * (h + 1)) .null)) (2 * (h + 1)) (by omega)
            (by simpa using hl)
            (step _ (Or.inl rfl) (by
              intro o ho
              rcases ho with rfl | rfl
              · exact le_refl _
              · exact hle))
        refine ⟨v1, h1, e, by simpa using hlen, hlt1, hh1, ?_⟩
        rcases hfin with h0 | h0 | h0
        · subst h0
          simp only [adjust_heap_loop, Prod.mk.injEq] at e
          obtain ⟨_, e2, _⟩ := e
          right; right; omega
        · exact Or.inr (Or.inl h0)
        · right; right; omega
    · rename_i hc
      exact ⟨v, h, rfl, rfl, hn, hh, Or.inr (Or.inl hc)⟩

/-- The function `std::__adjust_heap` from the root restores the heap. -/
theorem adjust_heap_heap (v : List HuffmanNode) (n : Nat) (value : HuffmanNode)
    (hn : 0 < n) (hl : n ≤ v.length) (hh : HeapHole v n 0) :
    IsHeapUpTo (adjust_heap v 0 n value) n := by
  obtain ⟨v1, h1, e, hlen, hlt1, hh1, hfin⟩ := adjust_heap_loop_heap n n v 0 hn hl hh
  have hexit : ¬ h1 < (n - 1) / 2 := by
    rcases hfin with h0 | h0 | h0
    · omega
    · exact h0
    · omega
  unfold adjust_heap
  simp only [e]
  split
  · rename_i hc
    unfold push_heap_aux
    have hidx : 2 * (h1 + 1) - 1 = n - 1 := by omega
    rw [hidx]
    apply push_heap_loop_heap _ _ _ _ _ (le_refl _) (by omega) (by simpa using (by omega))
    · constructor
      · intro i hi0 hin e1 e2
        rw [countAt_set _ _ _ _ (by omega), countAt_set _ _ _ _ (by omega)]
        by_cases e3 : i = h1
        · subst e3
          rw [if_neg (by omega), if_pos rfl]
          exact hh1.2 (n - 1) (by omega) (by omega) (by omega) hi0
        · rw [if_neg e3, if_neg (by omega)]
          exact hh1.1 i hi0 hin e3 (by omega)
      · intro i hi0 hin e1 _
        omega
    · intro i hi0 hin e1
      omega
  · rename_i hc
    unfold push_heap_aux
    apply push_heap_loop_heap _ _ _ _ _ (le_refl _) hlt1 (by omega) hh1
    intro i hi0 hin e1
    omega

theorem pq_pop_length (pq : List HuffmanNode) : (pq_pop pq).length = pq.length - 1 := by
  by_cases hne : pq = []
  · subst hne; rfl
  · have := (pq_pop_perm pq hne).length_eq
    simp at this
    omega

theorem pq_pop_heap (pq : List HuffmanNode) (hpq : IsHeap pq) : IsHeap (pq_pop pq) := by
  unfold IsHeap
  rw [pq_pop_length]
  unfold pq_pop pop_heap
  split
  · rename_i hlen
    simp only []
    have hR := adjust_heap_heap (pq.set (pq.length - 1) (pq.getD 0 .null)) (pq.length - 1)
      (pq.getD (pq.length - 1) .null) (by omega) (by simp)
      (by
        constructor
        · intro i hi0 hin e1 e2
          rw [countAt_set _ _ _ _ (by omega), countAt_set _ _ _ _ (by omega),
            if_neg (by omega), if_neg (by omega)]
          exact hpq i hi0 (by omega)
        · intro i _ _ _ h0
          omega)
    obtain ⟨_, hl, _⟩ := adjust_heap_spec (pq.set (pq.length - 1) (pq.getD 0 .null)) 0
      (pq.length - 1) (pq.getD (pq.length - 1) .null) (by omega) (by simp)
    set R := adjust_heap (pq.set (pq.length - 1) (pq.getD 0 .null)) 0 (pq.length - 1)
        (pq.getD (pq.length - 1) .null) with hRdef
    have hRlen : R.length = pq.length := by simpa using hl
    have hget : ∀ i, i < pq.length - 1 → countAt R.dropLast i = countAt R i := by
      intro i hi
      unfold countAt
      have h1 : i < R.dropLast.length := by simp; omega
      rw [List.getD_eq_getElem _ _ h1, List.getD_eq_getElem _ _ (by omega),
        List.getElem_dropLast]
    intro i hi0 hin
    rw [hget _ (by omega), hget _ (by omega)]
    exact hR i hi0 hin
  · intro i hi0 hin
    omega

/-- The top of a heap has the smallest count of the queue. -/
theorem pq_top_min (pq : List HuffmanNode) (hpq : IsHeap pq) :
    ∀ t ∈ pq, (pq_top pq).count ≤ t.count := by
  have key : ∀ i, i < pq.length → countAt pq 0 ≤ countAt pq i := by
    intro i
    induction i using Nat.strong_induction_on with
    | _ i ih =>
      intro hi
      by_cases h0 : i = 0
      · subst h0; exact le_refl _
      · exact le_trans (ih ((i - 1) / 2) (by omega) (by omega)) (hpq i (by omega) hi)
  intro t ht
  obtain ⟨i, hi, rfl⟩ := List.getElem_of_mem ht
  have := key i hi
  unfold countAt at this
  rw [List.getD_eq_getElem _ _ hi] at this
  exact this

theorem isHeap_nil : IsHeap [] := by
  intro i _ hi
  simp at hi

theorem pushLeaves_heap (map : hashmap) (vec : List Int) :
    ∀ pq, IsHeap pq → IsHeap (pushLeaves map vec pq) := by
  induction vec with
  | nil => intro pq h; exact h
  | cons key vec ih =>
    intro pq h
    unfold pushLeaves
    exact ih _ (pq_push_heap _ _ h)

/-! ## The cost of Huffman's algorithm is a lower bound -/

theorem insertionSort_perm_eq {ws ws' : List Int} (h : ws.Perm ws') :
    ws.insertionSort (· ≤ ·) = ws'.insertionSort (· ≤ ·) := by
  apply List.eq_of_perm_of_sorted _ (List.sorted_insertionSort _ _)
    (List.sorted_insertionSort _ _)
  exact ((List.perm_insertionSort _ _).trans h).trans (List.perm_insertionSort _ _).symm

theorem huffmanCostAux_perm (fuel : Nat) {ws ws' : List Int} (h : ws.Perm ws') :
    huffmanCostAux fuel ws = huffmanCostAux fuel ws' := by
  cases fuel with
  | zero => rfl
  | succ n => simp only [huffmanCostAux, insertionSort_perm_eq h]

theorem huffmanCost_perm {ws ws' : List Int} (h : ws.Perm ws') :
    huffmanCost ws = huffmanCost ws' := by
  unfold huffmanCost
  rw [h.length_eq]
  exact huffmanCostAux_perm _ h

theorem huffmanCostAux_succ (fuel : Nat) (ws : List Int) (a b : Int) (rest : List Int)
    (h : ws.insertionSort (· ≤ ·) = a :: b :: rest) :
    huffmanCostAux (fuel + 1) ws = a + b + huffmanCostAux fuel ((a + b) :: rest) := by
  simp only [huffmanCostAux, h]

theorem huffmanCost_single (w : Int) : huffmanCost [w] = 0 := by
  simp [huffmanCost, huffmanCostAux]

theorem huffmanCost_two_smallest (a b : Int) (rest : List Int) (hab : a ≤ b)
    (hb : ∀ x ∈ rest, b ≤ x) :
    huffmanCost (a :: b :: rest) = a + b + huffmanCost ((a + b) :: rest) := by
  have hs : (a :: b :: rest).insertionSort (· ≤ ·) = a :: b :: rest.insertionSort (· ≤ ·) := by
    apply List.eq_of_perm_of_sorted _ (List.sorted_insertionSort _ _)
    · simp only [List.sorted_cons]
      refine ⟨?_, ?_, List.sorted_insertionSort _ _⟩
      · intro x hx
        rcases List.mem_cons.mp hx with rfl | hx
        · exact hab
        · exact le_trans hab (hb x ((List.perm_insertionSort _ _).mem_iff.mp hx))
      · intro x hx
        exact hb x ((List.perm_insertionSort _ _).mem_iff.mp hx)
    · exact (List.perm_insertionSort _ _).trans
        (((List.perm_insertionSort _ rest).symm.cons b).cons a)
  unfold huffmanCost
  rw [List.length_cons, List.length_cons, huffmanCostAux_succ _ _ _ _ _ hs, List.length_cons,
    huffmanCostAux_perm _ (((List.perm_insertionSort (· ≤ ·) rest)).cons (a + b))]

/-! ### Entries of smallest weight -/

theorem exists_min_entry (ps : List (Int × Nat)) (hne : ps ≠ []) :
    ∃ e R, ps.Perm (e :: R) ∧ ∀ e' ∈ R, e.1 ≤ e'.1 := by
  induction ps with
  | nil => exact absurd rfl hne
  | cons p ps ih =>
    by_cases h : ps = []
    · subst h
      exact ⟨p, [], List.Perm.refl _, by simp⟩
    · obtain ⟨e, R, hperm, hmin⟩ := ih h
      by_cases hpe : p.1 ≤ e.1
      · refine ⟨p, e :: R, hperm.cons p, ?_⟩
        intro e' he'
        rcases List.mem_cons.mp he' with rfl | he'
        · exact hpe
        · exact le_trans hpe (hmin e' he')
      · refine ⟨e, p :: R, (hperm.cons p).trans (List.Perm.swap e p R), ?_⟩
        intro e' he'
        rcases List.mem_cons.mp he' with rfl | he'
        · exact le_of_lt (not_le.mp hpe)
        · exact hmin e' he'

theorem pairCost_cons (e : Int × Nat) (ps : List (Int × Nat)) :
    pairCost (e :: ps) = e.1 * (e.2 : Int) + pairCost ps := by
  simp [pairCost]

theorem pairCost_perm {ps ps' : List (Int × Nat)} (h : ps.Perm ps') :
    pairCost ps = pairCost ps' := by
  unfold pairCost
  exact (h.map _).sum_eq

theorem kraftSum_perm (M : Nat) {ls ls' : List Nat} (h : ls.Perm ls') :
    kraftSum M ls = kraftSum M ls' := by
  unfold kraftSum
  exact (h.map _).sum_eq

theorem kraftSum_cons (M l : Nat) (ls : List Nat) :
    kraftSum M (l :: ls) = 2 ^ (M - l) + kraftSum M ls := by
  simp [kraftSum]

/-- An entry of smallest weight can be given the greatest length, in exchange
with an entry that has it, without increasing the cost. -/
theorem swap_to_front (L : Nat) (u : Int) (lu : Nat) (T : List (Int × Nat))
    (hu : ∀ e ∈ T, u ≤ e.1) (hL : ∀ e ∈ (u, lu) :: T, e.2 ≤ L)
    (hex : ∃ e ∈ (u, lu) :: T, e.2 = L) :
    ∃ T', (((u, L) :: T').map Prod.snd).Perm ((((u, lu) :: T)).map Prod.snd) ∧
      (T'.map Prod.fst).Perm (T.map Prod.fst) ∧
      pairCost ((u, L) :: T') ≤ pairCost ((u, lu) :: T) := by
  by_cases h : lu = L
  · subst h
    exact ⟨T, List.Perm.refl _, List.Perm.refl _, le_refl _⟩
  · obtain ⟨e, he, heL⟩ := hex
    have heT : e ∈ T := by
      rcases List.mem_cons.mp he with rfl | h'
      · exact absurd heL h
      · exact h'
    obtain ⟨T'', hT''⟩ : ∃ T'', T.Perm (e :: T'') := by
      obtain ⟨s, t, rfl⟩ := List.append_of_mem heT
      exact ⟨s ++ t, List.perm_middle⟩
    obtain ⟨x, lx⟩ := e
    simp only at heL
    subst heL
    refine ⟨(x, lu) :: T'', ?_, ?_, ?_⟩
    · have := (hT''.map Prod.snd)
      simp only [List.map_cons] at this ⊢
      exact (List.Perm.swap lu lx _).trans (this.symm.cons lu)
    · have := (hT''.map Prod.fst)
      simp only [List.map_cons] at this ⊢
      exact this.symm
    · have hlu : lu ≤ lx := hL (u, lu) (by simp)
      have hux : u ≤ x := hu (x, lx) heT
      rw [pairCost_cons, pairCost_cons, pairCost_cons, pairCost_perm hT'', pairCost_cons]
      simp only
      have hlu' : (lu : Int) ≤ (lx : Int) := by exact_mod_cast hlu
      nlinarith [mul_nonneg (sub_nonneg.mpr hux) (sub_nonneg.mpr hlu')]

theorem kraftSum_zero (ls : List Nat) : kraftSum 0 ls = ls.length := by
  induction ls with
  | nil => rfl
  | cons l ls ih => rw [kraftSum_cons, ih]; simp; omega

theorem kraftSum_succ (M : Nat) (ls : List Nat) (h : ∀ l ∈ ls, l ≤ M) :
    kraftSum (M + 1) ls = 2 * kraftSum M ls := by
  induction ls with
  | nil => rfl
  | cons l ls ih =>
    rw [kraftSum_cons, kraftSum_cons, ih (fun x hx => h x (by simp [hx]))]
    have hl : l ≤ M := h l (by simp)
    have : M + 1 - l = (M - l) + 1 := by omega
    rw [this, pow_succ]
    ring

/-- Lengths that satisfy the Kraft inequality cost at least the cost of
Huffman's algorithm, for non-negative weights. -/
theorem kraft_cost_bound : ∀ (n M : Nat) (ps : List (Int × Nat)), ps.length = n + 1 →
    (∀ e ∈ ps, 0 ≤ e.1) → (∀ e ∈ ps, e.2 ≤ M) → kraftSum M (ps.map Prod.snd) ≤ 2 ^ M →
    huffmanCost (ps.map Prod.fst) ≤ pairCost ps := by
  intro n
  induction n with
  | zero =>
    intro M ps hlen hnn _ _
    match ps, hlen with
    | [e], _ =>
      simp only [List.map_cons, List.map_nil, huffmanCost_single, pairCost_cons]
      have := hnn e (by simp)
      simp only [pairCost, List.map_nil, List.sum_nil, add_zero]
      positivity
  | succ n ihn =>
    intro M
    induction M with
    | zero =>
      intro ps hlen _ _ hk
      rw [kraftSum_zero] at hk
      simp at hk
      omega
    | succ M ihM =>
      intro ps hlen hnn hbd hk
      by_cases h1 : ∃ e ∈ ps, e.2 = M + 1
      · have hne : ps ≠ [] := by intro h; rw [h] at hlen; simp at hlen
        obtain ⟨⟨a, la⟩, Q1, hp1, hmin1⟩ := exists_min_entry ps hne
        have hex1 : ∃ e ∈ (a, la) :: Q1, e.2 = M + 1 := by
          obtain ⟨e, he, h⟩ := h1
          exact ⟨e, hp1.mem_iff.mp he, h⟩
        obtain ⟨T1, hl1, hw1, hc1⟩ := swap_to_front (M + 1) a la Q1 hmin1
          (fun e he => hbd e (hp1.mem_iff.mpr he)) hex1
        have ha0 : 0 ≤ a := hnn (a, la) (hp1.mem_iff.mpr (by simp))
        have hcost1 : pairCost ((a, M + 1) :: T1) ≤ pairCost ps := by
          rw [pairCost_perm hp1]; exact hc1
        have hlens1 : (((a, M + 1) :: T1).map Prod.snd).Perm (ps.map Prod.snd) :=
          hl1.trans (hp1.map Prod.snd).symm
        have hws1 : (ps.map Prod.fst).Perm (a :: T1.map Prod.fst) :=
          (hp1.map Prod.fst).trans (hw1.symm.cons a)
        have hT1w : ∀ e ∈ T1, a ≤ e.1 ∧ 0 ≤ e.1 := by
          intro e he
          have h1 : e.1 ∈ T1.map Prod.fst := List.mem_map_of_mem _ he
          have h2 : e.1 ∈ Q1.map Prod.fst := hw1.mem_iff.mp h1
          obtain ⟨e', he', hee⟩ := List.mem_map.mp h2
          rw [← hee]
          exact ⟨hmin1 e' he', hnn e' (hp1.mem_iff.mpr (by simp [he']))⟩
        have hT1l : ∀ e ∈ T1, e.2 ≤ M + 1 := by
          intro e he
          have h1 : e.2 ∈ ((a, M + 1) :: T1).map Prod.snd :=
            List.mem_map_of_mem _ (by simp [he])
          obtain ⟨e', he', hee⟩ := List.mem_map.mp (hlens1.mem_iff.mp h1)
          rw [← hee]
          exact hbd e' he'
        have hk1 : 1 + kraftSum (M + 1) (T1.map Prod.snd) ≤ 2 ^ (M + 1) := by
          have := kraftSum_perm (M + 1) hlens1
          simp only [List.map_cons, kraftSum_cons, Nat.sub_self, pow_zero] at this
          omega
        have hT1len : T1.length = n + 1 := by
          have := hlens1.length_eq
          simp at this
          omega
        by_cases h2 : ∃ e ∈ T1, e.2 = M + 1
        · have hne2 : T1 ≠ [] := by intro h; rw [h] at hT1len; simp at hT1len
          obtain ⟨⟨b, lb⟩, Q2, hp2, hmin2⟩ := exists_min_entry T1 hne2
          have hex2 : ∃ e ∈ (b, lb) :: Q2, e.2 = M + 1 := by
            obtain ⟨e, he, h⟩ := h2
            exact ⟨e, hp2.mem_iff.mp he, h⟩
          obtain ⟨T2, hl2, hw2, hc2⟩ := swap_to_front (M + 1) b lb Q2 hmin2
            (fun e he => hT1l e (hp2.mem_iff.mpr he)) hex2
          have hb : a ≤ b ∧ 0 ≤ b := hT1w (b, lb) (hp2.mem_iff.mpr (by simp))
          have hcost2 : pairCost ((b, M + 1) :: T2) ≤ pairCost T1 := by
            rw [pairCost_perm hp2]; exact hc2
          have hlens2 : (((b, M + 1) :: T2).map Prod.snd).Perm (T1.map Prod.snd) :=
            hl2.trans (hp2.map Prod.snd).symm
          have hT2w : ∀ e ∈ T2, b ≤ e.1 ∧ 0 ≤ e.1 := by
            intro e he
            have h1 : e.1 ∈ T2.map Prod.fst := List.mem_map_of_mem _ he
            have h2 : e.1 ∈ Q2.map Prod.fst := hw2.mem_iff.mp h1
            obtain ⟨e', he', hee⟩ := List.mem_map.mp h2
            rw [← hee]
            exact ⟨hmin2 e' he', (hT1w e' (hp2.mem_iff.mpr (by simp [he']))).2⟩
          have hT2l : ∀ e ∈ T2, e.2 ≤ M + 1 := by
            intro e he
            have h1 : e.2 ∈ ((b, M + 1) :: T2).map Prod.snd :=
              List.mem_map_of_mem _ (by simp [he])
            obtain ⟨e', he', hee⟩ := List.mem_map.mp (hlens2.mem_iff.mp h1)
            rw [← hee]
            exact hT1l e' he'
          have hT2len : T2.length = n := by
            have := hlens2.length_eq
            simp at this
            omega
          have hk2 : kraftSum (M + 1) (T1.map Prod.snd) =
              1 + kraftSum (M + 1) (T2.map Prod.snd) := by
            rw [← kraftSum_perm (M + 1) hlens2]
            simp [kraftSum_cons]
          have hrec := ihn (M + 1) ((a + b, M) :: T2) (by simp [hT2len])
            (by
              intro e he
              rcases List.mem_cons.mp he with rfl | he
              · exact add_nonneg ha0 hb.2
              · exact (hT2w e he).2)
            (by
              intro e he
              rcases List.mem_cons.mp he with rfl | he
              · simp
              · exact hT2l e he)
            (by
              simp only [List.map_cons, kraftSum_cons]
              have : M + 1 - M = 1 := by omega
              rw [this]
              omega)
          have hws : (ps.map Prod.fst).Perm (a :: b :: T2.map Prod.fst) :=
            hws1.trans (((hp2.map Prod.fst).trans (hw2.symm.cons b)).cons a)
          rw [huffmanCost_perm hws, huffmanCost_two_smallest a b _ hb.1
            (by
              intro x hx
              obtain ⟨e, he, rfl⟩ := List.mem_map.mp hx
              exact (hT2w e he).1)]
          simp only [List.map_cons] at hrec
          rw [pairCost_cons] at hrec hcost1 hcost2
          simp only at hrec hcost1 hcost2
          push_cast at hcost1 hcost2
          linarith
        · have hT1M : ∀ l ∈ T1.map Prod.snd, l ≤ M := by
            intro l hl
            obtain ⟨e, he, rfl⟩ := List.mem_map.mp hl
            have h3 := hT1l e he
            have h4 : e.2 ≠ M + 1 := fun h => h2 ⟨e, he, h⟩
            omega
          rw [kraftSum_succ M _ hT1M] at hk1
          have hpow : 2 ^ (M + 1) = 2 * 2 ^ M := by rw [pow_succ]; ring
          have hrec := ihM ((a, M) :: T1) (by simp [hT1len])
            (by
              intro e he
              rcases List.mem_cons.mp he with rfl | he
              · exact ha0
              · exact (hT1w e he).2)
            (by
              intro e he
              rcases List.mem_cons.mp he with rfl | he
              · simp
              · exact hT1M e.2 (List.mem_map_of_mem _ he))
            (by
              simp only [List.map_cons, kraftSum_cons, Nat.sub_self, pow_zero]
              omega)
          rw [huffmanCost_perm hws1]
          simp only [List.map_cons] at hrec
          rw [pairCost_cons] at hrec hcost1
          simp only at hrec hcost1
          push_cast at hcost1
          nlinarith
      · have hall : ∀ l ∈ ps.map Prod.snd, l ≤ M := by
          intro l hl
          obtain ⟨e, he, rfl⟩ := List.mem_map.mp hl
          have h3 := hbd e he
          have h4 : e.2 ≠ M + 1 := fun h => h1 ⟨e, he, h⟩
          omega
        rw [kraftSum_succ M _ hall] at hk
        have hpow : 2 ^ (M + 1) = 2 * 2 ^ M := by rw [pow_succ]; ring
        exact ihM ps hlen hnn (fun e he => hall e.2 (List.mem_map_of_mem _ he)) (by omega)

/-! ### The Kraft inequality of a binary prefix code -/

theorem kraftSum_split (M : Nat) (cs : List (List Bool)) (hne : [] ∉ cs)
    (hM : ∀ c ∈ cs, c.length ≤ M + 1) :
    kraftSum (M + 1) (cs.map List.length) =
      kraftSum M ((tailsOf false cs).map List.length) +
      kraftSum M ((tailsOf true cs).map List.length) := by
  induction cs with
  | nil => rfl
  | cons c cs ih =>
    have hne' : [] ∉ cs := fun h => hne (by simp [h])
    have ih' := ih hne' (fun c hc => hM c (by simp [hc]))
    match c, hne with
    | [], hne => exact absurd (by simp) hne
    | x :: t, _ =>
      have e : M + 1 - (t.length + 1) = M - t.length := by omega
      cases x
      · simp only [tailsOf, List.map_cons, List.length_cons, kraftSum_cons, e,
          List.filterMap_cons, ↓reduceIte, Bool.false_eq_true] at ih' ⊢
        rw [ih']; ring
      · simp only [tailsOf, List.map_cons, List.length_cons, kraftSum_cons, e,
          List.filterMap_cons, ↓reduceIte, Bool.true_eq_false] at ih' ⊢
        rw [ih']; ring

theorem tailsOf_pairwise (b : Bool) (cs : List (List Bool))
    (h : cs.Pairwise (fun c d => ¬ c <+: d ∧ ¬ d <+: c)) :
    (tailsOf b cs).Pairwise (fun c d => ¬ c <+: d ∧ ¬ d <+: c) := by
  unfold tailsOf
  refine List.Pairwise.filterMap _ ?_ h
  intro c d hcd t ht t' ht'
  match c, d, ht, ht' with
  | x :: s, y :: s', ht, ht' =>
    simp only [Option.mem_def, Option.ite_none_right_eq_some, Option.some.injEq] at ht ht'
    obtain ⟨rfl, rfl⟩ := ht
    obtain ⟨rfl, rfl⟩ := ht'
    exact ⟨fun hp => hcd.1 ((List.prefix_cons_inj _).mpr hp),
      fun hp => hcd.2 ((List.prefix_cons_inj _).mpr hp)⟩

theorem tailsOf_length (b : Bool) (M : Nat) (cs : List (List Bool))
    (hM : ∀ c ∈ cs, c.length ≤ M + 1) : ∀ t ∈ tailsOf b cs, t.length ≤ M := by
  intro t ht
  unfold tailsOf at ht
  obtain ⟨c, hc, hct⟩ := List.mem_filterMap.mp ht
  match c, hc, hct with
  | x :: s, hc, hct =>
    simp only [Option.ite_none_right_eq_some, Option.some.injEq] at hct
    obtain ⟨_, rfl⟩ := hct
    have := hM _ hc
    simp at this
    exact this

theorem pairwise_with_nil (cs : List (List Bool))
    (h : cs.Pairwise (fun c d => ¬ c <+: d ∧ ¬ d <+: c)) (hnil : [] ∈ cs) : cs.length ≤ 1 := by
  match cs, h, hnil with
  | [_], _, _ => simp
  | c :: d :: rest, h, hnil =>
    exfalso
    rw [List.pairwise_cons, List.pairwise_cons] at h
    obtain ⟨h1, h2, _⟩ := h
    rcases List.mem_cons.mp hnil with e | e
    · exact (h1 d (by simp)).1 (e ▸ List.nil_prefix)
    · rcases List.mem_cons.mp e with e | e
      · exact (h1 d (by simp)).2 (e ▸ List.nil_prefix)
      · exact (h1 [] (by simp [e])).2 List.nil_prefix

/-- The Kraft inequality: the lengths of the codes of a binary prefix code,
none longer than `M`, have a Kraft sum of at most `2 ^ M`. -/
theorem kraft_of_prefix_free : ∀ (M : Nat) (cs : List (List Bool)),
    cs.Pairwise (fun c d => ¬ c <+: d ∧ ¬ d <+: c) → (∀ c ∈ cs, c.length ≤ M) →
    kraftSum M (cs.map List.length) ≤ 2 ^ M := by
  intro M
  induction M with
  | zero =>
    intro cs hp hM
    rw [kraftSum_zero, List.length_map]
    match cs, hp, hM with
    | [], _, _ => simp
    | c :: rest, hp, hM =>
      have hc : c = [] := List.length_eq_zero.mp (Nat.le_zero.mp (hM c (by simp)))
      have := pairwise_with_nil (c :: rest) hp (by simp [hc])
      simpa using this
  | succ M ih =>
    intro cs hp hM
    by_cases hnil : [] ∈ cs
    · have hlen := pairwise_with_nil cs hp hnil
      match cs, hlen with
      | [], _ => simp [kraftSum]
      | [c], _ =>
        simp only [List.map_cons, List.map_nil, kraftSum_cons]
        have : 2 ^ (M + 1 - c.length) ≤ 2 ^ (M + 1) :=
          Nat.pow_le_pow_right (by norm_num) (by omega)
        simpa [kraftSum] using this
    · rw [kraftSum_split M cs hnil hM]
      have h0 := ih _ (tailsOf_pairwise false cs hp) (tailsOf_length false M cs hM)
      have h1 := ih _ (tailsOf_pairwise true cs hp) (tailsOf_length true M cs hM)
      have hpow : 2 ^ (M + 1) = 2 * 2 ^ M := by rw [pow_succ]; ring
      omega

/-! ## The tree built is a Huffman tree -/

theorem wrapInt_of_range (x : Int) (h0 : 0 ≤ x) (h1 : x < 2147483648) : wrapInt x = x := by
  unfold wrapInt
  omega

/-- The induction principle of the merge loop with the order of the pops: the
first node popped has the smallest count of the queue, the second the
smallest count of the rest. -/
theorem mergeLoop_invariant_min (I : List HuffmanNode → Prop)
    (hperm : ∀ l l', l.Perm l' → I l → I l')
    (hstep : ∀ a b rest, a.count ≤ b.count → (∀ t ∈ rest, b.count ≤ t.count) →
      I (a :: b :: rest) → I (.mk NOT_A_CHAR (wrapInt (a.count + b.count)) a b :: rest)) :
    ∀ (fuel : Nat) (pq : List HuffmanNode), pq.length ≤ fuel + 1 → pq ≠ [] → IsHeap pq →
      I pq → ∃ t, mergeLoop fuel pq = [t] ∧ I [t] := by
  intro fuel
  induction fuel with
  | zero =>
    intro pq hlen hne _ hI
    match pq, hne, hlen with
    | [t], _, _ => exact ⟨t, rfl, hI⟩
    | _ :: _ :: _, _, hlen => simp at hlen
  | succ n ih =>
    intro pq hlen hne hheap hI
    unfold mergeLoop
    split
    · rename_i h2
      simp only []
      have p1 := pq_pop_perm pq hne
      have hl1 : (pq_pop pq).length = pq.length - 1 := pq_pop_length pq
      have hne1 : pq_pop pq ≠ [] := by
        intro h; rw [h] at hl1; simp at hl1; omega
      have p2 := pq_pop_perm (pq_pop pq) hne1
      have hheap1 := pq_pop_heap pq hheap
      have hheap2 := pq_pop_heap _ hheap1
      have hmin1 := pq_top_min pq hheap
      have hmin2 := pq_top_min _ hheap1
      have hab : (pq_top pq).count ≤ (pq_top (pq_pop pq)).count :=
        hmin1 _ (p1.mem_iff.mpr (List.mem_cons_of_mem _ (p2.mem_iff.mpr (by simp))))
      have hrest : ∀ t ∈ pq_pop (pq_pop pq), (pq_top (pq_pop pq)).count ≤ t.count :=
        fun t ht => hmin2 t (p2.mem_iff.mpr (List.mem_cons_of_mem _ ht))
      have hI2 := hstep _ _ _ hab hrest (hperm _ _ (p1.trans (p2.cons _)) hI)
      have p3 := pq_push_perm (pq_pop (pq_pop pq))
        (.mk NOT_A_CHAR (wrapInt ((pq_top pq).count + (pq_top (pq_pop pq)).count))
          (pq_top pq) (pq_top (pq_pop pq)))
      apply ih
      · have := p3.length_eq
        have h4 := pq_pop_length (pq_pop pq)
        simp at this
        omega
      · intro h; have := p3.length_eq; rw [h] at this; simp at this
      · exact pq_push_heap _ _ hheap2
      · exact hperm _ _ p3.symm hI2
    · rename_i h2
      match pq, hne, h2 with
      | [t], _, _ => exact ⟨t, rfl, hI⟩
      | _ :: _ :: _, _, h2 => simp at h2

theorem buildEncodingTree_invariant_min (I : List HuffmanNode → Prop)
    (hperm : ∀ l l', l.Perm l' → I l → I l')
    (hstep : ∀ a b rest, a.count ≤ b.count → (∀ t ∈ rest, b.count ≤ t.count) →
      I (a :: b :: rest) → I (.mk NOT_A_CHAR (wrapInt (a.count + b.count)) a b :: rest))
    (map : hashmap) (hne : map ≠ []) (hinit : I (map.keys.map (mkLeaf map))) :
    I [buildEncodingTree map] := by
  unfold buildEncodingTree
  simp only []
  have hp := pushLeaves_perm map map.keys []
  rw [List.append_nil] at hp
  have hheap := pushLeaves_heap map map.keys [] isHeap_nil
  set pq := pushLeaves map map.keys [] with hpq
  have hlen : pq.length = map.length := by
    have := hp.length_eq; simpa [hashmap.keys] using this
  have hpqne : pq ≠ [] := by
    intro h; rw [h] at hlen; exact hne (List.length_eq_zero.mp hlen.symm)
  obtain ⟨t, ht, hIt⟩ := mergeLoop_invariant_min I hperm hstep pq.length pq (by omega) hpqne
    hheap (hperm _ _ hp.symm hinit)
  rw [ht]
  simpa [pq_top] using hIt

/-! ### Leaves, sums and costs -/

theorem paths_eq_leafInfo (t : HuffmanNode) :
    paths t = (leafInfo t).map (fun e => (e.1, e.2.2)) := by
  induction t with
  | null => rfl
  | mk character count zero one ihz iho =>
    unfold paths leafInfo
    split
    · rfl
    · simp [ihz, iho, List.map_map, Function.comp_def]

theorem leafInfo_node (c : Int) (a b : HuffmanNode) :
    leafInfo (.mk NOT_A_CHAR c a b) =
      (leafInfo a).map (fun e => (e.1, e.2.1, '0' :: e.2.2))
        ++ (leafInfo b).map (fun e => (e.1, e.2.1, '1' :: e.2.2)) := by
  simp [leafInfo]

theorem leafEntries_node (c : Int) (a b : HuffmanNode) :
    leafEntries (.mk NOT_A_CHAR c a b) = leafEntries a ++ leafEntries b := by
  simp [leafEntries, leafInfo_node, List.map_map, Function.comp_def]

theorem leafSum_node (c : Int) (a b : HuffmanNode) :
    leafSum (.mk NOT_A_CHAR c a b) = leafSum a + leafSum b := by
  simp [leafSum, leafInfo_node, List.map_map, Function.comp_def]

theorem sum_map_add_mul (l : List (Int × Int × List Char)) :
    (l.map (fun e => e.2.1 * ((e.2.2.length : Int) + 1))).sum =
      (l.map (fun e => e.2.1 * (e.2.2.length : Int))).sum + (l.map (fun e => e.2.1)).sum := by
  induction l with
  | nil => rfl
  | cons e l ih => simp only [List.map_cons, List.sum_cons, ih]; ring

theorem treeCost_node (c : Int) (a b : HuffmanNode) :
    treeCost (.mk NOT_A_CHAR c a b) = treeCost a + treeCost b + leafSum a + leafSum b := by
  simp only [treeCost, leafSum, leafInfo_node, List.map_append, List.map_map,
    Function.comp_def, List.sum_append, List.length_cons, Nat.cast_add, Nat.cast_one,
    sum_map_add_mul]
  ring

theorem leafSum_eq_entries (t : HuffmanNode) :
    leafSum t = ((leafEntries t).map Prod.snd).sum := by
  simp [leafSum, leafEntries, List.map_map, Function.comp_def]

theorem sum_flatMap_entries (pq : List HuffmanNode) :
    ((pq.flatMap leafEntries).map Prod.snd).sum = (pq.map leafSum).sum := by
  induction pq with
  | nil => rfl
  | cons t pq ih =>
    simp only [List.flatMap_cons, List.map_append, List.sum_append, List.map_cons,
      List.sum_cons, ih, leafSum_eq_entries]

theorem count_mk (character c : Int) (zero one : HuffmanNode) :
    (HuffmanNode.mk character c zero one).count = c := rfl

theorem hashmap_get_of_mem (map : hashmap) (hnd : map.keys.Nodup) :
    ∀ e ∈ map, map.get e.1 = e.2 := by
  induction map with
  | nil => intro e he; simp at he
  | cons p m ih =>
    intro e he
    obtain ⟨k, v⟩ := p
    simp only [hashmap.keys, List.map_cons, List.nodup_cons] at hnd
    rcases List.mem_cons.mp he with rfl | he
    · simp [hashmap.get]
    · have hne : k ≠ e.1 := by
        intro h
        apply hnd.1
        rw [h]
        exact List.mem_map_of_mem _ he
      simp only [hashmap.get, hne, ↓reduceIte]
      exact ih hnd.2 e he

/-- Without overflow the leaves made for the keys are the entries of the
table. -/
theorem leaves_eq_entries (map : hashmap) (hnd : map.keys.Nodup)
    (hr : ∀ e ∈ map, wrapInt e.2 = e.2) :
    map.keys.map (mkLeaf map) = map.map (fun e => HuffmanNode.mk e.1 e.2 .null .null) := by
  unfold hashmap.keys
  rw [List.map_map]
  apply List.map_congr_left
  intro e he
  simp only [Function.comp, mkLeaf]
  rw [hashmap_get_of_mem map hnd e he, hr e he]

theorem entry_le_sum (l : List Int) (h : ∀ x ∈ l, 0 ≤ x) : ∀ x ∈ l, x ≤ l.sum := by
  induction l with
  | nil => intro x hx; simp at hx
  | cons y l ih =>
    intro x hx
    have hy : 0 ≤ y := h y (by simp)
    have hl : 0 ≤ l.sum := List.sum_nonneg (fun z hz => h z (by simp [hz]))
    rw [List.sum_cons]
    rcases List.mem_cons.mp hx with rfl | hx
    · omega
    · have := ih (fun z hz => h z (by simp [hz])) x hx
      omega

/-- For a table of positive counts whose sum fits in an `int`, the tree of
`buildEncodingTree` is a code tree whose leaves are the entries of the table
and whose weighted path length is the cost of Huffman's algorithm. -/
theorem buildEncodingTree_cost (map : hashmap) (hne : map ≠ []) (hnd : map.keys.Nodup)
    (hk : NOT_A_CHAR ∉ map.keys) (hpos : ∀ e ∈ map, 0 < e.2)
    (hsum : (map.map Prod.snd).sum < 2147483648) :
    IsCodeTree (buildEncodingTree map) ∧
    (leafEntries (buildEncodingTree map)).Perm map ∧
    treeCost (buildEncodingTree map) = huffmanCost (map.map Prod.snd) := by
  have hr : ∀ e ∈ map, wrapInt e.2 = e.2 := by
    intro e he
    apply wrapInt_of_range _ (le_of_lt (hpos e he))
    have := entry_le_sum (map.map Prod.snd)
      (by
        intro x hx
        obtain ⟨e', he', rfl⟩ := List.mem_map.mp hx
        exact le_of_lt (hpos e' he'))
      e.2 (List.mem_map_of_mem _ he)
    omega
  have hkey : ∀ e ∈ map, e.1 ≠ NOT_A_CHAR := by
    intro e he h
    apply hk
    rw [← h]
    exact List.mem_map_of_mem _ he
  have := buildEncodingTree_invariant_min
    (fun l => (∀ t ∈ l, IsCodeTree t ∧ t.count = leafSum t) ∧
      (l.flatMap leafEntries).Perm map ∧
      (l.map treeCost).sum + huffmanCost (l.map HuffmanNode.count)
        = huffmanCost (map.map Prod.snd))
    (by
      intro l l' p ⟨h1, h2, h3⟩
      refine ⟨fun t ht => h1 t (p.mem_iff.mpr ht),
        (List.Perm.flatMap_right _ p.symm).trans h2, ?_⟩
      rw [← (p.map treeCost).sum_eq, ← huffmanCost_perm (p.map HuffmanNode.count)]
      exact h3)
    (by
      intro a b rest hab hrest ⟨h1, h2, h3⟩
      have ca : a.count = leafSum a := (h1 a (by simp)).2
      have cb : b.count = leafSum b := (h1 b (by simp)).2
      have hsumW : leafSum a + (leafSum b + (rest.map leafSum).sum)
          = (map.map Prod.snd).sum := by
        have := (h2.map Prod.snd).sum_eq
        rw [sum_flatMap_entries] at this
        simpa using this
      have hnn : ∀ t ∈ a :: b :: rest, 0 ≤ leafSum t := by
        intro t ht
        rw [leafSum_eq_entries]
        apply List.sum_nonneg
        intro x hx
        obtain ⟨e, he, rfl⟩ := List.mem_map.mp hx
        have hmem : e ∈ (a :: b :: rest).flatMap leafEntries :=
          List.mem_flatMap.mpr ⟨t, ht, he⟩
        exact le_of_lt (hpos e (h2.mem_iff.mp hmem))
      have hrestnn : 0 ≤ (rest.map leafSum).sum := by
        apply List.sum_nonneg
        intro x hx
        obtain ⟨t, ht, rfl⟩ := List.mem_map.mp hx
        exact hnn t (by simp [ht])
      have ha0 := hnn a (by simp)
      have hb0 := hnn b (by simp)
      have hwrap : wrapInt (a.count + b.count) = leafSum a + leafSum b := by
        rw [ca, cb]
        exact wrapInt_of_range _ (by omega) (by omega)
      refine ⟨?_, ?_, ?_⟩
      · intro t ht
        rcases List.mem_cons.mp ht with rfl | ht
        · refine ⟨IsCodeTree.node _ _ _ (h1 a (by simp)).1 (h1 b (by simp)).1, ?_⟩
          rw [leafSum_node]
          exact hwrap
        · exact h1 t (by simp [ht])
      · simpa [List.flatMap_cons, leafEntries_node, List.append_assoc] using h2
      · have hts := huffmanCost_two_smallest a.count b.count (rest.map HuffmanNode.count) hab
          (by
            intro x hx
            obtain ⟨t, ht, rfl⟩ := List.mem_map.mp hx
            exact hrest t ht)
        simp only [List.map_cons, List.sum_cons, count_mk, treeCost_node] at h3 ⊢
        rw [hts] at h3
        rw [hwrap, ← ca, ← cb]
        linarith)
    map hne
    (by
      rw [leaves_eq_entries map hnd hr]
      refine ⟨?_, ?_, ?_⟩
      · intro t ht
        obtain ⟨e, he, rfl⟩ := List.mem_map.mp ht
        refine ⟨IsCodeTree.leaf _ _ (hkey e he), ?_⟩
        simp [HuffmanNode.count, leafSum, leafInfo, hkey e he]
      · have : ∀ m : hashmap, (∀ e ∈ m, e.1 ≠ NOT_A_CHAR) →
            (m.map (fun e => HuffmanNode.mk e.1 e.2 .null .null)).flatMap leafEntries = m := by
          intro m
          induction m with
          | nil => intro _; rfl
          | cons e m ih =>
            intro h
            simp only [List.map_cons, List.flatMap_cons,
              ih (fun e' he' => h e' (by simp [he']))]
            simp [leafEntries, leafInfo, h e (by simp)]
        rw [this map hkey]
      · have h0 : ∀ m : hashmap, (∀ e ∈ m, e.1 ≠ NOT_A_CHAR) →
            ((m.map (fun e => HuffmanNode.mk e.1 e.2 .null .null)).map treeCost).sum = 0 := by
          intro m
          induction m with
          | nil => intro _; rfl
          | cons e m ih =>
            intro h
            simp only [List.map_cons, List.sum_cons, ih (fun e' he' => h e' (by simp [he']))]
            simp [treeCost, leafInfo, h e (by simp)]
        rw [h0 map hkey, List.map_map]
        simp only [zero_add]
        congr 1)
  obtain ⟨h1, h2, h3⟩ := this
  refine ⟨(h1 _ (by simp)).1, by simpa using h2, ?_⟩
  simpa [huffmanCost_single] using h3

/-! ## Optimality -/

theorem le_sum_of_mem_nat (l : List Nat) : ∀ x ∈ l, x ≤ l.sum := by
  induction l with
  | nil => intro x hx; simp at hx
  | cons y l ih =>
    intro x hx
    rw [List.sum_cons]
    rcases List.mem_cons.mp hx with rfl | hx
    · omega
    · have := ih x hx
      omega

/-- The total weighted length of a binary prefix code for the keys of a table
of positive counts is at least the cost of Huffman's algorithm on the
counts. -/
theorem prefix_code_cost_bound (map : hashmap) (hne : map ≠ []) (hnd : map.keys.Nodup)
    (hpos : ∀ e ∈ map, 0 < e.2) (f : Int → List Bool)
    (hf : ∀ k1 ∈ map.keys, ∀ k2 ∈ map.keys, k1 ≠ k2 → ¬ f k1 <+: f k2) :
    huffmanCost (map.map Prod.snd) ≤ tableCost map (fun k => (f k).length) := by
  have hpw : (map.keys.map f).Pairwise (fun c d => ¬ c <+: d ∧ ¬ d <+: c) := by
    rw [List.pairwise_map]
    exact List.Pairwise.imp_of_mem
      (fun {a b} ha hb hab => ⟨hf a ha b hb hab, hf b hb a ha (Ne.symm hab)⟩) hnd
  have hkraft := kraft_of_prefix_free (((map.keys.map f).map List.length).sum) (map.keys.map f)
    hpw (fun c hc => le_sum_of_mem_nat _ _ (List.mem_map_of_mem _ hc))
  obtain ⟨n, hn⟩ : ∃ n, map.length = n + 1 := by
    cases map with
    | nil => exact absurd rfl hne
    | cons e m => exact ⟨m.length, rfl⟩
  have hB := kraft_cost_bound n (((map.keys.map f).map List.length).sum)
    (map.map (fun e => (e.2, (f e.1).length))) (by simpa using hn)
    (by
      intro e he
      obtain ⟨e', he', rfl⟩ := List.mem_map.mp he
      exact le_of_lt (hpos e' he'))
    (by
      intro e he
      obtain ⟨e', he', rfl⟩ := List.mem_map.mp he
      apply le_sum_of_mem_nat
      simp only [hashmap.keys, List.map_map, List.mem_map, Function.comp]
      exact ⟨e', he', rfl⟩)
    (by
      have e : (map.map (fun e => (e.2, (f e.1).length))).map Prod.snd
          = (map.keys.map f).map List.length := by
        simp [hashmap.keys, List.map_map, Function.comp_def]
      rw [e]
      exact hkraft)
  have e1 : (map.map (fun e => (e.2, (f e.1).length))).map Prod.fst = map.map Prod.snd := by
    simp [List.map_map, Function.comp_def]
  have e2 : pairCost (map.map (fun e => (e.2, (f e.1).length)))
      = tableCost map (fun k => (f k).length) := by
    simp [pairCost, tableCost, List.map_map, Function.comp_def]
  rw [e1, e2] at hB
  exact hB

/-- The total weighted length of the code table of a code tree whose leaves
are the entries of the table is the weighted path length of the tree. -/
theorem tableCost_eq_treeCost (map : hashmap) (hnd : map.keys.Nodup) (t : HuffmanNode)
    (hl : (leafEntries t).Perm map) :
    tableCost map (codeLength (putAll [] (paths t))) = treeCost t := by
  have hnd' : ((paths t).map Prod.fst).Nodup := by
    have e : (paths t).map Prod.fst = (leafEntries t).map Prod.fst := by
      simp [paths_eq_leafInfo, leafEntries, List.map_map, Function.comp_def]
    rw [e]
    exact (hl.map Prod.fst).nodup_iff.mpr hnd
  have hcode : ∀ e ∈ leafInfo t, codeLength (putAll [] (paths t)) e.1 = e.2.2.length := by
    intro e he
    have hmem : (e.1, e.2.2) ∈ paths t := by
      rw [paths_eq_leafInfo]
      exact List.mem_map.mpr ⟨e, he, rfl⟩
    unfold codeLength
    rw [putAll_get_of_mem _ [] _ _ hnd' hmem]
    rfl
  unfold tableCost treeCost
  rw [← (hl.map (fun e => e.2 * (codeLength (putAll [] (paths t)) e.1 : Int))).sum_eq]
  unfold leafEntries
  rw [List.map_map]
  congr 1
  apply List.map_congr_left
  intro e he
  simp only [Function.comp]
  rw [hcode e he]

/-- The code table of the tree of a table of positive counts whose sum fits
in an `int` exists and costs no more than any binary prefix code. -/
theorem code_table_optimal (map : hashmap) (hne : map ≠ []) (hnd : map.keys.Nodup)
    (hk : NOT_A_CHAR ∉ map.keys) (hpos : ∀ e ∈ map, 0 < e.2)
    (hsum : (map.map Prod.snd).sum < 2147483648) :
    ∃ codes, buildEncodingMap (buildEncodingTree map) = some codes ∧
      ∀ f : Int → List Bool,
        (∀ k1 ∈ map.keys, ∀ k2 ∈ map.keys, k1 ≠ k2 → ¬ f k1 <+: f k2) →
        tableCost map (codeLength codes) ≤ tableCost map (fun k => (f k).length) := by
  obtain ⟨hct, hl, hcost⟩ := buildEncodingTree_cost map hne hnd hk hpos hsum
  refine ⟨_, buildEncodingMap_eq _ hct, ?_⟩
  intro f hf
  rw [tableCost_eq_treeCost map hnd _ hl, hcost]
  exact prefix_code_cost_bound map hne hnd hpos f hf

set_option maxRecDepth 100000 in
/-- C4, the claim as stated fails. For four symbols counted `2^30` times each
the sums of the counts overflow `int`: the code table has lengths 3, 3, 2, 1,
its total weighted length is `9 * 2^30`, above the `8 * 2^30` of the prefix
code that gives two bits to every symbol. And for a table with the key
`NOT_A_CHAR` no code table is obtained at all. -/
theorem overflow_not_optimal :
    buildEncodingMap (buildEncodingTree bigTable) =
      some [(97, "000".toList), (99, "001".toList), (100, "01".toList), (98, "1".toList)] ∧
    tableCost bigTable (codeLength
      [(97, "000".toList), (99, "001".toList), (100, "01".toList), (98, "1".toList)])
      = 9 * 1073741824 ∧
    (∀ k1 ∈ bigTable.keys, ∀ k2 ∈ bigTable.keys, k1 ≠ k2 →
      ¬ twoBitCode k1 <+: twoBitCode k2) ∧
    tableCost bigTable (fun k => (twoBitCode k).length) = 8 * 1073741824 ∧
    buildEncodingMap (buildEncodingTree [(97, 1), (257, 1)]) = none := by
  decide


/-! ## Tables of two entries -/

/-- The tree of a table of two entries with different counts, in either order
of the keys: the entry of smaller count is the zero child. -/
theorem buildEncodingTree_pair (k1 v1 k2 v2 : Int) (hk : k1 ≠ k2)
    (h : wrapInt v1 < wrapInt v2) :
    buildEncodingTree [(k1, v1), (k2, v2)] =
      .mk NOT_A_CHAR (wrapInt (wrapInt v1 + wrapInt v2))
        (.mk k1 (wrapInt v1) .null .null) (.mk k2 (wrapInt v2) .null .null) ∧
    buildEncodingTree [(k2, v2), (k1, v1)] =
      .mk NOT_A_CHAR (wrapInt (wrapInt v1 + wrapInt v2))
        (.mk k1 (wrapInt v1) .null .null) (.mk k2 (wrapInt v2) .null .null) := by
  have h' : ¬ wrapInt v2 < wrapInt v1 := by omega
  have hk' : k2 ≠ k1 := Ne.symm hk
  constructor
  · simp [buildEncodingTree, hashmap.keys, pushLeaves, pq_push, push_heap, push_heap_aux,
      push_heap_loop, hashmap.get, mergeLoop, pq_top, pq_pop, pop_heap, adjust_heap,
      adjust_heap_loop, prioritize, HuffmanNode.count, h, h', hk, hk']
  · simp [buildEncodingTree, hashmap.keys, pushLeaves, pq_push, push_heap, push_heap_aux,
      push_heap_loop, hashmap.get, mergeLoop, pq_top, pq_pop, pop_heap, adjust_heap,
      adjust_heap_loop, prioritize, HuffmanNode.count, h, h', hk, hk']

theorem perm_two {α : Type} (a b : α) (l : List α) (h : l.Perm [a, b]) :
    l = [a, b] ∨ l = [b, a] := by
  rw [← List.mem_permutations] at h
  simpa [List.permutations, List.permutationsAux_cons, List.permutationsAux2, or_comm] using h

/-- The tree of any enumeration of a table of two entries with different
counts. -/
theorem buildEncodingTree_perm_pair (k1 v1 k2 v2 : Int) (hk : k1 ≠ k2)
    (h : wrapInt v1 < wrapInt v2) (m : hashmap) (hm : m.Perm [(k1, v1), (k2, v2)]) :
    buildEncodingTree m =
      .mk NOT_A_CHAR (wrapInt (wrapInt v1 + wrapInt v2))
        (.mk k1 (wrapInt v1) .null .null) (.mk k2 (wrapInt v2) .null .null) := by
  rcases perm_two _ _ _ hm with rfl | rfl
  · exact (buildEncodingTree_pair k1 v1 k2 v2 hk h).1
  · exact (buildEncodingTree_pair k1 v1 k2 v2 hk h).2

theorem buildEncodingMap_pair (k1 c1 k2 c2 c : Int) (hk : k1 ≠ k2) (h1 : k1 ≠ NOT_A_CHAR)
    (h2 : k2 ≠ NOT_A_CHAR) :
    buildEncodingMap (.mk NOT_A_CHAR c (.mk k1 c1 .null .null) (.mk k2 c2 .null .null)) =
      some [(k1, ['0']), (k2, ['1'])] := by
  simp [buildEncodingMap, _treeRecursion, h1, h2, mymap.put, hk]

theorem encodeLoop_replicate (k1 k2 : Int) (b : CChar) (hb : charToInt b = k2) (hk : k1 ≠ k2)
    (n : Nat) : ∀ s, encodeLoop [(k1, ['0']), (k2, ['1'])] (List.replicate n b) s =
      some (s ++ List.replicate n '1') := by
  induction n with
  | zero => intro s; simp [encodeLoop]
  | succ n ih =>
    intro s
    simp only [List.replicate_succ, encodeLoop, mymap.get, hb, hk, ↓reduceIte]
    rw [ih]
    simp [List.append_assoc]

theorem writeBits_replicate_one (n : Nat) :
    writeBits (List.replicate n '1') = List.replicate n true := by
  induction n with
  | zero => rfl
  | succ n ih => simp [List.replicate_succ, writeBits, ih]

/-- The payload written for `n` copies of a byte whose code is `1`, the code
of `PSEUDO_EOF` being `0`. -/
theorem encode_replicate (b : CChar) (n : Nat) :
    encode (List.replicate n b) [(PSEUDO_EOF, ['0']), (charToInt b, ['1'])] true =
      some (List.replicate n '1' ++ ['0'],
        wrapInt ((List.replicate n '1' ++ ['0']).length : Nat),
        List.replicate n true ++ [false]) := by
  have hk : PSEUDO_EOF ≠ charToInt b := Ne.symm (charToInt_ne_PSEUDO_EOF b)
  unfold encode
  rw [encodeLoop_replicate PSEUDO_EOF (charToInt b) b rfl hk]
  simp [mymap.get, writeBits_append, writeBits_replicate_one, writeBits]

theorem decodeLoop_replicate (c c1 c2 : Int) (b : CChar) (rest : List Bool) (n : Nat) :
    ∀ (f : Nat) (s : List CChar),
      decodeLoop (.mk NOT_A_CHAR c (.mk PSEUDO_EOF c1 .null .null)
          (.mk (charToInt b) c2 .null .null)) (n + 1 + f)
        ⟨List.replicate n true ++ false :: rest, false⟩
        (.mk NOT_A_CHAR c (.mk PSEUDO_EOF c1 .null .null) (.mk (charToInt b) c2 .null .null)) s
      = some (s ++ List.replicate n b) := by
  induction n with
  | zero =>
    intro f s
    rw [show 0 + 1 + f = f + 1 by omega]
    simp [decodeLoop_cons, HuffmanNode.character?]
  | succ n ih =>
    intro f s
    rw [show n + 1 + 1 + f = (n + 1 + f) + 1 by omega, List.replicate_succ, List.cons_append,
      decodeLoop_cons]
    simp only [↓reduceIte, HuffmanNode.character?, charToInt_ne_PSEUDO_EOF, ne_eq,
      charToInt_ne_NOT_A_CHAR, not_false_eq_true, intToChar_charToInt]
    rw [ih]
    simp [List.replicate_succ]

/-- With two copies or more of one byte, and fewer than `2^30`, the tree that
`decompress` builds after counting the original file again is the tree of
`compress` up to the counts, and the text is decoded back, whatever the order
of the keys. -/
theorem single_symbol_decodeWith (b : CChar) (n : Nat) (h2 : 2 ≤ n) (hn : n < 1073741824)
    (m1 m2 : hashmap) (hm1 : m1.Perm [(PSEUDO_EOF, 1), (charToInt b, n)])
    (hm2 : m2.Perm [(PSEUDO_EOF, 1), (charToInt b, 2 * n)]) :
    decodeWith m1 m2 (List.replicate n b) = some (List.replicate n b) := by
  have hk : PSEUDO_EOF ≠ charToInt b := Ne.symm (charToInt_ne_PSEUDO_EOF b)
  have w1 : wrapInt 1 = 1 := by decide
  have wn : wrapInt n = n := wrapInt_of_range _ (by omega) (by omega)
  have w2n : wrapInt (2 * n) = 2 * n := wrapInt_of_range _ (by omega) (by omega)
  have t1 := buildEncodingTree_perm_pair PSEUDO_EOF 1 (charToInt b) n hk
    (by rw [w1, wn]; omega) m1 hm1
  have t2 := buildEncodingTree_perm_pair PSEUDO_EOF 1 (charToInt b) (2 * n) hk
    (by rw [w1, w2n]; omega) m2 hm2
  unfold decodeWith
  rw [t1, t2, buildEncodingMap_pair _ _ _ _ _ hk (by decide) (charToInt_ne_NOT_A_CHAR b)]
  simp only [encode_replicate]
  unfold decode padBits
  simp only [List.append_assoc, List.length_append, List.length_replicate, List.singleton_append,
    List.length_cons]
  rw [show n + ((8 - (n + (([] : List Bool).length + 1)) % 8) % 8 + 1) + 1
      = n + 1 + ((8 - (n + (([] : List Bool).length + 1)) % 8) % 8 + 1) by omega]
  rw [decodeLoop_replicate]
  simp

/-- With `2^30` copies or more of one byte (and fewer than `2^31`), the count
that `decompress` reaches after counting the original file again overflows
`int`, its tree has `PSEUDO_EOF` as one child, and nothing is decoded,
whatever the order of the keys. -/
theorem single_symbol_overflow (b : CChar) (n : Nat) (h2 : 1073741824 ≤ n)
    (hn : n < 2147483648)
    (m1 m2 : hashmap) (hm1 : m1.Perm [(PSEUDO_EOF, 1), (charToInt b, n)])
    (hm2 : m2.Perm [(charToInt b, 2 * n), (PSEUDO_EOF, 1)]) :
    decodeWith m1 m2 (List.replicate n b) = some [] := by
  have hk : PSEUDO_EOF ≠ charToInt b := Ne.symm (charToInt_ne_PSEUDO_EOF b)
  have w1 : wrapInt 1 = 1 := by decide
  have wn : wrapInt n = n := wrapInt_of_range _ (by omega) (by omega)
  have w2n : wrapInt (2 * n) < 0 := by unfold wrapInt; omega
  have t1 := buildEncodingTree_perm_pair PSEUDO_EOF 1 (charToInt b) n hk
    (by rw [w1, wn]; omega) m1 hm1
  have t2 := buildEncodingTree_perm_pair (charToInt b) (2 * n) PSEUDO_EOF 1 (Ne.symm hk)
    (by rw [w1]; omega) m2 hm2
  unfold decodeWith
  rw [t1, t2, buildEncodingMap_pair _ _ _ _ _ hk (by decide) (charToInt_ne_NOT_A_CHAR b)]
  simp only [encode_replicate]
  obtain ⟨k, rfl⟩ : ∃ k, n = k + 1 := ⟨n - 1, by omega⟩
  unfold decode padBits
  simp only [List.replicate_succ, List.cons_append, decodeLoop_cons, ↓reduceIte,
    HuffmanNode.character?]

/-! ## `compress` followed by `decompress` -/

/-- The round trip through the files, in terms of the two tables: `compress`
encodes with the tree of `compressTable X`, and `decompress`, which finds the
original file still there, decodes with the tree of `recountTable X`. -/
theorem compressThenDecompress_eq (fs : FileSystem) (filename : List CChar) (X : List CChar)
    (hfile : fs filename = some (.bytes X)) (hname : find filename (str ".huf") = none)
    (hout : outputName (filename ++ str ".huf") ≠ filename) :
    compressThenDecompress fs filename = decodeWith (compressTable X) (recountTable X) X := by
  have hne := name_ne_append_huf filename
  have hcut : substr0 (filename ++ str ".huf") (find (filename ++ str ".huf") (str ".huf"))
      = filename := by
    rw [find_huf_append _ hname]
    simp [substr0]
  have hbfm : buildFrequencyMap fs filename true [] = some (compressTable X) := by
    simp [buildFrequencyMap, readBytes, hfile, compressTable]
  unfold compressThenDecompress compress decodeWith
  rw [hbfm]
  simp only []
  cases hcodes : buildEncodingMap (buildEncodingTree (compressTable X)) with
  | none => rfl
  | some codes =>
    simp only []
    have hr : readBytes (fs.write (filename ++ str ".huf") (.huf (compressTable X) []))
        filename = some X := by
      simp [readBytes, FileSystem.write, hne, hfile]
    rw [hr]
    simp only []
    cases henc : encode X codes true with
    | none => rfl
    | some r =>
      obtain ⟨s, sz, bits⟩ := r
      simp only []
      set fs1 := fs.write (filename ++ str ".huf") (.huf (compressTable X) (padBits bits))
        with hfs1
      have htab : decompressTable fs1 (filename ++ str ".huf") =
          some (recountTable X, padBits bits, outputName (filename ++ str ".huf"),
            fs1.write (outputName (filename ++ str ".huf")) (.bytes [])) := by
        unfold decompressTable
        have h1 : fs1 (filename ++ str ".huf") = some (.huf (compressTable X) (padBits bits)) := by
          simp [hfs1, FileSystem.write]
        rw [h1]
        simp only [hcut]
        have hr2 : readBytes (fs1.write (outputName (filename ++ str ".huf")) (.bytes []))
            filename = some X := by
          simp [readBytes, FileSystem.write, hfs1, hne, hfile, Ne.symm hout]
        have hbfm2 : buildFrequencyMap
            (fs1.write (outputName (filename ++ str ".huf")) (.bytes [])) filename true
            (compressTable X) = some (recountTable X) := by
          simp [buildFrequencyMap, hr2, recountTable]
        unfold outputName at hbfm2 ⊢
        rw [hbfm2]
      unfold decompress
      rw [htab]
      simp only []
      cases decode { bits := padBits bits, eofbit := false }
        (buildEncodingTree (recountTable X)) <;> rfl

theorem countChar_head (k v : Int) (rest : hashmap) (b : CChar) (hb : charToInt b = k) :
    countChar ((k, v) :: rest) b = (k, v + 1) :: rest := by
  simp [countChar, hashmap.containsKey, hashmap.get, hashmap.put, hb]

theorem foldl_countChar_replicate (b : CChar) (rest : hashmap) (n : Nat) :
    ∀ v : Int, (List.replicate n b).foldl countChar ((charToInt b, v) :: rest)
      = (charToInt b, v + n) :: rest := by
  induction n with
  | zero => intro v; simp
  | succ n ih =>
    intro v
    rw [List.replicate_succ, List.foldl_cons, countChar_head _ _ _ _ rfl, ih]
    push_cast
    rw [add_assoc, add_comm 1 (n : Int)]

theorem compressTable_replicate (b : CChar) (n : Nat) (hn : 1 ≤ n) :
    compressTable (List.replicate n b) = [(charToInt b, (n : Int)), (PSEUDO_EOF, 1)] := by
  obtain ⟨k, rfl⟩ : ∃ k, n = k + 1 := ⟨n - 1, by omega⟩
  unfold compressTable
  rw [List.replicate_succ, List.foldl_cons]
  have h0 : countChar [] b = [(charToInt b, 1)] := by
    simp [countChar, hashmap.containsKey, hashmap.put]
  rw [h0, foldl_countChar_replicate]
  simp only [hashmap.put, charToInt_ne_PSEUDO_EOF, ↓reduceIte]
  push_cast
  rw [add_comm]

theorem recountTable_replicate (b : CChar) (n : Nat) (hn : 1 ≤ n) :
    recountTable (List.replicate n b) = [(charToInt b, 2 * (n : Int)), (PSEUDO_EOF, 1)] := by
  unfold recountTable
  rw [compressTable_replicate b n hn, foldl_countChar_replicate]
  simp only [hashmap.put, charToInt_ne_PSEUDO_EOF, ↓reduceIte]
  rw [two_mul]

/-- Single-symbol files of two bytes or more, and fewer than `2^30`, come
back from `compress` followed by `decompress`. -/
theorem single_symbol_round_trip (fs : FileSystem) (filename : List CChar) (b : CChar)
    (n : Nat) (h2 : 2 ≤ n) (hn : n < 1073741824)
    (hfile : fs filename = some (.bytes (List.replicate n b)))
    (hname : find filename (str ".huf") = none)
    (hout : outputName (filename ++ str ".huf") ≠ filename) :
    compressThenDecompress fs filename = some (List.replicate n b) := by
  rw [compressThenDecompress_eq fs filename _ hfile hname hout]
  apply single_symbol_decodeWith b n h2 hn
  · rw [compressTable_replicate b n (by omega)]
    exact List.Perm.swap _ _ _
  · rw [recountTable_replicate b n (by omega)]
    exact List.Perm.swap _ _ _

/-- Single-symbol files of `2^30` bytes or more (and fewer than `2^31`) do
not come back: `decompress` returns the empty text. -/
theorem single_symbol_file_overflow (fs : FileSystem) (filename : List CChar) (b : CChar)
    (n : Nat) (h2 : 1073741824 ≤ n) (hn : n < 2147483648)
    (hfile : fs filename = some (.bytes (List.replicate n b)))
    (hname : find filename (str ".huf") = none)
    (hout : outputName (filename ++ str ".huf") ≠ filename) :
    compressThenDecompress fs filename = some [] := by
  rw [compressThenDecompress_eq fs filename _ hfile hname hout]
  apply single_symbol_overflow b n h2 hn
  · rw [compressTable_replicate b n (by omega)]
    exact List.Perm.swap _ _ _
  · rw [recountTable_replicate b n (by omega)]

/-- The sample of the single-symbol inputs: one thousand copies of `'a'` in
the file `a.txt` come back. -/
theorem round_trip_thousand_a :
    compressThenDecompress
      (fun name => if name = str "a.txt" then some (.bytes (List.replicate 1000 97)) else none)
      (str "a.txt") = some (List.replicate 1000 97) :=
  single_symbol_round_trip _ (str "a.txt") 97 1000 (by decide) (by decide) (if_pos rfl)
    (by decide) (by decide)

theorem hashmap_put_same (m : hashmap) (k v : Int) (hk : k ∈ m.keys) (hv : m.get k = v) :
    m.put k v = m := by
  induction m with
  | nil => simp [hashmap.keys] at hk
  | cons e m ih =>
    obtain ⟨a, b⟩ := e
    by_cases h : a = k
    · subst h
      simp only [hashmap.get, ↓reduceIte] at hv
      simp [hashmap.put, hv]
    · simp only [hashmap.keys, List.map_cons, List.mem_cons] at hk
      simp only [hashmap.get, h, ↓reduceIte] at hv
      have hk' : k ∈ hashmap.keys m := by
        rcases hk with e | e
        · exact absurd e.symm h
        · exact e
      simp [hashmap.put, h, ih hk' hv]

/-- When the original file is gone at the time of `decompress`, the table of
`decompress` is the header and the text comes back: for every non-empty text
`X`, `decompress` of the container that `compress` made returns `X`. -/
theorem decompress_without_original (fs : FileSystem) (filename : List CChar) (X : List CChar)
    (hX : X ≠ []) (hfile : fs filename = some (.bytes X))
    (hname : find filename (str ".huf") = none) :
    ∃ s fs1, compress fs filename = some (s, fs1) ∧
      ∀ fs2 : FileSystem, fs2 (filename ++ str ".huf") = fs1 (filename ++ str ".huf") →
        fs2 filename = none →
        ∃ fs3, decompress fs2 (filename ++ str ".huf") = some (X, fs3) := by
  have hne := name_ne_append_huf filename
  have hcut : substr0 (filename ++ str ".huf") (find (filename ++ str ".huf") (str ".huf"))
      = filename := by
    rw [find_huf_append _ hname]
    simp [substr0]
  have hbfm : buildFrequencyMap fs filename true [] = some (compressTable X) := by
    simp [buildFrequencyMap, readBytes, hfile, compressTable]
  obtain ⟨codes, s, hcodes, henc, hdec⟩ := table_round_trip X hX (compressTable X)
    (List.Perm.refl _)
  have hcomp : compress fs filename = some (s,
      fs.write (filename ++ str ".huf") (.huf (compressTable X) (padBits (writeBits s)))) := by
    unfold compress
    rw [hbfm]
    simp only [hcodes]
    have hr : readBytes (fs.write (filename ++ str ".huf") (.huf (compressTable X) []))
        filename = some X := by
      simp [readBytes, FileSystem.write, hne, hfile]
    rw [hr]
    simp only [henc]
  refine ⟨_, _, hcomp, ?_⟩
  intro fs2 hhuf hgone
  have hhuf' : fs2 (filename ++ str ".huf") =
      some (.huf (compressTable X) (padBits (writeBits s))) := by
    rw [hhuf]; simp [FileSystem.write]
  have hput : (compressTable X).put PSEUDO_EOF 1 = compressTable X := by
    apply hashmap_put_same
    · exact (mem_keys_table X _).mpr (Or.inl rfl)
    · unfold compressTable
      rw [hashmap_get_put, if_pos rfl]
  have htab : decompressTable fs2 (filename ++ str ".huf") =
      some (compressTable X, padBits (writeBits s), outputName (filename ++ str ".huf"),
        fs2.write (outputName (filename ++ str ".huf")) (.bytes [])) := by
    unfold decompressTable
    rw [hhuf']
    simp only [hcut]
    have hr2 : readBytes (fs2.write (outputName (filename ++ str ".huf")) (.bytes []))
        filename = some [] := by
      unfold readBytes FileSystem.write
      by_cases h : filename = outputName (filename ++ str ".huf")
      · simp [← h]
      · simp [h, hgone]
    have hbfm2 : buildFrequencyMap
        (fs2.write (outputName (filename ++ str ".huf")) (.bytes [])) filename true
        (compressTable X) = some (compressTable X) := by
      simp [buildFrequencyMap, hr2, hput]
    unfold outputName at hbfm2 ⊢
    rw [hbfm2]
  unfold decompress
  rw [htab]
  simp only []
  have := hdec (List.replicate ((8 - (writeBits s).length % 8) % 8) false)
  unfold padBits
  rw [this]
  exact ⟨_, rfl⟩

/-! ## The hand-computed case -/

/-- The total weighted length of the code table of a table of positive counts
whose sum fits in an `int` is the cost of Huffman's algorithm on the counts. -/
theorem code_table_cost (map : hashmap) (hne : map ≠ []) (hnd : map.keys.Nodup)
    (hk : NOT_A_CHAR ∉ map.keys) (hpos : ∀ e ∈ map, 0 < e.2)
    (hsum : (map.map Prod.snd).sum < 2147483648) :
    ∃ codes, buildEncodingMap (buildEncodingTree map) = some codes ∧
      tableCost map (codeLength codes) = huffmanCost (map.map Prod.snd) := by
  obtain ⟨hct, hl, hcost⟩ := buildEncodingTree_cost map hne hnd hk hpos hsum
  exact ⟨_, buildEncodingMap_eq _ hct, by rw [tableCost_eq_treeCost map hnd _ hl, hcost]⟩

/-- C11 (hand-computed optimality case). For the frequency table
`{a:5, b:9, c:12, d:13, e:16, f:45}`, in whatever order its keys are
enumerated, the code table obtained from `buildEncodingTree` and
`buildEncodingMap` has total weighted code length 224. -/
theorem hand_computed_case (m : hashmap) (hm : m.Perm handTable) :
    ∃ codes, buildEncodingMap (buildEncodingTree m) = some codes ∧
      tableCost m (codeLength codes) = 224 := by
  have hne : m ≠ [] := by
    intro h; rw [h] at hm; exact absurd hm.length_eq (by decide)
  have hnd : m.keys.Nodup := (hm.map Prod.fst).nodup_iff.mpr (by decide)
  have hk : NOT_A_CHAR ∉ m.keys := by
    intro h
    exact absurd ((hm.map Prod.fst).mem_iff.mp h) (by decide)
  have hpos : ∀ e ∈ m, 0 < e.2 := by
    intro e he
    have : ∀ e ∈ handTable, 0 < e.2 := by decide
    exact this e (hm.mem_iff.mp he)
  have hs : (m.map Prod.snd).sum = 100 := by
    rw [(hm.map Prod.snd).sum_eq]; decide
  obtain ⟨codes, h1, h2⟩ := code_table_cost m hne hnd hk hpos (by rw [hs]; decide)
  refine ⟨codes, h1, ?_⟩
  rw [h2, huffmanCost_perm (hm.map Prod.snd)]
  decide

set_option maxRecDepth 100000 in
/-- The witness of C11: the table with its keys in ascending order, whose
code table gives `f` one bit, `c`, `d`, `e` three bits, `a`, `b` four bits. -/
theorem hand_computed_case_witness :
    buildEncodingMap (buildEncodingTree handTable) =
      some [(102, "0".toList), (99, "100".toList), (100, "101".toList),
        (97, "1100".toList), (98, "1101".toList), (101, "111".toList)] ∧
    ∃ codes, buildEncodingMap (buildEncodingTree handTable) = some codes ∧
      tableCost handTable (codeLength codes) = 224 :=
  ⟨by decide, hand_computed_case handTable (List.Perm.refl _)⟩

/-! ## The sentinel, and the tables that `buildFrequencyMap` makes -/

/-- The table that `buildFrequencyMap` returns is the table of the bytes it
has read. -/
theorem buildFrequencyMap_some (fs : FileSystem) (filename : List CChar) (isFile : Bool)
    (map table : hashmap) (h : buildFrequencyMap fs filename isFile map = some table) :
    ∃ data : List CChar, table = (data.foldl countChar map).put PSEUDO_EOF 1 := by
  unfold buildFrequencyMap at h
  cases isFile
  · exact ⟨filename, by simpa using h.symm⟩
  · cases hr : readBytes fs filename with
    | none => simp [hr] at h
    | some data => exact ⟨data, by simpa [hr] using h.symm⟩

/-- C18, the claim as stated fails: a table that already tracks `PSEUDO_EOF`
with count 5 comes back with count 1, not 6, for the empty string and for the
string `"ab"`. -/
theorem sentinel_not_incremented :
    buildFrequencyMap (fun _ => none) [] false [(256, 5)] = some [(256, 1)] ∧
    buildFrequencyMap (fun _ => none) (str "ab") false [(256, 5)] =
      some [(256, 1), (97, 1), (98, 1)] := by
  decide

/-- C18, amended (sentinel insertion). After `buildFrequencyMap` has exhausted
its input, `PSEUDO_EOF` is a key of the table and has count 1, whether or not
the table passed in contained it, and whatever count it had there; the
function returns in string mode, and in file mode whenever the bytes of the
file can be read. -/
theorem sentinel_count_is_one (fs : FileSystem) (filename : List CChar) (isFile : Bool)
    (map : hashmap) :
    (∀ table, buildFrequencyMap fs filename isFile map = some table →
      table.containsKey PSEUDO_EOF = true ∧ table.get PSEUDO_EOF = 1) ∧
    (isFile = false ∨ (∃ data, readBytes fs filename = some data) →
      ∃ table, buildFrequencyMap fs filename isFile map = some table) := by
  constructor
  · intro table h
    obtain ⟨data, rfl⟩ := buildFrequencyMap_some fs filename isFile map table h
    constructor
    · rw [hashmap_containsKey_iff, mem_keys_put]
      exact Or.inl rfl
    · rw [hashmap_get_put, if_pos rfl]
  · intro h
    rcases h with h | ⟨data, h⟩
    · subst h
      exact ⟨(filename.foldl countChar map).put PSEUDO_EOF 1, by simp [buildFrequencyMap]⟩
    · cases isFile
      · exact ⟨(filename.foldl countChar map).put PSEUDO_EOF 1, by simp [buildFrequencyMap]⟩
      · exact ⟨(data.foldl countChar map).put PSEUDO_EOF 1, by simp [buildFrequencyMap, h]⟩

/-- The witness of C18: the string `"ab"` counted into a table that tracks
`PSEUDO_EOF` with count 5. -/
theorem sentinel_count_is_one_witness :
    buildFrequencyMap (fun _ => none) (str "ab") false [(256, 5)]
      = some [(256, 1), (97, 1), (98, 1)] ∧
    hashmap.containsKey [(256, 1), (97, 1), (98, 1)] PSEUDO_EOF = true ∧
    hashmap.get [(256, 1), (97, 1), (98, 1)] PSEUDO_EOF = 1 :=
  ⟨by decide,
    (sentinel_count_is_one (fun _ => none) (str "ab") false [(256, 5)]).1
      [(256, 1), (97, 1), (98, 1)] (by decide)⟩

/-! ## The traversal of `buildEncodingMap` is safe -/

/-- The code table of the tree of any enumeration of the table of any text
exists. -/
theorem code_table_exists (X : List CChar) (m : hashmap)
    (hm : m.Perm ((X.foldl countChar []).put PSEUDO_EOF 1)) :
    NOT_A_CHAR ∉ m.keys ∧ m.keys.Nodup ∧ m ≠ [] ∧
    ∃ codes, buildEncodingMap (buildEncodingTree m) = some codes ∧
      (∀ k ∈ m.keys, ∃ c, codes.get k = some c) := by
  have hkeys : m.keys.Perm ((X.foldl countChar []).put PSEUDO_EOF 1).keys := hm.map _
  have hnac : NOT_A_CHAR ∉ m.keys := by
    rw [hkeys.mem_iff]; exact not_a_char_not_mem_table X
  have hnd : m.keys.Nodup := hkeys.nodup_iff.mpr (nodup_keys_table X)
  have hne : m ≠ [] := by
    intro h
    have h1 : PSEUDO_EOF ∈ m.keys := hkeys.mem_iff.mpr ((mem_keys_table X _).mpr (Or.inl rfl))
    rw [h] at h1
    simp [hashmap.keys] at h1
  obtain ⟨codes, h1, h2, _⟩ := code_table_of_table m hne hnac
  exact ⟨hnac, hnd, hne, codes, h1, h2⟩

/-- C20 (the traversal of the code table is safe and total). A table that
`buildFrequencyMap` produces from the empty table, in string mode or in file
mode, does not contain the key `NOT_A_CHAR`; and on the tree that
`buildEncodingTree` builds of it, in whatever order its keys are enumerated,
`buildEncodingMap` returns a code table: its recursion, which is structural,
never reads through a null child. -/
theorem traversal_safe (fs : FileSystem) (filename : List CChar) (isFile : Bool)
    (table : hashmap) (h : buildFrequencyMap fs filename isFile [] = some table) :
    NOT_A_CHAR ∉ table.keys ∧
    ∀ m : hashmap, m.Perm table →
      ∃ codes, buildEncodingMap (buildEncodingTree m) = some codes ∧
        ∀ k ∈ m.keys, ∃ c, codes.get k = some c := by
  obtain ⟨data, rfl⟩ := buildFrequencyMap_some fs filename isFile [] table h
  refine ⟨(code_table_exists data _ (List.Perm.refl _)).1, ?_⟩
  intro m hm
  exact (code_table_exists data m hm).2.2.2

/-- The witness of C20: the sample string and the empty string. -/
theorem traversal_safe_witness :
    (NOT_A_CHAR ∉ hashmap.keys [(97, 3), (98, 2), (99, 1), (256, 1)] ∧
      ∀ m : hashmap, m.Perm [(97, 3), (98, 2), (99, 1), (256, 1)] →
        ∃ codes, buildEncodingMap (buildEncodingTree m) = some codes ∧
          ∀ k ∈ m.keys, ∃ c, codes.get k = some c) ∧
    buildEncodingMap (buildEncodingTree [(256, 1)]) = some [(256, [])] :=
  ⟨traversal_safe (fun _ => none) (str "aaabbc") false [(97, 3), (98, 2), (99, 1), (256, 1)]
    (by decide), by decide⟩

/-! ## The code table is the list of root-to-leaf paths -/

theorem mymap_put_of_not_mem (m : mymap) (k : Int) (v : List Char)
    (h : k ∉ m.map Prod.fst) : m.put k v = m ++ [(k, v)] := by
  induction m with
  | nil => rfl
  | cons e m ih =>
    obtain ⟨k', v'⟩ := e
    simp only [List.map_cons, List.mem_cons, not_or] at h
    have hne : k' ≠ k := fun e => h.1 e.symm
    simp only [mymap.put, hne, ↓reduceIte, List.cons_append, ih h.2]

/-- Putting entries of distinct keys, none of them in the table, appends
them. -/
theorem putAll_of_nodup (es : List (Int × List Char)) :
    ∀ m : mymap, ((m ++ es).map Prod.fst).Nodup → putAll m es = m ++ es := by
  induction es with
  | nil => intro m _; simp [putAll]
  | cons e es ih =>
    intro m h
    have hk : e.1 ∉ m.map Prod.fst := by
      intro hm
      rw [List.map_append, List.map_cons] at h
      have := (List.nodup_append.mp h).2.2
      exact this hm (List.mem_cons_self _ _)
    show putAll (m.put e.1 e.2) es = _
    rw [mymap_put_of_not_mem m e.1 e.2 hk]
    have e1 : m ++ [(e.1, e.2)] ++ es = m ++ e :: es := by simp
    rw [ih (m ++ [(e.1, e.2)]) (by rw [e1]; exact h), e1]

/-- In a code tree every listed path leads from the root to a leaf that holds
the symbol listed with it. -/
theorem walk_paths (t : HuffmanNode) (ht : IsCodeTree t) :
    ∀ k p, (k, p) ∈ paths t → ∃ count, walk t p = .mk k count .null .null := by
  induction ht with
  | leaf character count h =>
    intro k p hp
    simp only [paths, h, ne_eq, not_false_eq_true, ↓reduceIte, List.mem_singleton,
      Prod.mk.injEq] at hp
    obtain ⟨rfl, rfl⟩ := hp
    exact ⟨count, rfl⟩
  | node count zero one hz ho ihz iho =>
    intro k p hp
    simp only [paths, ne_eq, not_true_eq_false, ↓reduceIte, List.mem_append, List.mem_map,
      Prod.mk.injEq] at hp
    rcases hp with ⟨e, he, rfl, rfl⟩ | ⟨e, he, rfl, rfl⟩
    · obtain ⟨c, hc⟩ := ihz e.1 e.2 he
      exact ⟨c, by simpa [walk] using hc⟩
    · obtain ⟨c, hc⟩ := iho e.1 e.2 he
      exact ⟨c, by simpa [walk] using hc⟩

/-- The code table of the tree of a table with distinct keys is the list of
the root-to-leaf paths of the tree. -/
theorem code_table_eq_paths (map : hashmap) (hne : map ≠ []) (hnd : map.keys.Nodup)
    (hk : NOT_A_CHAR ∉ map.keys) :
    buildEncodingMap (buildEncodingTree map) = some (paths (buildEncodingTree map)) ∧
    ((paths (buildEncodingTree map)).map Prod.fst).Nodup ∧
    ((paths (buildEncodingTree map)).map Prod.fst).Perm map.keys ∧
    ∀ k p, mymap.get (paths (buildEncodingTree map)) k = some p →
      ∃ count, walk (buildEncodingTree map) p = .mk k count .null .null := by
  obtain ⟨h1, h2⟩ := buildEncodingTree_spec map hne hk
  have h3 : ((paths (buildEncodingTree map)).map Prod.fst).Nodup := h2.nodup_iff.mpr hnd
  have h4 : putAll [] (paths (buildEncodingTree map)) = paths (buildEncodingTree map) := by
    rw [putAll_of_nodup _ [] (by simpa using h3)]; rfl
  refine ⟨by rw [buildEncodingMap_eq _ h1, h4], h3, h2, ?_⟩
  intro k p hp
  rw [← h4] at hp
  exact walk_paths _ h1 k p (putAll_get_some _ k p hp)

/-- C16 (the code table is the set of root-to-leaf paths). For a non-empty
table of distinct keys, none of them `NOT_A_CHAR`, `buildEncodingMap` returns,
on the tree of `buildEncodingTree`, a table whose keys are distinct, are the
symbols on the leaves of the tree and are the keys of the frequency table; the
code of each symbol leads, from the root, with `'0'` for the zero child and
`'1'` for the one child, to a leaf that holds that symbol. -/
theorem code_table_is_paths (map : hashmap) (hne : map ≠ []) (hnd : map.keys.Nodup)
    (hk : NOT_A_CHAR ∉ map.keys) :
    ∃ codes, buildEncodingMap (buildEncodingTree map) = some codes ∧
      (codes.map Prod.fst).Nodup ∧
      codes.map Prod.fst = leafSymbols (buildEncodingTree map) ∧
      (codes.map Prod.fst).Perm map.keys ∧
      ∀ k p, codes.get k = some p →
        ∃ count, walk (buildEncodingTree map) p = .mk k count .null .null := by
  obtain ⟨h1, h2, h3, h4⟩ := code_table_eq_paths map hne hnd hk
  exact ⟨_, h1, h2, rfl, h3, h4⟩

/-- The witness of C16: the table of `"aaabbc"`. -/
theorem code_table_is_paths_witness :
    ∃ codes, buildEncodingMap (buildEncodingTree [(97, 3), (98, 2), (99, 1), (256, 1)])
        = some codes ∧
      (codes.map Prod.fst).Nodup ∧
      codes.map Prod.fst = leafSymbols (buildEncodingTree [(97, 3), (98, 2), (99, 1), (256, 1)]) ∧
      (codes.map Prod.fst).Perm (hashmap.keys [(97, 3), (98, 2), (99, 1), (256, 1)]) ∧
      ∀ k p, codes.get k = some p →
        ∃ count, walk (buildEncodingTree [(97, 3), (98, 2), (99, 1), (256, 1)]) p
          = .mk k count .null .null :=
  code_table_is_paths [(97, 3), (98, 2), (99, 1), (256, 1)] (by decide) (by decide) (by decide)

/-! ## The shape of the tree and the counts on its nodes -/

theorem wrapInt_wrapInt (x : Int) : wrapInt (wrapInt x) = wrapInt x := by
  unfold wrapInt; omega

theorem wrapInt_add (x y : Int) : wrapInt (wrapInt x + wrapInt y) = wrapInt (x + y) := by
  unfold wrapInt; omega

theorem leafEntries_mkLeaf (map : hashmap) (key : Int) (h : key ≠ NOT_A_CHAR) :
    leafEntries (mkLeaf map key) = [(key, wrapInt (map.get key))] := by
  simp [leafEntries, leafInfo, mkLeaf, h]

theorem flatMap_leafEntries_mkLeaf (map : hashmap) :
    ∀ ks : List Int, NOT_A_CHAR ∉ ks →
      (ks.map (mkLeaf map)).flatMap leafEntries = ks.map (fun k => (k, wrapInt (map.get k))) := by
  intro ks
  induction ks with
  | nil => intro _; rfl
  | cons k ks ih =>
    intro h
    simp only [List.mem_cons, not_or] at h
    simp only [List.map_cons, List.flatMap_cons, ih h.2,
      leafEntries_mkLeaf map k (fun e => h.1 e.symm), List.singleton_append]

/-- A code tree has one internal node less than it has leaves. -/
theorem internalNodes_succ (t : HuffmanNode) (ht : IsCodeTree t) :
    internalNodes t + 1 = (leafEntries t).length := by
  induction ht with
  | leaf character count h => simp [internalNodes, leafEntries, leafInfo, h]
  | node count zero one hz ho ihz iho =>
    rw [leafEntries_node, List.length_append, ← ihz, ← iho]
    simp only [internalNodes, ne_eq, not_true_eq_false, ↓reduceIte]
    omega

/-- The tree of a non-empty table of distinct keys, none of them `NOT_A_CHAR`:
a code tree; its leaves hold the entries of the table, each count as an
`int`; the count of every node is, as an `int`, the sum of the counts on the
leaves beneath it. -/
theorem buildEncodingTree_shape (map : hashmap) (hne : map ≠ []) (hnd : map.keys.Nodup)
    (hk : NOT_A_CHAR ∉ map.keys) :
    IsCodeTree (buildEncodingTree map) ∧
    (leafEntries (buildEncodingTree map)).Perm (map.map (fun e => (e.1, wrapInt e.2))) ∧
    ∀ s ∈ nodes (buildEncodingTree map), s.count = wrapInt (leafSum s) := by
  have := buildEncodingTree_invariant
    (fun l => (∀ t ∈ l, IsCodeTree t ∧ ∀ s ∈ nodes t, s.count = wrapInt (leafSum s)) ∧
      (l.flatMap leafEntries).Perm (map.map (fun e => (e.1, wrapInt e.2))))
    (by
      intro l l' p ⟨h1, h2⟩
      exact ⟨fun t ht => h1 t (p.mem_iff.mpr ht), (List.Perm.flatMap_right _ p.symm).trans h2⟩)
    (by
      intro a b rest ⟨h1, h2⟩
      have ha := h1 a (by simp)
      have hb := h1 b (by simp)
      refine ⟨?_, ?_⟩
      · intro t ht
        rcases List.mem_cons.mp ht with rfl | ht
        · refine ⟨IsCodeTree.node _ a b ha.1 hb.1, ?_⟩
          intro s hs
          simp only [nodes, List.mem_cons, List.mem_append] at hs
          rcases hs with rfl | hs | hs
          · rw [count_mk, leafSum_node]
            have ea : a.count = wrapInt (leafSum a) := by
              cases ha.1 with
              | leaf character count h => exact ha.2 _ (by simp [nodes])
              | node count zero one hz ho => exact ha.2 _ (by simp [nodes])
            have eb : b.count = wrapInt (leafSum b) := by
              cases hb.1 with
              | leaf character count h => exact hb.2 _ (by simp [nodes])
              | node count zero one hz ho => exact hb.2 _ (by simp [nodes])
            rw [ea, eb, wrapInt_add]
          · exact ha.2 s hs
          · exact hb.2 s hs
        · exact h1 t (by simp [ht])
      · simpa [List.flatMap_cons, leafEntries_node, List.append_assoc] using h2)
    map hne
    (by
      refine ⟨?_, ?_⟩
      · intro t ht
        obtain ⟨k, hk', rfl⟩ := List.mem_map.mp ht
        have hkn : k ≠ NOT_A_CHAR := fun e => hk (e ▸ hk')
        refine ⟨IsCodeTree.leaf _ _ hkn, ?_⟩
        intro s hs
        simp only [mkLeaf, nodes, List.append_nil, List.mem_singleton] at hs
        subst hs
        rw [count_mk]
        simp [leafSum, leafInfo, hkn, wrapInt_wrapInt]
      · rw [flatMap_leafEntries_mkLeaf map _ hk]
        unfold hashmap.keys
        rw [List.map_map]
        apply List.Perm.of_eq
        apply List.map_congr_left
        intro e he
        simp only [Function.comp]
        rw [hashmap_get_of_mem map hnd e he])
  obtain ⟨h1, h2⟩ := this
  have h3 := h1 _ (List.mem_singleton_self _)
  refine ⟨h3.1, ?_, h3.2⟩
  simpa using h2

/-! ## Well-formedness of the tree -/

theorem wrapInt_of_int (x : Int) (h0 : -2147483648 ≤ x) (h1 : x < 2147483648) :
    wrapInt x = x := by
  unfold wrapInt; omega

theorem isCodeTree_of_mem_nodes (t : HuffmanNode) (ht : IsCodeTree t) :
    ∀ s ∈ nodes t, IsCodeTree s := by
  induction ht with
  | leaf character count h =>
    intro s hs
    simp only [nodes, List.append_nil, List.mem_singleton] at hs
    subst hs
    exact IsCodeTree.leaf _ _ h
  | node count zero one hz ho ihz iho =>
    intro s hs
    simp only [nodes, List.mem_cons, List.mem_append] at hs
    rcases hs with rfl | hs | hs
    · exact IsCodeTree.node _ _ _ hz ho
    · exact ihz s hs
    · exact iho s hs

theorem leafEntries_sublist (t : HuffmanNode) (ht : IsCodeTree t) :
    ∀ s ∈ nodes t, (leafEntries s).Sublist (leafEntries t) := by
  induction ht with
  | leaf character count h =>
    intro s hs
    simp only [nodes, List.append_nil, List.mem_singleton] at hs
    subst hs
    exact List.Sublist.refl _
  | node count zero one hz ho ihz iho =>
    intro s hs
    simp only [nodes, List.mem_cons, List.mem_append] at hs
    rcases hs with rfl | hs | hs
    · exact List.Sublist.refl _
    · rw [leafEntries_node]
      exact (ihz s hs).trans (List.sublist_append_left _ _)
    · rw [leafEntries_node]
      exact (iho s hs).trans (List.sublist_append_right _ _)

/-- A code tree with one leaf is that leaf. -/
theorem single_leaf (t : HuffmanNode) (ht : IsCodeTree t) (k v : Int)
    (h : (leafEntries t).Perm [(k, v)]) : t = .mk k v .null .null := by
  have hl := internalNodes_succ t ht
  rw [h.length_eq] at hl
  cases ht with
  | leaf character count hc =>
    have e : leafEntries (.mk character count .null .null) = [(character, count)] := by
      simp [leafEntries, leafInfo, hc]
    rw [e] at h
    have := List.perm_singleton.mp h
    simp only [List.cons.injEq, Prod.mk.injEq, and_true] at this
    rw [this.1, this.2]
  | node count zero one hz ho =>
    simp [internalNodes] at hl

theorem root_mem_nodes (t : HuffmanNode) (ht : IsCodeTree t) : t ∈ nodes t := by
  cases ht with
  | leaf character count h => simp [nodes]
  | node count zero one hz ho => simp [nodes]

/-- The tree of a table of `int` counts: the leaves hold the entries of the
table. -/
theorem buildEncodingTree_leaves (map : hashmap) (hne : map ≠ []) (hnd : map.keys.Nodup)
    (hk : NOT_A_CHAR ∉ map.keys)
    (hr : ∀ e ∈ map, -2147483648 ≤ e.2 ∧ e.2 < 2147483648) :
    IsCodeTree (buildEncodingTree map) ∧ (leafEntries (buildEncodingTree map)).Perm map := by
  obtain ⟨h1, h2, _⟩ := buildEncodingTree_shape map hne hnd hk
  refine ⟨h1, ?_⟩
  have e : map.map (fun e => (e.1, wrapInt e.2)) = map := by
    conv_rhs => rw [← List.map_id map]
    apply List.map_congr_left
    intro e he
    rw [wrapInt_of_int _ (hr e he).1 (hr e he).2]
    rfl
  rwa [e] at h2

set_option maxRecDepth 100000 in
/-- C15, the claim as stated fails: the table of `2^31` bytes `a` is
`{a: 2^31, PSEUDO_EOF: 1}`, and the leaf of `a` in its tree carries the count
`-2^31`, not the count `2^31` of the entry. -/
theorem leaf_count_wraps :
    buildFrequencyMap (fun _ => none) (List.replicate 2147483648 97) false []
      = some [(97, 2147483648), (256, 1)] ∧
    buildEncodingTree [(97, 2147483648), (256, 1)] =
      .mk NOT_A_CHAR (-2147483647) (.mk 97 (-2147483648) .null .null)
        (.mk 256 1 .null .null) ∧
    leafEntries (buildEncodingTree [(97, 2147483648), (256, 1)])
      = [(97, -2147483648), (256, 1)] := by
  refine ⟨?_, by decide, by decide⟩
  rw [buildFrequencyMap_string]
  exact congrArg some (compressTable_replicate 97 2147483648 (by omega))

/-- C15, amended (well-formedness of the tree). For a non-empty table of distinct keys,
none of them `NOT_A_CHAR`, the tree of `buildEncodingTree` has as leaves the
entries of the table, one leaf per entry with its symbol and its count (the
count as the `int` that the node stores, which is the count of the table
whenever that is an `int` value); a node of the tree is either a leaf, which
holds a symbol other than `NOT_A_CHAR` and has no child, or holds
`NOT_A_CHAR` and has two children that are not null; there is one such
internal node less than there are entries; and for a table of one entry the
tree is the leaf of that entry. -/
theorem tree_well_formed (map : hashmap) (hne : map ≠ []) (hnd : map.keys.Nodup)
    (hk : NOT_A_CHAR ∉ map.keys) :
    (leafEntries (buildEncodingTree map)).Perm (map.map (fun e => (e.1, wrapInt e.2))) ∧
    ((∀ e ∈ map, -2147483648 ≤ e.2 ∧ e.2 < 2147483648) →
      (leafEntries (buildEncodingTree map)).Perm map) ∧
    (∀ s ∈ nodes (buildEncodingTree map),
      (∃ k c, k ≠ NOT_A_CHAR ∧ s = .mk k c .null .null) ∨
      (∃ c z o, s = .mk NOT_A_CHAR c z o ∧ z ≠ .null ∧ o ≠ .null)) ∧
    internalNodes (buildEncodingTree map) + 1 = map.length ∧
    (∀ k v, map = [(k, v)] → buildEncodingTree map = .mk k (wrapInt v) .null .null) := by
  obtain ⟨h1, h2, _⟩ := buildEncodingTree_shape map hne hnd hk
  have h3 : internalNodes (buildEncodingTree map) + 1 = map.length := by
    rw [internalNodes_succ _ h1, h2.length_eq, List.length_map]
  refine ⟨h2, fun hr => (buildEncodingTree_leaves map hne hnd hk hr).2, ?_, h3, ?_⟩
  · intro s hs
    have := isCodeTree_of_mem_nodes _ h1 s hs
    cases this with
    | leaf character count h => exact Or.inl ⟨_, _, h, rfl⟩
    | node count zero one hz ho =>
      refine Or.inr ⟨_, _, _, rfl, ?_, ?_⟩
      · intro e; rw [e] at hz; cases hz
      · intro e; rw [e] at ho; cases ho
  · intro k v hm
    exact single_leaf _ h1 k (wrapInt v) (by simpa [hm] using h2)

/-- The witness of C15: the table of `"aaabbc"`. -/
theorem tree_well_formed_witness :
    (leafEntries (buildEncodingTree [(97, 3), (98, 2), (99, 1), (256, 1)])).Perm
      [(97, 3), (98, 2), (99, 1), (256, 1)] ∧
    (∀ s ∈ nodes (buildEncodingTree [(97, 3), (98, 2), (99, 1), (256, 1)]),
      (∃ k c, k ≠ NOT_A_CHAR ∧ s = .mk k c .null .null) ∨
      (∃ c z o, s = .mk NOT_A_CHAR c z o ∧ z ≠ .null ∧ o ≠ .null)) ∧
    internalNodes (buildEncodingTree [(97, 3), (98, 2), (99, 1), (256, 1)]) + 1
      = List.length [(97, 3), (98, 2), (99, 1), (256, 1)] ∧
    buildEncodingTree [(256, 1)] = .mk 256 1 .null .null :=
  ⟨(tree_well_formed [(97, 3), (98, 2), (99, 1), (256, 1)] (by decide) (by decide)
      (by decide)).2.1 (by decide),
    (tree_well_formed [(97, 3), (98, 2), (99, 1), (256, 1)] (by decide) (by decide)
      (by decide)).2.2.1,
    (tree_well_formed [(97, 3), (98, 2), (99, 1), (256, 1)] (by decide) (by decide)
      (by decide)).2.2.2.1,
    (tree_well_formed [(256, 1)] (by decide) (by decide) (by decide)).2.2.2.2 256 1 rfl⟩

/-! ## The counts on the nodes -/

set_option maxRecDepth 100000 in
/-- C17, the claim as stated fails: in the tree of four symbols counted `2^30`
times each the root has count 0, while the counts of the leaves beneath it,
which are the counts of the table, sum to `2^32`. -/
theorem root_count_wraps :
    (buildEncodingTree bigTable).count = 0 ∧
    leafSum (buildEncodingTree bigTable) = 4294967296 ∧
    (bigTable.map Prod.snd).sum = 4294967296 := by
  decide

/-- C17, amended (count invariant). In the tree of a non-empty table of
distinct keys, none of them `NOT_A_CHAR`, the count of every node is the sum
of the counts on the leaves beneath it reduced to an `int`; when the counts of
the table are not negative and their sum is below `2^31` it is that sum
itself, and the count of the root is the sum of all counts of the table. -/
theorem node_counts (map : hashmap) (hne : map ≠ []) (hnd : map.keys.Nodup)
    (hk : NOT_A_CHAR ∉ map.keys) :
    (∀ s ∈ nodes (buildEncodingTree map), s.count = wrapInt (leafSum s)) ∧
    ((∀ e ∈ map, 0 ≤ e.2) → (map.map Prod.snd).sum < 2147483648 →
      (∀ s ∈ nodes (buildEncodingTree map), s.count = leafSum s) ∧
      (buildEncodingTree map).count = (map.map Prod.snd).sum) := by
  obtain ⟨h1, _, h3⟩ := buildEncodingTree_shape map hne hnd hk
  refine ⟨h3, ?_⟩
  intro hnn hsum
  have hle : ∀ e ∈ map, e.2 ≤ (map.map Prod.snd).sum := fun e he =>
    entry_le_sum (map.map Prod.snd)
      (by
        intro x hx
        obtain ⟨e', he', rfl⟩ := List.mem_map.mp hx
        exact hnn e' he')
      e.2 (List.mem_map_of_mem _ he)
  obtain ⟨_, h2⟩ := buildEncodingTree_leaves map hne hnd hk
    (fun e he => ⟨by have := hnn e he; omega, by have := hle e he; omega⟩)
  have hall : ∀ s ∈ nodes (buildEncodingTree map), s.count = leafSum s := by
    intro s hs
    rw [h3 s hs]
    have hsub := leafEntries_sublist _ h1 s hs
    have hnn2 : ∀ x ∈ (leafEntries (buildEncodingTree map)).map Prod.snd, 0 ≤ x := by
      intro x hx
      obtain ⟨e, he, rfl⟩ := List.mem_map.mp hx
      exact hnn e (h2.mem_iff.mp he)
    have hs1 : leafSum s ≤ leafSum (buildEncodingTree map) := by
      rw [leafSum_eq_entries, leafSum_eq_entries]
      exact (hsub.map Prod.snd).sum_le_sum hnn2
    have hs2 : leafSum (buildEncodingTree map) = (map.map Prod.snd).sum := by
      rw [leafSum_eq_entries]
      exact (h2.map Prod.snd).sum_eq
    have hs3 : 0 ≤ leafSum s := by
      rw [leafSum_eq_entries]
      apply List.sum_nonneg
      intro x hx
      exact hnn2 x ((hsub.map Prod.snd).subset hx)
    exact wrapInt_of_range _ hs3 (by omega)
  refine ⟨hall, ?_⟩
  have hroot := root_mem_nodes _ h1
  rw [hall _ hroot, leafSum_eq_entries]
  exact (h2.map Prod.snd).sum_eq

/-- The witness of C17: the table `{a:5, b:9, c:12, d:13, e:16, f:45}`, whose
root has count 100. -/
theorem node_counts_witness :
    (∀ s ∈ nodes (buildEncodingTree handTable), s.count = wrapInt (leafSum s)) ∧
    (∀ s ∈ nodes (buildEncodingTree handTable), s.count = leafSum s) ∧
    (buildEncodingTree handTable).count = 100 :=
  ⟨(node_counts handTable (by decide) (by decide) (by decide)).1,
    ((node_counts handTable (by decide) (by decide) (by decide)).2 (by decide) (by decide)).1,
    ((node_counts handTable (by decide) (by decide) (by decide)).2 (by decide) (by decide)).2⟩

/-! ## Code lengths and the order of enumeration -/

theorem tableCost_perm {m1 m2 : hashmap} (h : m1.Perm m2) (len : Int → Nat) :
    tableCost m1 len = tableCost m2 len := by
  unfold tableCost
  exact (h.map _).sum_eq

/-- C12, the claim as stated fails: the table of the text `"ab"`, which is
`{a:1, b:1, PSEUDO_EOF:1}`, gives `a` a code of two bits when its keys are
enumerated as `a, b, PSEUDO_EOF` and a code of one bit when they are
enumerated as `b, PSEUDO_EOF, a`. -/
theorem code_length_depends_on_order :
    List.Perm [((98 : Int), (1 : Int)), (256, 1), (97, 1)] [(97, 1), (98, 1), (256, 1)] ∧
    buildFrequencyMap (fun _ => none) (str "ab") false [] = some [(97, 1), (98, 1), (256, 1)] ∧
    buildEncodingMap (buildEncodingTree [(97, 1), (98, 1), (256, 1)]) =
      some [(256, "0".toList), (97, "10".toList), (98, "11".toList)] ∧
    buildEncodingMap (buildEncodingTree [(98, 1), (256, 1), (97, 1)]) =
      some [(97, "0".toList), (98, "10".toList), (256, "11".toList)] ∧
    codeLength [(256, "0".toList), (97, "10".toList), (98, "11".toList)] 97 = 2 ∧
    codeLength [(97, "0".toList), (98, "10".toList), (256, "11".toList)] 97 = 1 := by
  refine ⟨?_, by decide, by decide, by decide, by decide, by decide⟩
  exact @List.perm_append_comm _ [(98, 1), (256, 1)] [(97, 1)]


/-! ## Without ties the tree does not depend on the order of the keys -/

theorem tieFreeAux_perm (fuel : Nat) {ws ws' : List Int} (h : ws.Perm ws') :
    tieFreeAux fuel ws = tieFreeAux fuel ws' := by
  cases fuel with
  | zero => rfl
  | succ n =>
    simp only [tieFreeAux, insertionSort_perm_eq h]
    rw [decide_eq_decide.mpr h.nodup_iff]

theorem sort_two_smallest (ws : List Int) (a b : Int) (r : List Int)
    (hp : ws.Perm (a :: b :: r)) (hab : a ≤ b) (hb : ∀ x ∈ r, b ≤ x) :
    ws.insertionSort (· ≤ ·) = a :: b :: r.insertionSort (· ≤ ·) := by
  apply List.eq_of_perm_of_sorted _ (List.sorted_insertionSort _ _)
  · simp only [List.sorted_cons]
    refine ⟨?_, ?_, List.sorted_insertionSort _ _⟩
    · intro x hx
      rcases List.mem_cons.mp hx with rfl | hx
      · exact hab
      · exact le_trans hab (hb x ((List.perm_insertionSort _ _).mem_iff.mp hx))
    · intro x hx
      exact hb x ((List.perm_insertionSort _ _).mem_iff.mp hx)
  · exact (List.perm_insertionSort _ _).trans
      (hp.trans (((List.perm_insertionSort _ _).symm.cons b).cons a))

theorem pq_top_mem (pq : List HuffmanNode) (hne : pq ≠ []) : pq_top pq ∈ pq :=
  (pq_pop_perm pq hne).mem_iff.mpr (List.mem_cons_self _ _)

/-- Two heaps of the same nodes, of pairwise distinct counts, have the same
top. -/
theorem pq_top_unique (pq1 pq2 : List HuffmanNode) (hp : pq1.Perm pq2) (hne : pq1 ≠ [])
    (h1 : IsHeap pq1) (h2 : IsHeap pq2) (hnd : (pq1.map HuffmanNode.count).Nodup) :
    pq_top pq1 = pq_top pq2 := by
  have hne2 : pq2 ≠ [] := by
    intro h; rw [h] at hp; exact hne (List.perm_nil.mp hp)
  have m1 := pq_top_mem pq1 hne
  have m2 := hp.mem_iff.mpr (pq_top_mem pq2 hne2)
  have l1 := pq_top_min pq1 h1 _ m2
  have l2 := pq_top_min pq2 h2 _ (hp.mem_iff.mp m1)
  exact List.inj_on_of_nodup_map hnd m1 m2 (le_antisymm l1 l2)

/-- The merge loop on two heaps of the same nodes: without ties the two runs
pop the same nodes in the same order, and are left with the same nodes. -/
theorem mergeLoop_tie_free : ∀ (fuel : Nat) (pq1 pq2 : List HuffmanNode), pq1.Perm pq2 →
    IsHeap pq1 → IsHeap pq2 → tieFreeAux fuel (pq1.map HuffmanNode.count) = true →
    (mergeLoop fuel pq1).Perm (mergeLoop fuel pq2) := by
  intro fuel
  induction fuel with
  | zero => intro pq1 pq2 hp _ _ _; exact hp
  | succ n ih =>
    intro pq1 pq2 hp hh1 hh2 htf
    have hlen := hp.length_eq
    unfold mergeLoop
    by_cases h2 : pq1.length > 1
    · have h2' : pq2.length > 1 := by omega
      rw [if_pos h2, if_pos h2']
      simp only []
      simp only [tieFreeAux, Bool.and_eq_true, decide_eq_true_eq] at htf
      obtain ⟨hnd, hmatch⟩ := htf
      have hne1 : pq1 ≠ [] := by intro h; rw [h] at h2; simp at h2
      have hne2 : pq2 ≠ [] := by intro h; rw [h] at h2'; simp at h2'
      have p1 := pq_pop_perm pq1 hne1
      have p2 := pq_pop_perm pq2 hne2
      have et := pq_top_unique pq1 pq2 hp hne1 hh1 hh2 hnd
      have hpop : (pq_pop pq1).Perm (pq_pop pq2) := by
        have := (p1.symm.trans hp).trans p2
        rw [et] at this
        exact this.cons_inv
      have hl1 : (pq_pop pq1).length = pq1.length - 1 := pq_pop_length pq1
      have hpne1 : pq_pop pq1 ≠ [] := by
        intro h; rw [h] at hl1; simp at hl1; omega
      have hpne2 : pq_pop pq2 ≠ [] := by
        intro h; rw [h] at hpop; exact hpne1 (List.perm_nil.mp hpop)
      have hph1 := pq_pop_heap pq1 hh1
      have hph2 := pq_pop_heap pq2 hh2
      have hnd1 : ((pq_pop pq1).map HuffmanNode.count).Nodup := by
        have := (p1.map HuffmanNode.count).nodup_iff.mp hnd
        exact (List.nodup_cons.mp this).2
      have q1 := pq_pop_perm (pq_pop pq1) hpne1
      have q2 := pq_pop_perm (pq_pop pq2) hpne2
      have et2 := pq_top_unique _ _ hpop hpne1 hph1 hph2 hnd1
      have hpop2 : (pq_pop (pq_pop pq1)).Perm (pq_pop (pq_pop pq2)) := by
        have := (q1.symm.trans hpop).trans q2
        rw [et2] at this
        exact this.cons_inv
      rw [← et, ← et2]
      have hmin1 := pq_top_min pq1 hh1
      have hmin2 := pq_top_min _ hph1
      have hab : (pq_top pq1).count ≤ (pq_top (pq_pop pq1)).count :=
        hmin1 _ (p1.mem_iff.mpr (List.mem_cons_of_mem _ (pq_top_mem _ hpne1)))
      have hrest : ∀ x ∈ (pq_pop (pq_pop pq1)).map HuffmanNode.count,
          (pq_top (pq_pop pq1)).count ≤ x := by
        intro x hx
        obtain ⟨t, ht, rfl⟩ := List.mem_map.mp hx
        exact hmin2 t (q1.mem_iff.mpr (List.mem_cons_of_mem _ ht))
      have hsort := sort_two_smallest (pq1.map HuffmanNode.count) (pq_top pq1).count
        (pq_top (pq_pop pq1)).count ((pq_pop (pq_pop pq1)).map HuffmanNode.count)
        (by
          have := (p1.trans (q1.cons _)).map HuffmanNode.count
          simpa using this)
        hab hrest
      rw [hsort] at hmatch
      simp only [] at hmatch
      have r1 := pq_push_perm (pq_pop (pq_pop pq1))
        (.mk NOT_A_CHAR (wrapInt ((pq_top pq1).count + (pq_top (pq_pop pq1)).count))
          (pq_top pq1) (pq_top (pq_pop pq1)))
      have r2 := pq_push_perm (pq_pop (pq_pop pq2))
        (.mk NOT_A_CHAR (wrapInt ((pq_top pq1).count + (pq_top (pq_pop pq1)).count))
          (pq_top pq1) (pq_top (pq_pop pq1)))
      apply ih
      · exact r1.trans ((hpop2.cons _).trans r2.symm)
      · exact pq_push_heap _ _ (pq_pop_heap _ hph1)
      · exact pq_push_heap _ _ (pq_pop_heap _ hph2)
      · rw [← hmatch]
        apply tieFreeAux_perm
        have := r1.map HuffmanNode.count
        simp only [List.map_cons, count_mk] at this
        exact this.trans ((List.perm_insertionSort _ _).symm.cons _)
    · have h2' : ¬ pq2.length > 1 := by omega
      rw [if_neg h2, if_neg h2']
      exact hp

theorem leaves_eq_map (map : hashmap) (hnd : map.keys.Nodup) :
    map.keys.map (mkLeaf map)
      = map.map (fun e => HuffmanNode.mk e.1 (wrapInt e.2) .null .null) := by
  unfold hashmap.keys
  rw [List.map_map]
  apply List.map_congr_left
  intro e he
  simp only [Function.comp, mkLeaf]
  rw [hashmap_get_of_mem map hnd e he]

/-- Without ties, two enumerations of the same table give the same tree. -/
theorem buildEncodingTree_tie_free (m1 m2 : hashmap) (hp : m1.Perm m2) (hne : m1 ≠ [])
    (hnd : m1.keys.Nodup) (htf : tieFree (m1.map (fun e => wrapInt e.2)) = true) :
    buildEncodingTree m1 = buildEncodingTree m2 := by
  have hnd2 : m2.keys.Nodup := (hp.map Prod.fst).nodup_iff.mp hnd
  unfold buildEncodingTree
  simp only []
  have hp1 := pushLeaves_perm m1 m1.keys []
  have hp2 := pushLeaves_perm m2 m2.keys []
  rw [List.append_nil, leaves_eq_map m1 hnd] at hp1
  rw [List.append_nil, leaves_eq_map m2 hnd2] at hp2
  have hh1 := pushLeaves_heap m1 m1.keys [] isHeap_nil
  have hh2 := pushLeaves_heap m2 m2.keys [] isHeap_nil
  set pq1 := pushLeaves m1 m1.keys [] with hpq1
  set pq2 := pushLeaves m2 m2.keys [] with hpq2
  have hpq : pq1.Perm pq2 := hp1.trans ((hp.map _).trans hp2.symm)
  have hlen1 : pq1.length = m1.length := by
    have := hp1.length_eq; simpa using this
  have hne1 : pq1 ≠ [] := by
    intro h; rw [h] at hlen1; exact hne (List.length_eq_zero.mp hlen1.symm)
  have hcounts : (pq1.map HuffmanNode.count).Perm (m1.map (fun e => wrapInt e.2)) := by
    have := hp1.map HuffmanNode.count
    rw [List.map_map] at this
    exact this
  have htf1 : tieFreeAux pq1.length (pq1.map HuffmanNode.count) = true := by
    rw [tieFreeAux_perm _ hcounts, hlen1]
    simpa [tieFree] using htf
  have hm := mergeLoop_tie_free pq1.length pq1 pq2 hpq hh1 hh2 htf1
  obtain ⟨t, ht, _⟩ := mergeLoop_invariant (fun _ => True) (fun _ _ _ _ => trivial)
    (fun _ _ _ _ => trivial) pq1.length pq1 (by omega) hne1 trivial
  rw [← hpq.length_eq]
  rw [ht] at hm ⊢
  rw [List.singleton_perm.mp hm]

/-- C12, amended (determinism of code lengths). Two enumerations of the same
frequency table, of distinct keys other than `NOT_A_CHAR`, both give a code
table. When no tie arises, that is when the counts in the queue, as `int`
values, are pairwise distinct at every step of the construction, the two
trees are the same, and so are the two code tables: every symbol has the
same code, and the same code length. With ties the code length of a symbol
may depend on the enumeration; for positive counts whose sum is below `2^31`
the two code tables still have the same total weighted code length, the cost
of Huffman's algorithm on the counts. The same enumeration gives the same
code table. -/
theorem code_lengths_deterministic (m1 m2 : hashmap) (hp : m1.Perm m2) (hne : m1 ≠ [])
    (hnd : m1.keys.Nodup) (hk : NOT_A_CHAR ∉ m1.keys) :
    ∃ c1 c2, buildEncodingMap (buildEncodingTree m1) = some c1 ∧
      buildEncodingMap (buildEncodingTree m2) = some c2 ∧
      (tieFree (m1.map (fun e => wrapInt e.2)) = true →
        buildEncodingTree m1 = buildEncodingTree m2 ∧ c1 = c2 ∧
        ∀ k, codeLength c1 k = codeLength c2 k) ∧
      ((∀ e ∈ m1, 0 < e.2) → (m1.map Prod.snd).sum < 2147483648 →
        tableCost m1 (codeLength c1) = huffmanCost (m1.map Prod.snd) ∧
        tableCost m1 (codeLength c2) = huffmanCost (m1.map Prod.snd)) ∧
      (m1 = m2 → c1 = c2) := by
  have hkeys : m2.keys.Perm m1.keys := (hp.map _).symm
  have hne2 : m2 ≠ [] := by
    intro h
    rw [h] at hp
    exact hne (List.perm_nil.mp hp)
  have hnd2 : m2.keys.Nodup := hkeys.nodup_iff.mpr hnd
  have hk2 : NOT_A_CHAR ∉ m2.keys := fun h => hk (hkeys.mem_iff.mp h)
  obtain ⟨c1, h1, _⟩ := code_table_of_table m1 hne hk
  obtain ⟨c2, h2, _⟩ := code_table_of_table m2 hne2 hk2
  refine ⟨c1, c2, h1, h2, ?_, ?_, ?_⟩
  · intro htf
    have ht := buildEncodingTree_tie_free m1 m2 hp hne hnd htf
    have hc : c1 = c2 := by
      rw [ht, h2] at h1
      exact (Option.some.inj h1).symm
    exact ⟨ht, hc, fun k => by rw [hc]⟩
  · intro hpos hsum
    obtain ⟨c1', h1', h3⟩ := code_table_cost m1 hne hnd hk hpos hsum
    obtain ⟨c2', h2', h4⟩ := code_table_cost m2 hne2 hnd2 hk2
      (fun e he => hpos e (hp.mem_iff.mpr he))
      (by rw [← (hp.map Prod.snd).sum_eq]; exact hsum)
    have e1 : c1' = c1 := Option.some.inj (h1'.symm.trans h1)
    have e2 : c2' = c2 := Option.some.inj (h2'.symm.trans h2)
    subst e1 e2
    refine ⟨h3, ?_⟩
    rw [tableCost_perm hp, h4]
    exact huffmanCost_perm (hp.map Prod.snd).symm
  · intro e
    subst e
    rw [h1] at h2
    exact Option.some.inj h2

set_option maxRecDepth 100000 in
/-- The witness of C12: the table `{a:5, b:9, c:12, d:13, e:16, f:45}`, on
which no tie arises, enumerated forwards and backwards, gives the same tree
and the same code table; the two enumerations of the table of `"ab"`, on
which the counts tie, give code tables that both cost five bits. -/
theorem code_lengths_deterministic_witness :
    tieFree (handTable.map (fun e => wrapInt e.2)) = true ∧
    buildEncodingTree handTable = buildEncodingTree handTable.reverse ∧
    buildEncodingMap (buildEncodingTree handTable)
      = buildEncodingMap (buildEncodingTree handTable.reverse) ∧
    tieFree (List.map (fun e => wrapInt e.2) [((97 : Int), (1 : Int)), (98, 1), (256, 1)])
      = false ∧
    ∃ c1 c2, buildEncodingMap (buildEncodingTree [(97, 1), (98, 1), (256, 1)]) = some c1 ∧
      buildEncodingMap (buildEncodingTree [(98, 1), (256, 1), (97, 1)]) = some c2 ∧
      tableCost [(97, 1), (98, 1), (256, 1)] (codeLength c1) = huffmanCost [1, 1, 1] ∧
      tableCost [(97, 1), (98, 1), (256, 1)] (codeLength c2) = huffmanCost [1, 1, 1] := by
  obtain ⟨c1, c2, h1, h2, h3, _, _⟩ := code_lengths_deterministic handTable handTable.reverse
    (List.reverse_perm handTable).symm (by decide) (by decide) (by decide)
  obtain ⟨d1, d2, g1, g2, _, g4, _⟩ := code_lengths_deterministic
    [(97, 1), (98, 1), (256, 1)] [(98, 1), (256, 1), (97, 1)]
    (@List.perm_append_comm _ [(97, 1)] [(98, 1), (256, 1)]) (by decide) (by decide) (by decide)
  have htf : tieFree (handTable.map (fun e => wrapInt e.2)) = true := by decide
  refine ⟨htf, (h3 htf).1, ?_, by decide, d1, d2, g1, g2, g4 (by decide) (by decide)⟩
  rw [h1, h2, (h3 htf).2.1]

/-! ## The output of `encode` -/

theorem encodeLoop_eq (codes : mymap) :
    ∀ (X : List CChar), (∀ c ∈ X, ∃ p, codes.get (charToInt c) = some p) →
      ∀ s0, encodeLoop codes X s0
        = some (s0 ++ X.flatMap (fun c => codeOf codes (charToInt c))) := by
  intro X
  induction X with
  | nil => intro _ s0; simp [encodeLoop]
  | cons c X ih =>
    intro h s0
    obtain ⟨p, hp⟩ := h c (by simp)
    simp only [encodeLoop, hp, List.flatMap_cons, codeOf, Option.getD_some]
    rw [ih (fun c' hc' => h c' (by simp [hc'])), List.append_assoc]
    rfl

/-- With a code for every input byte and for `PSEUDO_EOF`, `encode` returns
the codes of the bytes in order followed by the code of `PSEUDO_EOF`, the
length of that string as an `int`, and writes one bit for each of its
characters `'0'` and `'1'` when `makeFile` is set. -/
theorem encode_eq (X : List CChar) (codes : mymap) (makeFile : Bool)
    (hX : ∀ c ∈ X, ∃ p, codes.get (charToInt c) = some p)
    (hE : ∃ p, codes.get PSEUDO_EOF = some p) :
    encode X codes makeFile =
      some (codeString codes X, wrapInt ((codeString codes X).length : Nat),
        if makeFile then writeBits (codeString codes X) else []) := by
  obtain ⟨p, hp⟩ := hE
  unfold encode
  rw [encodeLoop_eq codes X hX]
  simp only [hp, List.nil_append, codeString, codeOf, Option.getD_some]

theorem writeBits_binary (s : List Char) (h : ∀ o ∈ s, o = '0' ∨ o = '1') :
    writeBits s = s.map (fun o => decide (o = '1')) := by
  induction s with
  | nil => rfl
  | cons o s ih =>
    rw [List.map_cons, ← ih (fun o' ho' => h o' (by simp [ho']))]
    rcases h o (by simp) with rfl | rfl <;> simp [writeBits]

theorem wrapInt_two_pow : wrapInt 2147483648 = -2147483648 := by decide

theorem length_longText_code :
    ((List.replicate 2147483647 '1' ++ ['0']).length : Nat) = 2147483648 := by
  rw [List.length_append, List.length_replicate]
  rfl

/-- C13, the claim as stated fails. A code that holds a character other than
`'0'` and `'1'` is in the string but is not written: for the text `"a"`, with
the code `x` for `a` and `0` for `PSEUDO_EOF`, the string is `x0` and one bit
is written. And for `2^31 - 1` bytes `a`, with the code `1` for `a` and `0`
for `PSEUDO_EOF`, the string has `2^31` characters and the size reported is
`-2^31`. -/
theorem encode_size_wraps :
    encode (str "a") [(97, ['x']), (256, ['0'])] true = some (['x', '0'], 2, [false]) ∧
    ∃ s bits, encode longText [(256, ['0']), (97, ['1'])] true
        = some (s, -2147483648, bits) ∧
      s.length = 2147483648 := by
  refine ⟨by decide, List.replicate 2147483647 '1' ++ ['0'],
    List.replicate 2147483647 true ++ [false], ?_, length_longText_code⟩
  have h := encode_replicate 97 2147483647
  rw [length_longText_code] at h
  rw [show ((2147483648 : Nat) : Int) = 2147483648 from rfl, wrapInt_two_pow] at h
  exact h

/-- C13, amended (output of the encoder). For every input and every code
table with an entry for each input byte and for `PSEUDO_EOF`, the string that
`encode` returns is the codes of the input bytes in order followed by the
code of `PSEUDO_EOF`, once; the size reported is the length of that string
reduced to an `int`, which is the length itself when it is below `2^31`, with
`makeFile` set or not; nothing is written when `makeFile` is not set, and
when it is set the bits written are those of the characters `'0'` and `'1'`
of the string, which is the whole string when the codes hold no other
character. -/
theorem encoder_output (X : List CChar) (codes : mymap) (makeFile : Bool)
    (hX : ∀ c ∈ X, (codes.get (charToInt c)).isSome = true)
    (hE : (codes.get PSEUDO_EOF).isSome = true) :
    ∃ size bits, encode X codes makeFile = some (codeString codes X, size, bits) ∧
      size = wrapInt ((codeString codes X).length : Nat) ∧
      ((codeString codes X).length < 2147483648 → size = ((codeString codes X).length : Nat)) ∧
      (makeFile = false → bits = []) ∧
      (makeFile = true → bits = writeBits (codeString codes X)) ∧
      (makeFile = true → (∀ o ∈ codeString codes X, o = '0' ∨ o = '1') →
        bits = (codeString codes X).map (fun o => decide (o = '1'))) := by
  refine ⟨_, _, encode_eq X codes makeFile (fun c hc => Option.isSome_iff_exists.mp (hX c hc))
    (Option.isSome_iff_exists.mp hE), rfl, ?_, ?_, ?_, ?_⟩
  · intro h
    exact wrapInt_of_range _ (by omega) (by omega)
  · intro h; simp [h]
  · intro h; simp [h]
  · intro h hb
    simp only [h, ↓reduceIte]
    exact writeBits_binary _ hb

set_option maxRecDepth 100000 in
/-- The witness of C13: the text `"ab"` with a code table of its tree. -/
theorem encoder_output_witness :
    ∃ size bits, encode (str "ab") [(256, "0".toList), (97, "10".toList), (98, "11".toList)] true
        = some (codeString [(256, "0".toList), (97, "10".toList), (98, "11".toList)] (str "ab"),
          size, bits) ∧
      size = wrapInt ((codeString [(256, "0".toList), (97, "10".toList), (98, "11".toList)]
        (str "ab")).length : Nat) ∧
      ((codeString [(256, "0".toList), (97, "10".toList), (98, "11".toList)] (str "ab")).length
          < 2147483648 →
        size = ((codeString [(256, "0".toList), (97, "10".toList), (98, "11".toList)]
          (str "ab")).length : Nat)) ∧
      (true = false → bits = []) ∧
      (true = true → bits = writeBits
        (codeString [(256, "0".toList), (97, "10".toList), (98, "11".toList)] (str "ab"))) ∧
      (true = true →
        (∀ o ∈ codeString [(256, "0".toList), (97, "10".toList), (98, "11".toList)] (str "ab"),
          o = '0' ∨ o = '1') →
        bits = (codeString [(256, "0".toList), (97, "10".toList), (98, "11".toList)]
          (str "ab")).map (fun o => decide (o = '1'))) :=
  encoder_output (str "ab") [(256, "0".toList), (97, "10".toList), (98, "11".toList)] true
    (by decide) (by decide)

/-! ## The encoded length is the weighted path length -/

theorem tableCost_put (f : Int → Nat) (m : hashmap) (k v : Int) :
    tableCost (m.put k v) f = tableCost m f + (v - m.get k) * (f k : Int) := by
  induction m with
  | nil => simp [hashmap.put, hashmap.get, tableCost]
  | cons e m ih =>
    obtain ⟨a, b⟩ := e
    by_cases h : a = k
    · subst h
      simp only [hashmap.put, hashmap.get, ↓reduceIte, tableCost, List.map_cons, List.sum_cons]
      ring
    · simp only [hashmap.put, hashmap.get, h, ↓reduceIte]
      have e1 : ∀ m' : hashmap, tableCost ((a, b) :: m') f = b * (f a : Int) + tableCost m' f :=
        fun m' => by simp [tableCost]
      rw [e1, e1, ih]
      ring

theorem tableCost_countChar (f : Int → Nat) (m : hashmap) (c : CChar) :
    tableCost (countChar m c) f = tableCost m f + (f (charToInt c) : Int) := by
  unfold countChar
  split
  · rw [tableCost_put]; ring
  · rename_i h
    rw [tableCost_put, hashmap_get_of_not_mem m _ (fun hm => h ((hashmap_containsKey_iff _ _).mpr hm))]
    ring

theorem tableCost_foldl_countChar (f : Int → Nat) (X : List CChar) :
    ∀ m : hashmap, tableCost (X.foldl countChar m) f
      = tableCost m f + (X.map (fun c => (f (charToInt c) : Int))).sum := by
  induction X with
  | nil => intro m; simp
  | cons c X ih =>
    intro m
    rw [List.foldl_cons, ih, tableCost_countChar, List.map_cons, List.sum_cons]
    ring

/-- The weighted sum over the table of a text is the sum over the bytes of
the text, plus the term of `PSEUDO_EOF`. -/
theorem tableCost_compressTable (f : Int → Nat) (X : List CChar) :
    tableCost (compressTable X) f
      = (X.map (fun c => (f (charToInt c) : Int))).sum + (f PSEUDO_EOF : Int) := by
  unfold compressTable
  have hE : PSEUDO_EOF ∉ (X.foldl countChar []).keys := by
    rw [mem_keys_foldl_countChar]
    rintro (h | ⟨c, _, h⟩)
    · simp [hashmap.keys] at h
    · exact charToInt_ne_PSEUDO_EOF c h
  rw [tableCost_put, tableCost_foldl_countChar, hashmap_get_of_not_mem _ _ hE]
  simp [tableCost]

theorem length_codeString (codes : mymap) (X : List CChar) :
    ((codeString codes X).length : Int)
      = (X.map (fun c => (codeLength codes (charToInt c) : Int))).sum
        + (codeLength codes PSEUDO_EOF : Int) := by
  unfold codeString
  rw [List.length_append]
  push_cast
  congr 1
  induction X with
  | nil => rfl
  | cons c X ih =>
    rw [List.flatMap_cons, List.length_append, List.map_cons, List.sum_cons]
    push_cast
    rw [ih]
    rfl

/-- The length of the string that `encode` returns for a text, with the code
table of the tree of any enumeration of the table of the text, is the
weighted sum of the code lengths over the table. -/
theorem encode_length (X : List CChar) (m : hashmap) (hm : m.Perm (compressTable X))
    (makeFile : Bool) :
    ∃ codes, buildEncodingMap (buildEncodingTree m) = some codes ∧
      encode X codes makeFile =
        some (codeString codes X, wrapInt (tableCost m (codeLength codes)),
          if makeFile then writeBits (codeString codes X) else []) ∧
      ((codeString codes X).length : Int) = tableCost m (codeLength codes) := by
  obtain ⟨_, _, _, codes, h1, h2⟩ := code_table_exists X m hm
  have hkeys : m.keys.Perm (compressTable X).keys := hm.map _
  have hX : ∀ c ∈ X, ∃ p, codes.get (charToInt c) = some p := fun c hc =>
    h2 _ (hkeys.mem_iff.mpr ((mem_keys_table X _).mpr (Or.inr ⟨c, hc, rfl⟩)))
  have hE : ∃ p, codes.get PSEUDO_EOF = some p :=
    h2 _ (hkeys.mem_iff.mpr ((mem_keys_table X _).mpr (Or.inl rfl)))
  have hl : ((codeString codes X).length : Int) = tableCost m (codeLength codes) := by
    rw [tableCost_perm hm, tableCost_compressTable, length_codeString]
  refine ⟨codes, h1, ?_, hl⟩
  rw [encode_eq X codes makeFile hX hE, ← hl]

/-- C19, the claim as stated fails: for `2^31 - 1` bytes `a` the table is
`{a: 2^31 - 1, PSEUDO_EOF: 1}`, each code has one bit, the sum over the table
of count times code length is `2^31`, and `encode` reports the size
`-2^31`. -/
theorem encoded_size_wraps :
    buildFrequencyMap (fun _ => none) longText false [] = some [(97, 2147483647), (256, 1)] ∧
    buildEncodingMap (buildEncodingTree [(97, 2147483647), (256, 1)])
      = some [(256, ['0']), (97, ['1'])] ∧
    (∃ s bits, encode longText [(256, ['0']), (97, ['1'])] true
      = some (s, -2147483648, bits)) ∧
    tableCost [(97, 2147483647), (256, 1)] (codeLength [(256, ['0']), (97, ['1'])])
      = 2147483648 := by
  refine ⟨?_, by decide, ?_, by decide⟩
  · rw [buildFrequencyMap_string]
    exact congrArg some (compressTable_replicate 97 2147483647 (by omega))
  · refine ⟨List.replicate 2147483647 '1' ++ ['0'],
      List.replicate 2147483647 true ++ [false], ?_⟩
    have h := encode_replicate 97 2147483647
    rw [length_longText_code] at h
    rw [show ((2147483648 : Nat) : Int) = 2147483648 from rfl, wrapInt_two_pow] at h
    exact h

/-- C19, amended (encoded length and weighted path length). For every text
`X`, with the table that `buildFrequencyMap` makes of `X` from the empty
table, in whatever order its entries are enumerated, and the code table of
the tree of that enumeration, `encode` returns a string whose length is the
sum over the symbols of the table, `PSEUDO_EOF` included, of count times code
length; the size it reports is that sum reduced to an `int`, which is the sum
itself when the sum is below `2^31`. -/
theorem encoded_length (fs : FileSystem) (X : List CChar) (table : hashmap)
    (h : buildFrequencyMap fs X false [] = some table) (m : hashmap) (hm : m.Perm table)
    (makeFile : Bool) :
    ∃ codes s size bits, buildEncodingMap (buildEncodingTree m) = some codes ∧
      encode X codes makeFile = some (s, size, bits) ∧
      (s.length : Int) = tableCost table (codeLength codes) ∧
      size = wrapInt (tableCost table (codeLength codes)) ∧
      (tableCost table (codeLength codes) < 2147483648 →
        size = tableCost table (codeLength codes)) := by
  rw [buildFrequencyMap_string] at h
  have ht := Option.some.inj h
  subst ht
  obtain ⟨codes, h1, h2, h3⟩ := encode_length X m hm makeFile
  rw [tableCost_perm hm] at h2 h3
  refine ⟨codes, _, _, _, h1, h2, h3, rfl, ?_⟩
  intro h
  exact wrapInt_of_range _ (by rw [← h3]; omega) h

set_option maxRecDepth 100000 in
/-- The witness of C19: the text `"aaabbc"`, encoded in 13 bits. -/
theorem encoded_length_witness :
    (∃ codes s size bits,
      buildEncodingMap (buildEncodingTree [(97, 3), (98, 2), (99, 1), (256, 1)]) = some codes ∧
      encode (str "aaabbc") codes true = some (s, size, bits) ∧
      (s.length : Int) = tableCost [(97, 3), (98, 2), (99, 1), (256, 1)] (codeLength codes) ∧
      size = wrapInt (tableCost [(97, 3), (98, 2), (99, 1), (256, 1)] (codeLength codes)) ∧
      (tableCost [(97, 3), (98, 2), (99, 1), (256, 1)] (codeLength codes) < 2147483648 →
        size = tableCost [(97, 3), (98, 2), (99, 1), (256, 1)] (codeLength codes))) ∧
    (buildEncodingMap (buildEncodingTree [(97, 3), (98, 2), (99, 1), (256, 1)])).bind
      (fun codes => (encode (str "aaabbc") codes true).map (fun r => r.2.1)) = some 13 :=
  ⟨encoded_length (fun _ => none) (str "aaabbc") [(97, 3), (98, 2), (99, 1), (256, 1)]
    (by decide) [(97, 3), (98, 2), (99, 1), (256, 1)] (List.Perm.refl _) true,
    by decide⟩

/-! ## The decoder on arbitrary bits -/

theorem decodeLoop_nil (tree : HuffmanNode) (c : Int) (z o : HuffmanNode) (s : List CChar) :
    ∀ fuel, decodeLoop tree fuel ⟨[], false⟩ (.mk NOT_A_CHAR c z o) s = some s := by
  intro fuel
  cases fuel with
  | zero => rfl
  | succ fuel =>
    cases fuel with
    | zero => simp [decodeLoop, ifbitstream.readBit, HuffmanNode.character?, PSEUDO_EOF, NOT_A_CHAR]
    | succ fuel =>
      simp [decodeLoop, ifbitstream.readBit, HuffmanNode.character?, PSEUDO_EOF, NOT_A_CHAR]

/-- From an internal node of a code tree, when no path of the node is an
initial segment of the bits left, the decoder reads them all without reaching
a leaf, and returns what it has decoded so far. -/
theorem decodeLoop_no_path (tree : HuffmanNode) :
    ∀ (bs : List Bool) (c : Int) (z o : HuffmanNode), IsCodeTree (.mk NOT_A_CHAR c z o) →
      (∀ k p, (k, p) ∈ paths (.mk NOT_A_CHAR c z o) → ¬ writeBits p <+: bs) →
      ∀ (fuel : Nat) (s : List CChar),
        decodeLoop tree fuel ⟨bs, false⟩ (.mk NOT_A_CHAR c z o) s = some s := by
  intro bs
  induction bs with
  | nil => intro c z o _ _ fuel s; exact decodeLoop_nil tree c z o s fuel
  | cons b bs ih =>
    intro c z o hct hno fuel s
    cases fuel with
    | zero => rfl
    | succ fuel =>
      rw [decodeLoop_cons]
      have hchild : IsCodeTree (if b then o else z) := by
        cases hct with
        | leaf _ _ h => exact absurd rfl h
        | node _ _ _ hz ho => cases b <;> simpa
      have hpaths : ∀ k q, (k, q) ∈ paths (if b then o else z) →
          (k, (if b then '1' else '0') :: q) ∈ paths (.mk NOT_A_CHAR c z o) := by
        intro k q hq
        simp only [paths, ne_eq, not_true_eq_false, ↓reduceIte, List.mem_append, List.mem_map,
          Prod.mk.injEq]
        cases b
        · exact Or.inl ⟨(k, q), by simpa using hq, rfl, rfl⟩
        · exact Or.inr ⟨(k, q), by simpa using hq, rfl, rfl⟩
      have hw : ∀ q, writeBits ((if b then '1' else '0') :: q) = b :: writeBits q := by
        intro q; cases b <;> simp [writeBits]
      generalize (if b then o else z) = child at hchild hpaths
      cases hchild with
      | leaf character count h =>
        exfalso
        apply hno character _ (hpaths character [] (by simp [paths, h]))
        rw [hw]
        simp [writeBits]
      | node count zero one hz ho =>
        simp only [HuffmanNode.character?]
        rw [if_neg (by decide), if_neg (by simp)]
        apply ih count zero one (IsCodeTree.node _ _ _ hz ho)
        intro k q hq hpre
        apply hno k _ (hpaths k q hq)
        rw [hw]
        exact (List.prefix_cons_inj b).mpr hpre

theorem paths_writeBits_ne_nil (c : Int) (z o : HuffmanNode) (k : Int) (p : List Char)
    (h : (k, p) ∈ paths (.mk NOT_A_CHAR c z o)) : writeBits p ≠ [] := by
  simp only [paths, ne_eq, not_true_eq_false, ↓reduceIte, List.mem_append, List.mem_map,
    Prod.mk.injEq, Prod.exists] at h
  rcases h with ⟨_, _, _, _, rfl⟩ | ⟨_, _, _, _, rfl⟩ <;> simp [writeBits]

/-- The decoder on any bits, from the root of a code tree that is not a
single leaf: it returns the bytes of the codes that it has read completely,
and stops at the code of `PSEUDO_EOF` or where no code is an initial segment
of what is left. -/
theorem decodeLoop_spec (c0 : Int) (z o : HuffmanNode)
    (hct : IsCodeTree (.mk NOT_A_CHAR c0 z o))
    (hnd : (leafSymbols (.mk NOT_A_CHAR c0 z o)).Nodup)
    (hsym : ∀ k ∈ leafSymbols (.mk NOT_A_CHAR c0 z o), k = PSEUDO_EOF ∨ ∃ c, charToInt c = k) :
    ∀ (f : Nat) (bs : List Bool), bs.length ≤ f → ∀ s : List CChar, ∃ Y r,
      decodeLoop (.mk NOT_A_CHAR c0 z o) f ⟨bs, false⟩ (.mk NOT_A_CHAR c0 z o) s
        = some (s ++ Y) ∧
      (∀ c ∈ Y, charToInt c ∈ leafSymbols (.mk NOT_A_CHAR c0 z o)) ∧
      bs = writeBits (Y.flatMap
        (fun c => codeOf (putAll [] (paths (.mk NOT_A_CHAR c0 z o))) (charToInt c))) ++ r ∧
      ((∃ p, (PSEUDO_EOF, p) ∈ paths (.mk NOT_A_CHAR c0 z o) ∧ writeBits p <+: r) ∨
        ∀ k p, (k, p) ∈ paths (.mk NOT_A_CHAR c0 z o) → ¬ writeBits p <+: r) := by
  intro f
  induction f using Nat.strong_induction_on with
  | _ f ih =>
    intro bs hlen s
    by_cases hex : ∃ k p, (k, p) ∈ paths (.mk NOT_A_CHAR c0 z o) ∧ writeBits p <+: bs
    · obtain ⟨k, p, hp, rest, rfl⟩ := hex
      have hpne := paths_ne_nil_of_node _ _ _ _ _ hp
      have hwne := paths_writeBits_ne_nil _ _ _ _ _ hp
      have hwl : 0 < (writeBits p).length := List.length_pos.mpr hwne
      rw [List.length_append] at hlen
      obtain ⟨f', rfl⟩ : ∃ f', f = (writeBits p).length + f' :=
        ⟨f - (writeBits p).length, by omega⟩
      rw [decodeLoop_path _ _ hct k p hp hpne]
      by_cases hk : k = PSEUDO_EOF
      · subst hk
        refine ⟨[], writeBits p ++ rest, by simp, by simp, by simp [writeBits],
          Or.inl ⟨p, hp, List.prefix_append _ _⟩⟩
      · rw [if_neg hk]
        have hmem : k ∈ leafSymbols (.mk NOT_A_CHAR c0 z o) :=
          List.mem_map.mpr ⟨(k, p), hp, rfl⟩
        obtain ⟨c, hc⟩ := (hsym k hmem).resolve_left hk
        subst hc
        obtain ⟨Y, r, h1, h2, h3, h4⟩ := ih f' (by omega) rest (by omega) (s ++ [c])
        refine ⟨c :: Y, r, ?_, ?_, ?_, h4⟩
        · rw [intToChar_charToInt, h1]; simp
        · intro c' hc'
          rcases List.mem_cons.mp hc' with rfl | hc'
          · exact hmem
          · exact h2 c' hc'
        · have hget := putAll_get_of_mem _ [] _ _ hnd hp
          rw [List.flatMap_cons, writeBits_append, List.append_assoc, ← h3]
          simp [codeOf, hget]
    · refine ⟨[], bs, ?_, by simp, by simp [writeBits], Or.inr ?_⟩
      · rw [decodeLoop_no_path _ bs c0 z o hct (fun k p hp hpre => hex ⟨k, p, hp, hpre⟩)]
        simp
      · intro k p hp hpre
        exact hex ⟨k, p, hp, hpre⟩

/-- The decoder with the tree of any enumeration of the table of a non-empty
text, on any bits. -/
theorem table_decode_spec (X : List CChar) (hX : X ≠ []) (m : hashmap)
    (hm : m.Perm ((X.foldl countChar []).put PSEUDO_EOF 1)) (bits : List Bool) :
    ∃ codes Y r, buildEncodingMap (buildEncodingTree m) = some codes ∧
      decode ⟨bits, false⟩ (buildEncodingTree m) = some Y ∧
      (∀ c ∈ Y, c ∈ X) ∧
      bits = writeBits (Y.flatMap (fun c => codeOf codes (charToInt c))) ++ r ∧
      (writeBits (codeOf codes PSEUDO_EOF) <+: r ∨
        ∀ k p, codes.get k = some p → ¬ writeBits p <+: r) := by
  have hkeys : m.keys.Perm ((X.foldl countChar []).put PSEUDO_EOF 1).keys := hm.map _
  have hmem : ∀ k, k ∈ m.keys ↔ k = PSEUDO_EOF ∨ ∃ c ∈ X, charToInt c = k := by
    intro k; rw [hkeys.mem_iff, mem_keys_table]
  have hnd : m.keys.Nodup := hkeys.nodup_iff.mpr (nodup_keys_table X)
  have hnac : NOT_A_CHAR ∉ m.keys := by
    rw [hkeys.mem_iff]; exact not_a_char_not_mem_table X
  obtain ⟨c, X', rfl⟩ := List.exists_cons_of_ne_nil hX
  have h2 : 2 ≤ m.length := by
    have h1 : PSEUDO_EOF ∈ m.keys := (hmem _).mpr (Or.inl rfl)
    have h2 : charToInt c ∈ m.keys := (hmem _).mpr (Or.inr ⟨c, by simp, rfl⟩)
    have hsub : [PSEUDO_EOF, charToInt c] ⊆ m.keys := by
      intro x hx
      simp only [List.mem_cons, List.mem_singleton, List.not_mem_nil, or_false] at hx
      rcases hx with rfl | rfl <;> assumption
    have hnd2 : [PSEUDO_EOF, charToInt c].Nodup := by
      simp [Ne.symm (charToInt_ne_PSEUDO_EOF c)]
    have := (List.subperm_of_subset hnd2 hsub).length_le
    simpa [hashmap.keys] using this
  have hne : m ≠ [] := by intro h; rw [h] at h2; simp at h2
  obtain ⟨hct, hls⟩ := buildEncodingTree_spec m hne hnac
  obtain ⟨c0, z, o, ht⟩ := buildEncodingTree_root m h2
  rw [ht] at hct hls ⊢
  have hnd' := hls.nodup_iff.mpr hnd
  obtain ⟨Y, r, h1, h3, h4, h5⟩ := decodeLoop_spec c0 z o hct hnd'
    (by
      intro k hk
      rcases (hmem k).mp (hls.mem_iff.mp hk) with h | ⟨c', _, h⟩
      · exact Or.inl h
      · exact Or.inr ⟨c', h⟩)
    (bits.length + 1) bits (by omega) []
  refine ⟨_, Y, r, buildEncodingMap_eq _ hct, by simpa [decode] using h1, ?_, h4, ?_⟩
  · intro c' hc'
    rcases (hmem _).mp (hls.mem_iff.mp (h3 c' hc')) with h | ⟨c'', hc'', h⟩
    · exact absurd h (charToInt_ne_PSEUDO_EOF c')
    · rw [← charToInt_injective h]; exact hc''
  · rcases h5 with ⟨p, hp, hpre⟩ | h5
    · left
      simpa [codeOf, putAll_get_of_mem _ [] _ _ hnd' hp] using hpre
    · right
      intro k p hg
      exact h5 k p (putAll_get_some _ k p hg)

/-- C14, the claim as stated fails: the table that `buildFrequencyMap` makes
of the empty text has the single entry of `PSEUDO_EOF`, its tree is a single
leaf, and on the one bit `0` the decoder moves to the zero child of the leaf,
which is null, and reads its field `character`. -/
theorem decode_reads_null_child :
    buildFrequencyMap (fun _ => none) [] false [] = some [(256, 1)] ∧
    buildEncodingTree [(256, 1)] = .mk 256 1 .null .null ∧
    decode ⟨[false], false⟩ (buildEncodingTree [(256, 1)]) = none := by
  decide

/-- C14, amended (safety of the decoder on truncated input). For the tree of
any enumeration of the table that `buildFrequencyMap` makes of a non-empty
text, and every finite sequence of bits, `decode` returns, without reading
through a null child: what it returns is made of bytes of the text, their
codes in order are an initial segment of the bits, and what is left of the
bits begins with the code of `PSEUDO_EOF` or with no code at all, the input
having run out before another code was complete. (For the empty text the tree
is a single leaf and only the empty sequence of bits is decoded safely.) -/
theorem decoder_safe (fs : FileSystem) (X : List CChar) (hX : X ≠ []) (table : hashmap)
    (h : buildFrequencyMap fs X false [] = some table) (m : hashmap) (hm : m.Perm table)
    (bits : List Bool) :
    ∃ codes Y r, buildEncodingMap (buildEncodingTree m) = some codes ∧
      decode ⟨bits, false⟩ (buildEncodingTree m) = some Y ∧
      (∀ c ∈ Y, c ∈ X) ∧
      bits = writeBits (Y.flatMap (fun c => codeOf codes (charToInt c))) ++ r ∧
      (writeBits (codeOf codes PSEUDO_EOF) <+: r ∨
        ∀ k p, codes.get k = some p → ¬ writeBits p <+: r) := by
  rw [buildFrequencyMap_string] at h
  exact table_decode_spec X hX m (Option.some.inj h ▸ hm) bits

/-- The witness of C14: with the tree of the text `"ab"`, the bits `101`, the
code of `a` followed by the first bit of an unfinished code, are decoded as
`"a"`, and the empty sequence of bits with the single leaf of the empty text
as the empty text. -/
theorem decoder_safe_witness :
    (∃ codes Y r, buildEncodingMap (buildEncodingTree [(97, 1), (98, 1), (256, 1)]) = some codes ∧
      decode ⟨[true, false, true], false⟩ (buildEncodingTree [(97, 1), (98, 1), (256, 1)])
        = some Y ∧
      (∀ c ∈ Y, c ∈ str "ab") ∧
      [true, false, true] = writeBits (Y.flatMap (fun c => codeOf codes (charToInt c))) ++ r ∧
      (writeBits (codeOf codes PSEUDO_EOF) <+: r ∨
        ∀ k p, codes.get k = some p → ¬ writeBits p <+: r)) ∧
    decode ⟨[true, false, true], false⟩ (buildEncodingTree [(97, 1), (98, 1), (256, 1)])
      = some (str "a") ∧
    decode ⟨[], false⟩ (buildEncodingTree [(256, 1)]) = some [] :=
  ⟨decoder_safe (fun _ => none) (str "ab") (by decide) [(97, 1), (98, 1), (256, 1)]
    (by decide) [(97, 1), (98, 1), (256, 1)] (List.Perm.refl _) [true, false, true],
    by decide, by decide⟩

/-! ## Codes are strings of binary digits -/

theorem treeRecursion_binary (t : HuffmanNode) :
    ∀ (s : List Char) (m m' : mymap), _treeRecursion t s m = some m' →
      (∀ o ∈ s, o = '0' ∨ o = '1') →
      (∀ k c, m.get k = some c → ∀ o ∈ c, o = '0' ∨ o = '1') →
      ∀ k c, m'.get k = some c → ∀ o ∈ c, o = '0' ∨ o = '1' := by
  induction t with
  | null => intro s m m' h; simp [_treeRecursion] at h
  | mk character count zero one ihz iho =>
    intro s m m' h hs hm k c hk
    unfold _treeRecursion at h
    split at h
    · have h' := Option.some.inj h
      subst h'
      rw [mymap_get_put] at hk
      split at hk
      · rw [← Option.some.inj hk]; exact hs
      · exact hm k c hk
    · split at h
      · exact absurd h (by simp)
      · rename_i m1 h1
        have hs0 : ∀ o ∈ s ++ ['0'], o = '0' ∨ o = '1' := by
          intro o ho
          rcases List.mem_append.mp ho with ho | ho
          · exact hs o ho
          · simp at ho; exact Or.inl ho
        have hs1 : ∀ o ∈ s ++ ['1'], o = '0' ∨ o = '1' := by
          intro o ho
          rcases List.mem_append.mp ho with ho | ho
          · exact hs o ho
          · simp at ho; exact Or.inr ho
        exact iho _ _ _ h hs1 (ihz _ _ _ h1 hs0 hm) k c hk

/-- Every code of a table that `buildEncodingMap` returns is made of the
characters `'0'` and `'1'`. -/
theorem buildEncodingMap_binary (t : HuffmanNode) (codes : mymap)
    (h : buildEncodingMap t = some codes) :
    ∀ k c, codes.get k = some c → ∀ o ∈ c, o = '0' ∨ o = '1' :=
  treeRecursion_binary t [] [] codes h (by simp) (by simp [mymap.get])

theorem writeBits_length (c : List Char) (h : ∀ o ∈ c, o = '0' ∨ o = '1') :
    (writeBits c).length = c.length := by
  rw [writeBits_binary c h, List.length_map]

theorem writeBits_initial_segment : ∀ c1 c2 : List Char, (∀ o ∈ c1, o = '0' ∨ o = '1') →
    (∀ o ∈ c2, o = '0' ∨ o = '1') → writeBits c1 <+: writeBits c2 → c1 <+: c2 := by
  intro c1
  induction c1 with
  | nil => intro c2 _ _ _; exact List.nil_prefix
  | cons a c1 ih =>
    intro c2 h1 h2 hp
    rw [writeBits_binary _ h1, writeBits_binary _ h2] at hp
    cases c2 with
    | nil => simp at hp
    | cons b c2 =>
      simp only [List.map_cons] at hp
      obtain ⟨hab, hp'⟩ := List.cons_prefix_cons.mp hp
      have e : a = b := by
        rcases h1 a (by simp) with rfl | rfl <;> rcases h2 b (by simp) with rfl | rfl <;>
          simp_all
      subst e
      apply List.cons_prefix_cons.mpr
      refine ⟨rfl, ih c2 (fun o ho => h1 o (by simp [ho])) (fun o ho => h2 o (by simp [ho])) ?_⟩
      rw [writeBits_binary _ (fun o ho => h1 o (by simp [ho])),
        writeBits_binary _ (fun o ho => h2 o (by simp [ho]))]
      exact hp'

/-- The code table of the tree of a table of positive counts whose sum fits
in an `int` is a binary prefix code for the keys of the table, and costs no
more than any binary prefix code for them. -/
theorem code_table_prefix_optimal (map : hashmap) (hne : map ≠ []) (hnd : map.keys.Nodup)
    (hk : NOT_A_CHAR ∉ map.keys) (hpos : ∀ e ∈ map, 0 < e.2)
    (hsum : (map.map Prod.snd).sum < 2147483648) :
    ∃ codes, buildEncodingMap (buildEncodingTree map) = some codes ∧
      (∀ k ∈ map.keys, ∃ c, codes.get k = some c ∧ ∀ o ∈ c, o = '0' ∨ o = '1') ∧
      (∀ k1 ∈ map.keys, ∀ k2 ∈ map.keys, k1 ≠ k2 →
        ¬ writeBits (codeOf codes k1) <+: writeBits (codeOf codes k2)) ∧
      (∀ k ∈ map.keys, (writeBits (codeOf codes k)).length = codeLength codes k) ∧
      ∀ f : Int → List Bool,
        (∀ k1 ∈ map.keys, ∀ k2 ∈ map.keys, k1 ≠ k2 → ¬ f k1 <+: f k2) →
        tableCost map (codeLength codes) ≤ tableCost map (fun k => (f k).length) := by
  obtain ⟨codes, h1, h2, h3⟩ := code_table_of_table map hne hk
  obtain ⟨codes', h1', h4⟩ := code_table_optimal map hne hnd hk hpos hsum
  have e : codes' = codes := Option.some.inj (h1'.symm.trans h1)
  subst e
  have hbin := buildEncodingMap_binary _ _ h1
  refine ⟨codes', h1, ?_, ?_, ?_, h4⟩
  · intro k hkm
    obtain ⟨c, hc⟩ := h2 k hkm
    exact ⟨c, hc, hbin k c hc⟩
  · intro k1 hk1 k2 hk2 hne12 hp
    obtain ⟨c1, hc1⟩ := h2 k1 hk1
    obtain ⟨c2, hc2⟩ := h2 k2 hk2
    simp only [codeOf, hc1, hc2, Option.getD_some] at hp
    exact h3 k1 k2 c1 c2 hc1 hc2 hne12
      (writeBits_initial_segment c1 c2 (hbin k1 c1 hc1) (hbin k2 c2 hc2) hp)
  · intro k hkm
    obtain ⟨c, hc⟩ := h2 k hkm
    simp only [codeOf, codeLength, hc, Option.getD_some]
    exact writeBits_length c (hbin k c hc)

/-- C4, amended (optimality without overflow). For every frequency table with
at least two symbols (distinct keys, none of them `NOT_A_CHAR`) and positive
counts whose sum is below `2^31`, the code table obtained from
`buildEncodingTree` and `buildEncodingMap` exists and is a binary prefix code
for the symbols of the table: every symbol has a code, made of the characters
`'0'` and `'1'`, and the bits of the code of a symbol are not an initial
segment of the bits of the code of another. It minimises the sum over the
symbols of code length times count among all binary prefix codes for those
symbols. -/
theorem huffman_optimal (map : hashmap) (h2 : 2 ≤ map.length) (hnd : map.keys.Nodup)
    (hk : NOT_A_CHAR ∉ map.keys) (hpos : ∀ e ∈ map, 0 < e.2)
    (hsum : (map.map Prod.snd).sum < 2147483648) :
    ∃ codes, buildEncodingMap (buildEncodingTree map) = some codes ∧
      (∀ k ∈ map.keys, ∃ c, codes.get k = some c ∧ ∀ o ∈ c, o = '0' ∨ o = '1') ∧
      (∀ k1 ∈ map.keys, ∀ k2 ∈ map.keys, k1 ≠ k2 →
        ¬ writeBits (codeOf codes k1) <+: writeBits (codeOf codes k2)) ∧
      (∀ k ∈ map.keys, (writeBits (codeOf codes k)).length = codeLength codes k) ∧
      ∀ f : Int → List Bool,
        (∀ k1 ∈ map.keys, ∀ k2 ∈ map.keys, k1 ≠ k2 → ¬ f k1 <+: f k2) →
        tableCost map (codeLength codes) ≤ tableCost map (fun k => (f k).length) :=
  code_table_prefix_optimal map (by intro h; rw [h] at h2; simp at h2) hnd hk hpos hsum

/-- The witness of C4 amended: the table of the sample string. -/
theorem huffman_optimal_witness :
    ∃ codes, buildEncodingMap (buildEncodingTree [(97, 3), (98, 2), (99, 1), (256, 1)])
        = some codes ∧
      (∀ k ∈ hashmap.keys [(97, 3), (98, 2), (99, 1), (256, 1)],
        ∃ c, codes.get k = some c ∧ ∀ o ∈ c, o = '0' ∨ o = '1') ∧
      (∀ k1 ∈ hashmap.keys [(97, 3), (98, 2), (99, 1), (256, 1)],
        ∀ k2 ∈ hashmap.keys [(97, 3), (98, 2), (99, 1), (256, 1)], k1 ≠ k2 →
          ¬ writeBits (codeOf codes k1) <+: writeBits (codeOf codes k2)) ∧
      (∀ k ∈ hashmap.keys [(97, 3), (98, 2), (99, 1), (256, 1)],
        (writeBits (codeOf codes k)).length = codeLength codes k) ∧
      ∀ f : Int → List Bool,
        (∀ k1 ∈ hashmap.keys [(97, 3), (98, 2), (99, 1), (256, 1)],
          ∀ k2 ∈ hashmap.keys [(97, 3), (98, 2), (99, 1), (256, 1)],
            k1 ≠ k2 → ¬ f k1 <+: f k2) →
        tableCost [(97, 3), (98, 2), (99, 1), (256, 1)] (codeLength codes) ≤
          tableCost [(97, 3), (98, 2), (99, 1), (256, 1)] (fun k => (f k).length) :=
  huffman_optimal [(97, 3), (98, 2), (99, 1), (256, 1)] (by decide) (by decide) (by decide)
    (by decide) (by decide)

/-! ## Codes are not empty when there are two entries -/

/-- The tree and the code table of a table of one entry whose key is not
`NOT_A_CHAR`: a single leaf, with the empty code. -/
theorem single_entry_table (k v : Int) (hk : k ≠ NOT_A_CHAR) :
    buildEncodingTree [(k, v)] = .mk k (wrapInt v) .null .null ∧
    buildEncodingMap (buildEncodingTree [(k, v)]) = some [(k, [])] := by
  obtain ⟨h1, h2, _⟩ := buildEncodingTree_shape [(k, v)] (by simp) (by simp [hashmap.keys])
    (by simpa [hashmap.keys] using Ne.symm hk)
  have ht := single_leaf _ h1 k (wrapInt v) (by simpa using h2)
  refine ⟨ht, ?_⟩
  rw [ht]
  simp [buildEncodingMap, _treeRecursion, hk, mymap.put]

/-- C9, amended (no empty code when there are two entries). For every frequency
table with at least two entries, every code of the table that
`buildEncodingMap` returns for the tree of `buildEncodingTree` is a non-empty
string of the characters `'0'` and `'1'`; that table is returned whenever the
table is not empty and no key is `NOT_A_CHAR`, with a code for every key; and
for a table with exactly one entry, whose key is not `NOT_A_CHAR`, the tree is
a single leaf and the code table gives the only symbol the empty code. -/
theorem codes_nonempty (map : hashmap) (hne : map ≠ []) :
    (2 ≤ map.length → ∀ codes, buildEncodingMap (buildEncodingTree map) = some codes →
      ∀ k c, codes.get k = some c → c ≠ [] ∧ ∀ o ∈ c, o = '0' ∨ o = '1') ∧
    (NOT_A_CHAR ∉ map.keys →
      ∃ codes, buildEncodingMap (buildEncodingTree map) = some codes ∧
        ∀ k ∈ map.keys, ∃ c, codes.get k = some c) ∧
    (∀ k v, map = [(k, v)] → k ≠ NOT_A_CHAR →
      buildEncodingTree map = .mk k (wrapInt v) .null .null ∧
      buildEncodingMap (buildEncodingTree map) = some [(k, [])]) := by
  refine ⟨?_, ?_, ?_⟩
  · intro h2 codes h k c hc
    obtain ⟨cnt, z, o, hroot⟩ := buildEncodingTree_root map h2
    refine ⟨?_, buildEncodingMap_binary _ codes h k c hc⟩
    rw [hroot] at h
    exact treeRecursion_root_codes cnt z o codes h k c hc
  · intro hk
    obtain ⟨codes, h1, h2, _⟩ := code_table_of_table map hne hk
    exact ⟨codes, h1, h2⟩
  · intro k v hm hk
    subst hm
    exact single_entry_table k v hk

/-- The witness of C9 amended: the table of the sample string, and the table
of one entry `a ↦ 3`. -/
theorem codes_nonempty_witness :
    (∀ codes, buildEncodingMap (buildEncodingTree [(97, 3), (98, 2), (99, 1), (256, 1)])
        = some codes → ∀ k c, codes.get k = some c → c ≠ [] ∧ ∀ o ∈ c, o = '0' ∨ o = '1') ∧
    (∃ codes, buildEncodingMap (buildEncodingTree [(97, 3), (98, 2), (99, 1), (256, 1)])
        = some codes ∧
      ∀ k ∈ hashmap.keys [(97, 3), (98, 2), (99, 1), (256, 1)], ∃ c, codes.get k = some c) ∧
    buildEncodingMap (buildEncodingTree [(97, 3)]) = some [(97, [])] :=
  ⟨(codes_nonempty [(97, 3), (98, 2), (99, 1), (256, 1)] (by decide)).1 (by decide),
    (codes_nonempty [(97, 3), (98, 2), (99, 1), (256, 1)] (by decide)).2.1 (by decide),
    ((codes_nonempty [(97, 3)] (by decide)).2.2 97 3 rfl (by decide)).2⟩

end FileCompression
